import Mathlib

/-!
# Poseidon-ext contract generator (`src/poseidon_ext_gencontract.js`)

A shallow embedding of `createCode`: the generator is a pure function from the
arity to the ordered list of assembler calls it makes, and the emitted stream
is given meaning by a small stack machine with a word-addressed scratch memory.

* The constant tables `K` (round constants) and `M` (mixing matrices) come from
  `poseidon_constants.json`, and the two dispatch codes from
  `Web3Utils.keccak256`; neither is part of the sources, so they are fields of
  `Ext` and every result holds for all of them.
* Machine words are natural numbers.  The only arithmetic the emitted code
  performs is `div`, `eq`, `or`, `addmod` and `mulmod`, none of which can leave
  the 256-bit range, so no wrap-around is modelled.
* The machine has sixteen duplicate operations (depths 0 to 15) and sixteen
  swap operations (depths 1 to 16).  `dup` or `swap` with another operand stops
  a run with `badOperand`, and a call of `createCode` that makes such a call
  returns no bytes.  The arity check admits 7 and 8, for which `mix` calls
  `dup(16)`; every result about executing `mix` is therefore stated for the
  arities 1 to 6, together with what happens for 7 and 8.
-/

namespace PoseidonExt

/-! ## Constants of the generator -/

/-- Source: `const N_ROUNDS_F = 8`. -/
def N_ROUNDS_F : Nat := 8

/-- Source: `const N_ROUNDS_P = [56, 57, 56, 60, 60, 63, 64, 63]`. -/
def N_ROUNDS_P : List Nat := [56, 57, 56, 60, 60, 63, 64, 63]

/-- The BN254 scalar field modulus, the value of the literal pushed at line 134. -/
def q : Nat := 0x30644e72e131a029b85045b68181585d2833e84879b9709143e1f593f0000001

/-- External data used by the generator: the tables of `poseidon_constants.json`
(`K t2 k` is `C[t2][k]`, `M t2 i j` is `M[t2][i][j]`), the hash used to derive
the dispatch codes, and the bytes that the finalize step of the assembler puts
in front of the emitted stream, as a function of the length of the stream (the
assembler is not part of the sources; the constant empty prefix is the plain
byte sequence of the stream). -/
structure Ext where
  K : Nat → Nat → Nat
  M : Nat → Nat → Nat → Nat
  keccak256 : String → String
  loader : Nat → List Nat

/-! ## Hexadecimal literals -/

/-- Source: `toHex256`.  `a.toString(16)` is `Nat.toDigits 16 a`; the `while`
loop prepends `"0"` until the length is at least 64. -/
def toHex256 (a : Nat) : String :=
  let S := Nat.toDigits 16 a
  "0x" ++ String.mk (List.replicate (64 - S.length) '0' ++ S)

/-- Value of one hexadecimal digit. -/
def hexDigitVal (c : Char) : Nat :=
  if 48 ≤ c.toNat ∧ c.toNat ≤ 57 then c.toNat - 48
  else if 97 ≤ c.toNat ∧ c.toNat ≤ 102 then c.toNat - 87
  else if 65 ≤ c.toNat ∧ c.toNat ≤ 70 then c.toNat - 55
  else 0

/-- Value of a string of hexadecimal digits, most significant first. -/
def hexDigitsVal (ds : List Char) : Nat :=
  ds.foldl (fun acc c => 16 * acc + hexDigitVal c) 0

/-- Value of a hexadecimal literal such as `"0x20"`. -/
def hexToNat (s : String) : Nat :=
  match s.data with
  | '0' :: 'x' :: ds => hexDigitsVal ds
  | ds => hexDigitsVal ds

/-- Source: `.slice(0, 10)` on the hash string: `"0x"` and eight digits. -/
def slice10 (s : String) : String := String.mk (s.data.take 10)

/-! ## The assembler interface -/

/-- Argument of `C.push`: a JavaScript number or a hexadecimal string. -/
inductive Lit where
  | num (n : Nat)
  | hex (s : String)
  deriving DecidableEq, Repr

/-- Value pushed for a literal. -/
def Lit.val : Lit → Nat
  | .num n => n
  | .hex s => hexToNat s

/-- One call on the assembler object `C`, named after the method called.
`jmp none` is `C.jmp()` (jump to the address on top of the stack),
`jmp (some l)` is `C.jmp(l)`; `ret` is `C.return()`. -/
inductive Instr where
  | push (x : Lit)
  | pushLabel (l : String)
  | dup (n : Nat)
  | swap (n : Nat)
  | pop
  | addmod
  | mulmod
  | div
  | eq
  | or
  | mload
  | mstore
  | calldataload
  | jmp (l : Option String)
  | jmpi (l : Option String)
  | label (l : String)
  | invalid
  | ret
  deriving DecidableEq, Repr

open Instr

/-! ## The generator -/

/-- Source: `saveM` (lines 37-45). -/
def saveM (E : Ext) (t : Nat) : List Instr :=
  (List.range t).flatMap fun i =>
    (List.range t).flatMap fun j =>
      [push (.hex (toHex256 (E.M (t - 2) i j))),
       push (.num ((1 + i * t + j) * 32)),
       mstore]

/-- Source: `ark(r)` (lines 47-56). -/
def ark (E : Ext) (t r : Nat) : List Instr :=
  (List.range t).flatMap fun i =>
    [dup t,
     push (.hex (toHex256 (E.K (t - 2) (r * t + i)))),
     dup (2 + i),
     addmod,
     swap (1 + i),
     pop]

/-- Source: `sigma(p)` (lines 58-72). -/
def sigma (t p : Nat) : List Instr :=
  [dup t, dup (1 + p), dup 1, dup 0, dup 2, dup 0, mulmod, dup 0, mulmod, mulmod,
   swap (1 + p), pop]

/-- Source: the body of the double loop of `mix` for one `(i, j)` (lines 78-93). -/
def mixCell (t i j : Nat) : List Instr :=
  if j = 0 then
    [dup (i + t), push (.num ((1 + i * t + j) * 32)), mload, dup (2 + i + j), mulmod]
  else
    [dup (1 + i + t), push (.num ((1 + i * t + j) * 32)), mload, dup (3 + i + j), mulmod,
     dup (2 + i + t), swap 2, addmod]

/-- Source: the first loop nest of `mix` (lines 76-95). -/
def mixRows (t : Nat) : List Instr :=
  (List.range t).flatMap fun i => (List.range t).flatMap fun j => mixCell t i j

/-- Source: the second loop of `mix` (lines 96-99). -/
def mixDrop (t : Nat) : List Instr :=
  (List.range t).flatMap fun i => [swap ((t - i) + (t - i - 1)), pop]

/-- Source: `mix` (lines 74-103). -/
def mix (t : Nat) : List Instr :=
  [label "mix"] ++ mixRows t ++ mixDrop t ++ [push (.num 0), mload, jmp none]

/-- The dispatch code for `poseidonExt(uint256,uint256[n])` (line 117). -/
def selUint (E : Ext) (nInputs : Nat) : String :=
  slice10 (E.keccak256 ("poseidonExt(uint256,uint256[" ++ toString nInputs ++ "])"))

/-- The dispatch code for `poseidonExt(uint256,bytes32[n])` (line 120). -/
def selBytes (E : Ext) (nInputs : Nat) : String :=
  slice10 (E.keccak256 ("poseidonExt(uint256,bytes32[" ++ toString nInputs ++ "])"))

/-- Source: the selector check (lines 112-124). -/
def checkSelector (E : Ext) (nInputs : Nat) : List Instr :=
  [push (.hex "0x0100000000000000000000000000000000000000000000000000000000"),
   push (.num 0),
   calldataload,
   div,
   dup 0,
   push (.hex (selUint E nInputs)),
   eq,
   swap 1,
   push (.hex (selBytes E nInputs)),
   eq,
   or,
   jmpi (some "start"),
   invalid]

/-- Source: push of `q` and load of the initial state (lines 134-161). -/
def loadState (nInputs : Nat) : List Instr :=
  [push (.hex "0x30644e72e131a029b85045b68181585d2833e84879b9709143e1f593f0000001")]
  ++ ((List.range nInputs).flatMap fun i =>
        [push (.num (0x04 + 0x20 + (0x20 * (nInputs - i - 1)))), calldataload])
  ++ [push (.num 0x04), calldataload]

/-- Source: the test of line 168, true for a full round. -/
def isFullRound (nRoundsF nRoundsP i : Nat) : Bool :=
  decide (i < nRoundsF / 2) || decide (i ≥ nRoundsP + nRoundsF / 2)

/-- Positions to which round `i` applies `sigma` (lines 168-174). -/
def sigmaPositions (t nRoundsF nRoundsP i : Nat) : List Nat :=
  if isFullRound nRoundsF nRoundsP i then List.range t else [0]

/-- Source: `"aferMix"+i` (line 175). -/
def strLabel (i : Nat) : String := "aferMix" ++ toString i

/-- Source: the emulated call of `mix` (lines 175-180). -/
def callMix (i : Nat) : List Instr :=
  [pushLabel (strLabel i), push (.num 0), mstore, jmp (some "mix"), label (strLabel i)]

/-- Source: one iteration of the round loop (lines 166-181). -/
def round (E : Ext) (t nRoundsF nRoundsP i : Nat) : List Instr :=
  ark E t i
  ++ (sigmaPositions t nRoundsF nRoundsP i).flatMap (sigma t)
  ++ callMix i

/-- Source: the round loop (lines 166-181). -/
def rounds (E : Ext) (t nRoundsF nRoundsP : Nat) : List Instr :=
  (List.range (nRoundsF + nRoundsP)).flatMap (round E t nRoundsF nRoundsP)

/-- Source: output of the result (lines 183-187). -/
def finish : List Instr :=
  [push (.hex "0x00"), mstore, push (.hex "0x20"), push (.hex "0x00"), ret]

/-- Source: `N_ROUNDS_P[t - 2]` (line 33). -/
def nRoundsPOf (t : Nat) : Nat := N_ROUNDS_P.getD (t - 2) 0

/-- The assembler calls made by `createCode(nInputs)` after the arity check, in
order (lines 31-189). -/
def instrs (E : Ext) (nInputs : Nat) : List Instr :=
  let t := nInputs + 1
  let nRoundsF := N_ROUNDS_F
  let nRoundsP := nRoundsPOf t
  checkSelector E nInputs
  ++ [label "start"]
  ++ saveM E t
  ++ loadState nInputs
  ++ rounds E t nRoundsF nRoundsP
  ++ finish
  ++ mix t

/-! ## The machine that runs the emitted stream

The assembler (`evmasm.js`) and the machine it targets are not part of the
sources; the definitions of this section follow the interface the specification
gives for them (literal push, duplicate and swap at a depth, pop, modular add
and multiply, memory load and store, input load, equality, or, labels, jumps,
abort, return).  An address is an index into the stream, and depth 0 is the top
of the stack, as in the stack comments of the source.  The depths at which the
machine can duplicate (0 to 15) and swap (1 to 16) are those of its opcode
numbering, see `encode`. -/

/-- Machine state: index of the next instruction, the stack (top first) and
the scratch memory, keyed by byte offset of a 32-byte word. -/
structure State where
  pc : Nat
  stack : List Nat
  mem : Nat → Nat

/-- Ways in which execution stops. -/
inductive Halt where
  | returned (data : List Nat)
  | invalid
  | stackUnderflow
  | badJump
  | unaligned
  | codeEnd
  | badOperand
  deriving DecidableEq, Repr

/-- Predicate of an instruction that defines label `l`. -/
def Instr.isLabel (l : String) : Instr → Bool
  | .label l' => l' == l
  | _ => false

/-- Modelled from the spec: label resolution of the assembler's finalize step
(`evmasm.js` is not among the sources).  A label denotes the position of its
definition in the stream. -/
def labelAddr : List Instr → String → Option Nat
  | [], _ => none
  | x :: r, l => if x.isLabel l then some 0 else (labelAddr r l).map (· + 1)

/-- Modelled from the spec: jumps target label definitions only (the machine is
not among the sources); true when position `a` holds a label definition. -/
def isDest (code : List Instr) (a : Nat) : Bool :=
  match code[a]? with
  | some (.label _) => true
  | _ => false

/-- Modelled from the spec: the input-load operation (the machine is not among
the sources): the 32-byte big-endian word of the call data at byte offset `off`;
bytes past the end read as zero. -/
def calldataWord (cd : List Nat) (off : Nat) : Nat :=
  (List.range 32).foldl (fun acc k => acc * 256 + cd.getD (off + k) 0 % 256) 0

/-- Modelled from the spec: the bytes returned for one memory word (the machine
is not among the sources): 32 bytes, most significant first. -/
def wordBytes (w : Nat) : List Nat :=
  (List.range 32).map fun k => w / 256 ^ (31 - k) % 256

/-- Modelled from the spec: the memory-store operation (the machine is not among
the sources): memory after storing word `v` at offset `off`. -/
def memStore (m : Nat → Nat) (off v : Nat) : Nat → Nat :=
  fun a => if a = off then v else m a

/-- Modelled from the spec: the modular-add operation (the machine is not among
the sources): zero when the modulus is zero. -/
def addmodOp (a b n : Nat) : Nat := if n = 0 then 0 else (a + b) % n

/-- Modelled from the spec: the modular-multiply operation (the machine is not
among the sources): zero when the modulus is zero. -/
def mulmodOp (a b n : Nat) : Nat := if n = 0 then 0 else (a * b) % n

/-- Modelled from the spec: the effect of one data operation of the assembler
interface (`evmasm.js` and the machine are not among the sources) on stack and
memory.  Depth 0 is the top of the stack; memory is accessed by whole words.
The machine has sixteen duplicate operations, for the depths 0 to 15, and
sixteen swap operations, for the depths 1 to 16; `dup` or `swap` with any other
operand is no operation of the machine and stops execution with `badOperand`. -/
def execOp (code : List Instr) (cd : List Nat) :
    Instr → List Nat → (Nat → Nat) → Except Halt (List Nat × (Nat → Nat))
  | .push x, s, m => .ok (x.val :: s, m)
  | .pushLabel l, s, m =>
    match labelAddr code l with
    | some a => .ok (a :: s, m)
    | none => .error .badJump
  | .dup n, s, m =>
    if n ≤ 15 then
      match s.get? n with
      | some v => .ok (v :: s, m)
      | none => .error .stackUnderflow
    else .error .badOperand
  | .swap n, s, m =>
    if 1 ≤ n ∧ n ≤ 16 then
      match s, s.get? n with
      | a :: _, some b => .ok ((s.set n a).set 0 b, m)
      | _, _ => .error .stackUnderflow
    else .error .badOperand
  | .pop, s, m =>
    match s with
    | _ :: r => .ok (r, m)
    | _ => .error .stackUnderflow
  | .addmod, s, m =>
    match s with
    | a :: b :: n :: r => .ok (addmodOp a b n :: r, m)
    | _ => .error .stackUnderflow
  | .mulmod, s, m =>
    match s with
    | a :: b :: n :: r => .ok (mulmodOp a b n :: r, m)
    | _ => .error .stackUnderflow
  | .div, s, m =>
    match s with
    | a :: b :: r => .ok (a / b :: r, m)
    | _ => .error .stackUnderflow
  | .eq, s, m =>
    match s with
    | a :: b :: r => .ok ((if a = b then 1 else 0) :: r, m)
    | _ => .error .stackUnderflow
  | .or, s, m =>
    match s with
    | a :: b :: r => .ok ((a ||| b) :: r, m)
    | _ => .error .stackUnderflow
  | .mload, s, m =>
    match s with
    | off :: r => if off % 32 = 0 then .ok (m off :: r, m) else .error .unaligned
    | _ => .error .stackUnderflow
  | .mstore, s, m =>
    match s with
    | off :: v :: r =>
      if off % 32 = 0 then .ok (r, memStore m off v) else .error .unaligned
    | _ => .error .stackUnderflow
  | .calldataload, s, m =>
    match s with
    | off :: r => .ok (calldataWord cd off :: r, m)
    | _ => .error .stackUnderflow
  | .label _, s, m => .ok (s, m)
  | .jmp _, _, _ => .error .badJump
  | .jmpi _, _, _ => .error .badJump
  | .invalid, _, _ => .error .invalid
  | .ret, _, _ => .error .badJump

/-- Modelled from the spec: transfer of control (the machine is not among the
sources) to address `a`, which must hold a label definition. -/
def jumpTo (code : List Instr) (a : Nat) (stack : List Nat) (mem : Nat → Nat) :
    Except Halt State :=
  if isDest code a then .ok ⟨a, stack, mem⟩ else .error .badJump

/-- Modelled from the spec: one step of the machine on the emitted stream
(`evmasm.js` and the machine are not among the sources). -/
def step (code : List Instr) (cd : List Nat) (s : State) : Except Halt State :=
  match code[s.pc]? with
  | none => .error .codeEnd
  | some (.jmp (some l)) =>
    match labelAddr code l with
    | some a => jumpTo code a s.stack s.mem
    | none => .error .badJump
  | some (.jmp none) =>
    match s.stack with
    | a :: r => jumpTo code a r s.mem
    | _ => .error .stackUnderflow
  | some (.jmpi (some l)) =>
    match s.stack with
    | c :: r =>
      if c = 0 then .ok ⟨s.pc + 1, r, s.mem⟩
      else
        match labelAddr code l with
        | some a => jumpTo code a r s.mem
        | none => .error .badJump
    | _ => .error .stackUnderflow
  | some (.jmpi none) =>
    match s.stack with
    | a :: c :: r => if c = 0 then .ok ⟨s.pc + 1, r, s.mem⟩ else jumpTo code a r s.mem
    | _ => .error .stackUnderflow
  | some .invalid => .error .invalid
  | some .ret =>
    match s.stack with
    | off :: len :: _ =>
      if off % 32 = 0 ∧ len % 32 = 0 then
        .error (.returned ((List.range (len / 32)).flatMap fun k => wordBytes (s.mem (off + 32 * k))))
      else .error .unaligned
    | _ => .error .stackUnderflow
  | some op =>
    match execOp code cd op s.stack s.mem with
    | .ok (st, m) => .ok ⟨s.pc + 1, st, m⟩
    | .error h => .error h

/-- Modelled from the spec: execution of the emitted stream (the machine is not
among the sources) for at most `fuel` steps; `none` when the fuel runs out. -/
def run (code : List Instr) (cd : List Nat) : Nat → State → Option Halt
  | 0, _ => none
  | fuel + 1, s =>
    match step code cd s with
    | .ok s' => run code cd fuel s'
    | .error h => some h

/-- State at program entry: first instruction, empty stack, zeroed memory. -/
def initState : State := ⟨0, [], fun _ => 0⟩

/-- Straight-line execution of a block of data operations. -/
def execBlock (code : List Instr) (cd : List Nat) :
    List Instr → List Nat → (Nat → Nat) → Except Halt (List Nat × (Nat → Nat))
  | [], s, m => .ok (s, m)
  | op :: ops, s, m =>
    match execOp code cd op s m with
    | .ok (s', m') => execBlock code cd ops s' m'
    | .error h => .error h

/-- Exactly `k` successful steps. -/
def stepN (code : List Instr) (cd : List Nat) : Nat → State → Except Halt State
  | 0, s => .ok s
  | k + 1, s =>
    match step code cd s with
    | .ok s' => stepN code cd k s'
    | .error h => .error h

/-- The result of running `createCode(nInputs)` on call data `cd` with the given fuel. -/
def exec (E : Ext) (nInputs : Nat) (cd : List Nat) (fuel : Nat) : Option Halt :=
  run (instrs E nInputs) cd fuel initState

/-! ## Finalisation and the entry point -/

/-- Digits of a hexadecimal literal without the `0x` prefix. -/
def hexBody (s : String) : List Char :=
  match s.data with
  | '0' :: 'x' :: ds => ds
  | ds => ds

/-- A digit string padded with one leading zero to even length. -/
def evenPad (ds : List Char) : List Char :=
  if ds.length % 2 = 1 then '0' :: ds else ds

/-- Bytes of an even-length string of hexadecimal digits. -/
def pairBytes : List Char → List Nat
  | a :: b :: r => (16 * hexDigitVal a + hexDigitVal b) :: pairBytes r
  | [a] => [hexDigitVal a]
  | [] => []

/-- Payload bytes of a pushed literal. -/
def Lit.bytes : Lit → List Nat
  | .num n => pairBytes (evenPad (Nat.toDigits 16 n))
  | .hex s => pairBytes (evenPad (hexBody s))

/-- Number of bytes an operation occupies. -/
def Instr.size : Instr → Nat
  | .push x => 1 + x.bytes.length
  | .pushLabel _ => 4
  | .jmp (some _) => 5
  | .jmpi (some _) => 5
  | _ => 1

/-- Byte offset of the definition of label `l`. -/
def byteOffset (code : List Instr) (l : String) : Nat :=
  ((code.takeWhile fun i => !i.isLabel l).map Instr.size).sum

/-- A three-byte push of the offset of label `l`. -/
def labelRef (code : List Instr) (l : String) : List Nat :=
  let d := byteOffset code l
  [0x62, d / 65536 % 256, d / 256 % 256, d % 256]

/-- Modelled from the spec: the bytes the assembler emits for one operation
(`evmasm.js` is not among the sources), with the opcode numbering of the EVM. -/
def encode (code : List Instr) : Instr → List Nat
  | .push x => (0x5f + x.bytes.length) :: x.bytes
  | .pushLabel l => labelRef code l
  | .dup n => [0x80 + n]
  | .swap n => [0x8f + n]
  | .pop => [0x50]
  | .addmod => [0x08]
  | .mulmod => [0x09]
  | .div => [0x04]
  | .eq => [0x14]
  | .or => [0x17]
  | .mload => [0x51]
  | .mstore => [0x52]
  | .calldataload => [0x35]
  | .jmp none => [0x56]
  | .jmp (some l) => labelRef code l ++ [0x56]
  | .jmpi none => [0x57]
  | .jmpi (some l) => labelRef code l ++ [0x57]
  | .label _ => [0x5b]
  | .invalid => [0xfe]
  | .ret => [0xf3]

/-- Modelled from the spec: the depth operands the target machine has (the
machine and the assembler `evmasm.js` are not among the sources).  In the
opcode numbering of `encode` the duplicates are the bytes 0x80 to 0x8f, for the
depths 0 to 15, and the swaps are 0x90 to 0x9f, for the depths 1 to 16. -/
def Instr.depthOk : Instr → Bool
  | .dup n => decide (n ≤ 15)
  | .swap n => decide (1 ≤ n ∧ n ≤ 16)
  | _ => true

/-- Modelled from the spec: the operations the target machine has (the machine
and the assembler `evmasm.js` are not among the sources): the pushes are the
bytes 0x60 to 0x7f, for payloads of 1 to 32 bytes, and `dup` and `swap` exist
for the depths of `depthOk`.  A call with any other operand names no operation
of the machine. -/
def Instr.representable : Instr → Bool
  | .push x => decide (1 ≤ x.bytes.length ∧ x.bytes.length ≤ 32)
  | op => op.depthOk

/-- The external data fit the words of the machine for arity `n`: the matrix
entries and round constants that `createCode(n)` pushes are below `2^256`, and
each of the two dispatch codes is four bytes long. -/
def Ext.fits (E : Ext) (n : Nat) : Prop :=
  (∀ i, i < n + 1 → ∀ j, j < n + 1 → E.M (n + 1 - 2) i j < 2 ^ 256)
    ∧ (∀ r, r < N_ROUNDS_F + nRoundsPOf (n + 1) → ∀ i, i < n + 1 →
        E.K (n + 1 - 2) (r * (n + 1) + i) < 2 ^ 256)
    ∧ (Lit.hex (selUint E n)).bytes.length = 4
    ∧ (Lit.hex (selBytes E n)).bytes.length = 4

instance (E : Ext) (n : Nat) : Decidable (E.fits n) := by
  unfold Ext.fits
  infer_instance

/-- Modelled from the spec: `C.createTxData()`, the finalize step of the
assembler (`evmasm.js` is not among the sources): label references are
resolved to absolute offsets and the stream is returned as bytes, behind the
prefix `E.loader`. -/
def createTxData (E : Ext) (code : List Instr) : List Nat :=
  E.loader (code.flatMap (encode code)).length ++ code.flatMap (encode code)

/-- Modelled from the spec: the outcome of making the calls `code` on the
assembler and then calling `C.createTxData()` (`evmasm.js` is not among the
sources): a call that names no operation of the machine raises an error and no
bytes are returned; otherwise the finalize step returns the bytes. -/
def assemble (E : Ext) (code : List Instr) : Except String (List Nat) :=
  if code.all Instr.representable then .ok (createTxData E code)
  else .error "Assertion failed"

/-- What a call of `createCode` does: `calls` are the calls on the assembler
object that the body of `createCode` issues, in program order, listed to the
end of the body also when the assembler refuses one of them; `result` is the
value returned or the error thrown. -/
structure GenResult where
  calls : List Instr
  result : Except String (List Nat)

/-- Source: `createCode` (lines 28-192). -/
def createCode (E : Ext) (nInputs : Int) : GenResult :=
  if nInputs < 1 ∨ nInputs > 8 then
    ⟨[], .error "Invalid number of inputs. Must be 1<=nInputs<=8"⟩
  else
    ⟨instrs E nInputs.toNat, assemble E (instrs E nInputs.toNat)⟩

/-! ## The reference permutation

The Poseidon permutation as the specification words it, on state vectors. -/

/-- The S-box `x ↦ x^5 mod q`. -/
def pow5 (x : Nat) : Nat := x ^ 5 % q

/-- Add-round-constant of round `r` on a state of width `t`. -/
def refArk (E : Ext) (t r : Nat) (st : List Nat) : List Nat :=
  (List.range t).map fun i => (st.getD i 0 + E.K (t - 2) (r * t + i)) % q

/-- The S-box layer: every position in a full round, position 0 only in a
partial round. -/
def refSbox (t : Nat) (full : Bool) (st : List Nat) : List Nat :=
  (List.range t).map fun i => if full || i == 0 then pow5 (st.getD i 0) else st.getD i 0

/-- Multiplication by the mixing matrix. -/
def refMix (E : Ext) (t : Nat) (st : List Nat) : List Nat :=
  (List.range t).map fun row =>
    ((List.range t).map fun col => st.getD col 0 * E.M (t - 2) row col).sum % q

/-- Rounds `i` with `i < 4` or `i ≥ P + 4` are full. -/
def refIsFull (t i : Nat) : Bool :=
  decide (i < 4) || decide (i ≥ nRoundsPOf t + 4)

/-- One round of the reference permutation. -/
def refRound (E : Ext) (t : Nat) (st : List Nat) (r : Nat) : List Nat :=
  refMix E t (refSbox t (refIsFull t r) (refArk E t r st))

/-- The reference permutation: `8 + partialRounds(t)` rounds. -/
def refPermutation (E : Ext) (t : Nat) (st : List Nat) : List Nat :=
  (List.range (8 + nRoundsPOf t)).foldl (refRound E t) st

/-- The initial state read from the call data: the word at offset 4, then the
`nInputs` words at offsets `36 + 32 k`. -/
def initialState (nInputs : Nat) (cd : List Nat) : List Nat :=
  calldataWord cd 4 :: (List.range nInputs).map fun k => calldataWord cd (36 + 32 * k)

/-! ## What the emitted blocks compute

State vectors as functions of the position; `vec t f` is the list of the first
`t` values. -/

/-- The first `t` values of `f`. -/
def vec (t : Nat) (f : Nat → Nat) : List Nat := (List.range t).map f

/-- Value computed by the code of `ark` for position `i`. -/
def arkF (E : Ext) (t r : Nat) (f : Nat → Nat) : Nat → Nat :=
  fun i => addmodOp (f i) (Lit.val (.hex (toHex256 (E.K (t - 2) (r * t + i))))) q

/-- Value computed by the code of `sigma`. -/
def sigmaVal (x : Nat) : Nat :=
  mulmodOp (mulmodOp (mulmodOp x x q) (mulmodOp x x q) q) x q

/-- Values after the `sigma` calls of a round. -/
def sboxF (full : Bool) (f : Nat → Nat) : Nat → Nat :=
  fun i => if full || i == 0 then sigmaVal (f i) else f i

/-- Value computed by the code of `mix` for one row, `Mx` being the matrix read. -/
def mixF (Mx : Nat → Nat → Nat) (t : Nat) (f : Nat → Nat) : Nat → Nat :=
  fun row => (List.range (t - 1)).foldl
    (fun acc c => addmodOp acc (mulmodOp (f (c + 1)) (Mx row (c + 1)) q) q)
    (mulmodOp (f 0) (Mx row 0) q)

/-- The matrix as `mix` reads it from memory. -/
def memM (t : Nat) (m : Nat → Nat) : Nat → Nat → Nat :=
  fun row col => m ((1 + row * t + col) * 32)

/-- Memory after the stores of `saveM`. -/
def saveMMem (E : Ext) (t : Nat) (m : Nat → Nat) : Nat → Nat :=
  (List.range t).foldl
    (fun m i => (List.range t).foldl
      (fun m j => memStore m ((1 + i * t + j) * 32) (Lit.val (.hex (toHex256 (E.M (t - 2) i j))))) m)
    m

/-- Value of a digit string in base `b`. -/
def digitsVal (b : Nat) (ds : List Char) : Nat :=
  ds.foldl (fun acc c => b * acc + hexDigitVal c) 0

/-- The stream up to the start of the round loop. -/
def header (E : Ext) (nInputs : Nat) : List Instr :=
  checkSelector E nInputs ++ [label "start"] ++ saveM E (nInputs + 1) ++ loadState nInputs

/-- The stream up to the start of round `i`. -/
def upTo (E : Ext) (nInputs i : Nat) : List Instr :=
  header E nInputs
    ++ (List.range i).flatMap (round E (nInputs + 1) N_ROUNDS_F (nRoundsPOf (nInputs + 1)))

/-- The data operations of round `i`, up to the jump to `mix`. -/
def roundData (E : Ext) (t nRoundsF nRoundsP i : Nat) : List Instr :=
  ark E t i ++ (sigmaPositions t nRoundsF nRoundsP i).flatMap (sigma t)
    ++ [pushLabel (strLabel i), push (.num 0), mstore]

/-- The data operations of `mix`, up to the final jump. -/
def mixData (t : Nat) : List Instr :=
  [label "mix"] ++ mixRows t ++ mixDrop t ++ [push (.num 0), mload]

/-- State vector after round `i`, `Mx` being the matrix held in memory. -/
def roundF (E : Ext) (t : Nat) (Mx : Nat → Nat → Nat) (f : Nat → Nat) (i : Nat) : Nat → Nat :=
  mixF Mx t (sboxF (isFullRound N_ROUNDS_F (nRoundsPOf t) i) (arkF E t i f))

/-- State vector after the first `i` rounds. -/
def iterF (E : Ext) (t : Nat) (Mx : Nat → Nat → Nat) (f : Nat → Nat) (i : Nat) : Nat → Nat :=
  (List.range i).foldl (roundF E t Mx) f

/-- The leading four bytes of the call data, as the dispatcher computes them:
the first word divided by the literal of line 112. -/
def selector (cd : List Nat) : Nat :=
  calldataWord cd 0 / hexToNat "0x0100000000000000000000000000000000000000000000000000000000"

/-- The value the dispatcher tests: non-zero when the selector is accepted. -/
def dispatchFlag (E : Ext) (nInputs : Nat) (cd : List Nat) : Nat :=
  (if hexToNat (selBytes E nInputs) = selector cd then 1 else 0)
    ||| (if hexToNat (selUint E nInputs) = selector cd then 1 else 0)

/-- The call data carries one of the two accepted dispatch codes. -/
def Accepted (E : Ext) (nInputs : Nat) (cd : List Nat) : Prop :=
  selector cd = hexToNat (selUint E nInputs) ∨ selector cd = hexToNat (selBytes E nInputs)

/-- The data operations of the selector check, up to the conditional jump. -/
def dispatchData (E : Ext) (nInputs : Nat) : List Instr :=
  (checkSelector E nInputs).take 11

/-- The initial state as a function of the position. -/
def initF (cd : List Nat) : Nat → Nat := fun k => calldataWord cd (4 + 32 * k)

/-! ## Concrete data for the worked examples -/

/-- Sample external data: small tables, a stand-in hash that tells the two
signatures apart, and a twelve-byte prefix that copies the stream into memory
and returns it. -/
def sampleExt : Ext where
  K := fun _ k => k + 1
  M := fun _ i j => i + 2 * j + 1
  keccak256 := fun s =>
    if s.data.contains 'b' then
      "0xb1b2b3b4000000000000000000000000000000000000000000000000000000ff"
    else
      "0xa1a2a3a4000000000000000000000000000000000000000000000000000000ff"
  loader := fun len =>
    [0x38, 0x60, 0x0c, 0x60, 0x00, 0x39, 0x61, len / 256 % 256, len % 256, 0x60, 0x00, 0xf3]

/-- A word holding the small number `v` as 32 big-endian bytes. -/
def smallWord (v : Nat) : List Nat := List.replicate 31 0 ++ [v]

/-- Call data for arity 2 with the `uint256[2]` dispatch code and state `(1, 2, 3)`. -/
def sampleCallU : List Nat :=
  [0xa1, 0xa2, 0xa3, 0xa4] ++ smallWord 1 ++ smallWord 2 ++ smallWord 3

/-- Call data for arity 2 with the `bytes32[2]` dispatch code and state `(1, 2, 3)`. -/
def sampleCallB : List Nat :=
  [0xb1, 0xb2, 0xb3, 0xb4] ++ smallWord 1 ++ smallWord 2 ++ smallWord 3

/-- Call data for arity 1 with the `uint256[1]` dispatch code and state `(0, 0)`. -/
def sampleCallZero : List Nat :=
  [0xa1, 0xa2, 0xa3, 0xa4] ++ smallWord 0 ++ smallWord 0

/-- Call data for arity 2 whose leading bytes match neither dispatch code. -/
def sampleCallBad : List Nat :=
  [0xde, 0xad, 0xbe, 0xef] ++ smallWord 1 ++ smallWord 2 ++ smallWord 3

/-- The running-reduced sum `mix` accumulates for one row: it starts as
`old[0] * M[row][0] mod q` and every further column adds
`old[col] * M[row][col] mod q`, reducing modulo `q` after each addition. -/
def mixAcc (E : Ext) (t : Nat) (old : List Nat) (row : Nat) : Nat :=
  (List.range (t - 1)).foldl
    (fun acc c => (acc + old.getD (c + 1) 0 * E.M (t - 2) row (c + 1) % q) % q)
    (old.getD 0 0 * E.M (t - 2) row 0 % q)

/-- The code of `mix` before the final load of the return address (lines 75-99). -/
def mixBody (t : Nat) : List Instr :=
  [label "mix"] ++ mixRows t ++ mixDrop t

/-- A memory holding the sample matrix of width 2 at the offsets `saveM` uses. -/
def sampleMem : Nat → Nat :=
  fun a => sampleExt.M 0 ((a / 32 - 1) / 2) ((a / 32 - 1) % 2)

/-- True for the operations that only act on stack and memory: everything but
label definitions, label pushes, jumps, abort and return. -/
def Instr.isData : Instr → Bool
  | .pushLabel _ => false
  | .jmp _ => false
  | .jmpi _ => false
  | .label _ => false
  | .invalid => false
  | .ret => false
  | _ => true

/-- The hexadecimal literals pushed by a block, in order. -/
def pushedHex : List Instr → List String
  | [] => []
  | .push (.hex s) :: r => s :: pushedHex r
  | _ :: r => pushedHex r

/-- Indices into `K[t-2]` used by `ark(r)`, in order (line 50). -/
def arkIndices (t r : Nat) : List Nat :=
  (List.range t).map fun i => r * t + i

/-- The sixteen lowercase hexadecimal digits. -/
def hexChars : List Char := "0123456789abcdef".data

/-- The call data in which the initial capacity word and every input word are
replaced by their residues modulo `q`, the leading four bytes being kept. -/
def reducedCall (nInputs : Nat) (cd : List Nat) : List Nat :=
  [cd.getD 0 0 % 256, cd.getD 1 0 % 256, cd.getD 2 0 % 256, cd.getD 3 0 % 256]
    ++ ((initialState nInputs cd).map (· % q)).flatMap wordBytes

/-- Call data for arity 2 with the `uint256[2]` dispatch code and the unreduced
state `(q + 1, 2, 3)`. -/
def sampleCallBig : List Nat :=
  [0xa1, 0xa2, 0xa3, 0xa4] ++ wordBytes (q + 1) ++ smallWord 2 ++ smallWord 3

/-- Call data for arity 7 with the `uint256[7]` dispatch code and state
`(1, 2, ..., 8)`. -/
def sampleCall7 : List Nat :=
  [0xa1, 0xa2, 0xa3, 0xa4] ++ (List.range 8).flatMap fun k => smallWord (k + 1)

/-- Call data for arity 7 with the `bytes32[7]` dispatch code and state
`(1, 2, ..., 8)`. -/
def sampleCall7B : List Nat :=
  [0xb1, 0xb2, 0xb3, 0xb4] ++ (List.range 8).flatMap fun k => smallWord (k + 1)

/-- A memory holding the sample matrix of width 8 at the offsets `saveM` uses. -/
def sampleMem8 : Nat → Nat :=
  fun a => sampleExt.M 6 ((a / 32 - 1) / 8) ((a / 32 - 1) % 8)

/-- Call data for arity 7 with the `uint256[7]` dispatch code and the unreduced
state `(q + 1, 2, ..., 8)`. -/
def sampleCall7Big : List Nat :=
  [0xa1, 0xa2, 0xa3, 0xa4] ++ wordBytes (q + 1)
    ++ (List.range 7).flatMap fun k => smallWord (k + 2)

/-! ## Theorems -/

/-! ### Hexadecimal literals and label names -/

theorem hexDigitVal_digitChar (d : Nat) (h : d < 16) : hexDigitVal (Nat.digitChar d) = d := by
  interval_cases d <;> rfl

theorem foldl_digits_append (b : Nat) (xs ys : List Char) (a : Nat) :
    (xs ++ ys).foldl (fun acc c => b * acc + hexDigitVal c) a
      = ys.foldl (fun acc c => b * acc + hexDigitVal c)
          (xs.foldl (fun acc c => b * acc + hexDigitVal c) a) := by
  simp [List.foldl_append]

theorem toDigitsCore_append (b : Nat) : ∀ (fuel n : Nat) (ds : List Char),
    Nat.toDigitsCore b fuel n ds = Nat.toDigitsCore b fuel n [] ++ ds := by
  intro fuel
  induction fuel with
  | zero => intro n ds; simp [Nat.toDigitsCore]
  | succ f ih =>
    intro n ds
    simp only [Nat.toDigitsCore]
    split
    · simp
    · rw [ih (n / b) (Nat.digitChar (n % b) :: ds), ih (n / b) [Nat.digitChar (n % b)]]
      simp

theorem digitsVal_toDigitsCore (b : Nat) (hb : 2 ≤ b) (hb16 : b ≤ 16) : ∀ (fuel n : Nat),
    n < fuel → digitsVal b (Nat.toDigitsCore b fuel n []) = n := by
  intro fuel
  induction fuel with
  | zero => intro n h; omega
  | succ f ih =>
    intro n h
    simp only [Nat.toDigitsCore]
    have hd : hexDigitVal (Nat.digitChar (n % b)) = n % b :=
      hexDigitVal_digitChar _ (lt_of_lt_of_le (Nat.mod_lt _ (by omega)) hb16)
    split
    · rename_i h0
      have : n < b := by
        rcases Nat.div_eq_zero_iff (by omega : 0 < b) |>.mp h0 with h1
        exact h1
      simp only [digitsVal, List.foldl_cons, List.foldl_nil, hd]
      rw [Nat.mod_eq_of_lt this]; omega
    · rename_i h0
      have hlt : n / b < f := by
        have : n / b < n := Nat.div_lt_self (by
          rcases Nat.eq_zero_or_pos n with h1 | h1
          · subst h1; simp at h0
          · exact h1) (by omega)
        omega
      rw [toDigitsCore_append]
      have := ih (n / b) hlt
      simp only [digitsVal] at this ⊢
      rw [List.foldl_append, this]
      simp [hd]
      have := Nat.div_add_mod n b
      linarith

theorem digitsVal_toDigits (b : Nat) (hb : 2 ≤ b) (hb16 : b ≤ 16) (n : Nat) :
    digitsVal b (Nat.toDigits b n) = n :=
  digitsVal_toDigitsCore b hb hb16 (n + 1) n (Nat.lt_succ_self n)

theorem digitsVal_replicate_zero (b k : Nat) (ds : List Char) :
    digitsVal b (List.replicate k '0' ++ ds) = digitsVal b ds := by
  induction k with
  | zero => simp
  | succ k ih =>
    simp only [digitsVal] at ih ⊢
    rw [List.replicate_succ, List.cons_append, List.foldl_cons]
    have : hexDigitVal '0' = 0 := rfl
    simpa [this] using ih

theorem hexToNat_toHex256 (a : Nat) : hexToNat (toHex256 a) = a := by
  have h : (toHex256 a).data
      = '0' :: 'x' :: (List.replicate (64 - (Nat.toDigits 16 a).length) '0' ++ Nat.toDigits 16 a) := by
    simp [toHex256]
  unfold hexToNat
  rw [h]
  show digitsVal 16 _ = a
  rw [digitsVal_replicate_zero, digitsVal_toDigits 16 (by omega) (by omega)]

theorem toString_injective (i j : Nat) (h : toString i = toString j) : i = j := by
  have h1 : (Nat.toDigits 10 i) = (Nat.toDigits 10 j) := by
    have := congrArg String.data h
    simpa [toString, Nat.repr] using this
  have := congrArg (digitsVal 10) h1
  rwa [digitsVal_toDigits 10 (by omega) (by omega), digitsVal_toDigits 10 (by omega) (by omega)] at this

theorem strLabel_injective (i j : Nat) (h : strLabel i = strLabel j) : i = j := by
  apply toString_injective
  have := congrArg String.data h
  simp only [strLabel, String.data_append] at this
  have := List.append_cancel_left this
  exact String.ext this

theorem strLabel_ne_mix (i : Nat) : strLabel i ≠ "mix" := by
  intro h
  have := congrArg String.data h
  simp only [strLabel, String.data_append] at this
  have h2 := congrArg List.head? this
  simp at h2

theorem strLabel_ne_start (i : Nat) : strLabel i ≠ "start" := by
  intro h
  have := congrArg String.data h
  simp only [strLabel, String.data_append] at this
  have h2 := congrArg List.head? this
  simp at h2

/-! ### Execution of straight-line blocks -/

theorem getElem?_mid (pre post : List Instr) (x : Instr) :
    (pre ++ x :: post)[pre.length]? = some x := by
  rw [List.getElem?_append_right (Nat.le_refl _)]
  simp

theorem step_data (code : List Instr) (cd : List Nat) (s : State) (op : Instr)
    (st' : List Nat) (m' : Nat → Nat)
    (hpc : code[s.pc]? = some op) (hop : execOp code cd op s.stack s.mem = .ok (st', m')) :
    step code cd s = .ok ⟨s.pc + 1, st', m'⟩ := by
  unfold step
  rw [hpc]
  cases op <;> simp_all [execOp]

theorem stepN_add (code : List Instr) (cd : List Nat) :
    ∀ (a b : Nat) (s s1 s2 : State), stepN code cd a s = .ok s1 → stepN code cd b s1 = .ok s2 →
      stepN code cd (a + b) s = .ok s2 := by
  intro a
  induction a with
  | zero =>
    intro b s s1 s2 h1 h2
    simp only [stepN] at h1
    cases h1
    simpa using h2
  | succ a ih =>
    intro b s s1 s2 h1 h2
    rw [Nat.add_right_comm]
    simp only [stepN] at h1 ⊢
    cases hs : step code cd s with
    | error h => rw [hs] at h1; cases h1
    | ok s' =>
      rw [hs] at h1
      exact ih b s' s1 s2 h1 h2

theorem stepN_one (code : List Instr) (cd : List Nat) (s s' : State)
    (h : step code cd s = .ok s') : stepN code cd 1 s = .ok s' := by
  simp [stepN, h]

theorem run_of_stepN (code : List Instr) (cd : List Nat) :
    ∀ (k f : Nat) (s s' : State), stepN code cd k s = .ok s' →
      run code cd (k + f) s = run code cd f s' := by
  intro k
  induction k with
  | zero =>
    intro f s s' h
    simp only [stepN] at h
    cases h
    simp
  | succ k ih =>
    intro f s s' h
    rw [Nat.add_right_comm]
    simp only [stepN, run] at h ⊢
    cases hs : step code cd s with
    | error e => rw [hs] at h; cases h
    | ok s1 =>
      rw [hs] at h
      exact ih f s1 s' h

theorem run_mono (code : List Instr) (cd : List Nat) :
    ∀ (f k : Nat) (s : State) (h : Halt), run code cd f s = some h →
      run code cd (f + k) s = some h := by
  intro f
  induction f with
  | zero => intro k s h hr; simp [run] at hr
  | succ f ih =>
    intro k s h hr
    rw [Nat.add_right_comm]
    simp only [run] at hr ⊢
    cases hs : step code cd s with
    | error e => rw [hs] at hr; simpa using hr
    | ok s1 =>
      rw [hs] at hr
      exact ih k s1 h hr

theorem stepN_block (code : List Instr) (cd : List Nat) :
    ∀ (blk pre post : List Instr) (st : List Nat) (m : Nat → Nat) (st' : List Nat) (m' : Nat → Nat),
      code = pre ++ blk ++ post → execBlock code cd blk st m = .ok (st', m') →
      stepN code cd blk.length ⟨pre.length, st, m⟩ = .ok ⟨pre.length + blk.length, st', m'⟩ := by
  intro blk
  induction blk with
  | nil =>
    intro pre post st m st' m' _ h
    simp only [execBlock, Except.ok.injEq, Prod.mk.injEq] at h
    obtain ⟨rfl, rfl⟩ := h
    simp [stepN]
  | cons op ops ih =>
    intro pre post st m st' m' hc h
    simp only [execBlock] at h
    cases hop : execOp code cd op st m with
    | error e => rw [hop] at h; cases h
    | ok r =>
      obtain ⟨s1, m1⟩ := r
      rw [hop] at h
      have hpc : code[(State.mk pre.length st m).pc]? = some op := by
        rw [hc]; simpa using getElem?_mid pre (ops ++ post) op
      have h1 := step_data code cd ⟨pre.length, st, m⟩ op s1 m1 hpc hop
      have h2 := ih (pre ++ [op]) post s1 m1 st' m' (by rw [hc]; simp) h
      simp only [List.length_cons, stepN, h1]
      simp only [List.length_append, List.length_singleton] at h2
      rw [h2]
      congr 2
      omega

theorem execBlock_append (code : List Instr) (cd : List Nat) :
    ∀ (a b : List Instr) (st : List Nat) (m : Nat → Nat) (st1 : List Nat) (m1 : Nat → Nat),
      execBlock code cd a st m = .ok (st1, m1) →
      execBlock code cd (a ++ b) st m = execBlock code cd b st1 m1 := by
  intro a
  induction a with
  | nil =>
    intro b st m st1 m1 h
    simp only [execBlock, Except.ok.injEq, Prod.mk.injEq] at h
    obtain ⟨rfl, rfl⟩ := h
    rfl
  | cons op ops ih =>
    intro b st m st1 m1 h
    simp only [execBlock, List.cons_append] at h ⊢
    cases hop : execOp code cd op st m with
    | error e => rw [hop] at h; cases h
    | ok r =>
      obtain ⟨s1, m2⟩ := r
      rw [hop] at h
      exact ih b s1 m2 st1 m1 h

/-! ### The blocks of a round -/

theorem ark_block (E : Ext) (code cd) (t r : Nat) (h2 : 2 ≤ t) (h9 : t ≤ 9)
    (f : Nat → Nat) (rest : List Nat) (m : Nat → Nat) :
    execBlock code cd (ark E t r) (vec t f ++ q :: rest) m
      = .ok (vec t (arkF E t r f) ++ q :: rest, m) := by
  interval_cases t <;> rfl

theorem sigma_block (code cd) (t nF nP i : Nat) (h2 : 2 ≤ t) (h9 : t ≤ 9)
    (f : Nat → Nat) (rest : List Nat) (m : Nat → Nat) :
    execBlock code cd ((sigmaPositions t nF nP i).flatMap (sigma t)) (vec t f ++ q :: rest) m
      = .ok (vec t (sboxF (isFullRound nF nP i) f) ++ q :: rest, m) := by
  unfold sigmaPositions
  cases isFullRound nF nP i
  · interval_cases t <;> rfl
  · interval_cases t <;> rfl

set_option maxRecDepth 100000 in
theorem mix_block (code cd) (t : Nat) (h2 : 2 ≤ t) (h7 : t ≤ 7)
    (f : Nat → Nat) (rest : List Nat) (m : Nat → Nat) :
    execBlock code cd (mixRows t ++ mixDrop t) (vec t f ++ q :: rest) m
      = .ok (vec t (mixF (memM t m) t f) ++ q :: rest, m) := by
  interval_cases t <;> rfl

/-! ### Labels -/

theorem labelAddr_append_of_not_mem (l : String) :
    ∀ (pre post : List Instr), (∀ x ∈ pre, x.isLabel l = false) →
      labelAddr (pre ++ post) l = (labelAddr post l).map (· + pre.length) := by
  intro pre
  induction pre with
  | nil => intro post _; simp
  | cons a pre ih =>
    intro post h
    have ha : a.isLabel l = false := h a (List.mem_cons_self _ _)
    have := ih post (fun x hx => h x (List.mem_cons_of_mem _ hx))
    have hc : labelAddr (a :: (pre ++ post)) l
        = if a.isLabel l then some 0 else (labelAddr (pre ++ post) l).map (· + 1) := rfl
    rw [List.cons_append, hc, ha, this]
    cases labelAddr post l <;> simp [Nat.add_assoc]

theorem labelAddr_mid (l : String) (pre post : List Instr)
    (h : ∀ x ∈ pre, x.isLabel l = false) :
    labelAddr (pre ++ label l :: post) l = some pre.length := by
  rw [labelAddr_append_of_not_mem l pre _ h]
  simp [labelAddr, Instr.isLabel]

theorem isDest_mid (l : String) (pre post : List Instr) :
    isDest (pre ++ label l :: post) pre.length = true := by
  unfold isDest
  rw [getElem?_mid]

theorem noLabel_saveM (E : Ext) (t : Nat) (l : String) :
    ∀ x ∈ saveM E t, x.isLabel l = false := by
  intro x hx
  simp only [saveM, List.mem_flatMap, List.mem_range] at hx
  obtain ⟨i, _, j, _, hx⟩ := hx
  simp at hx
  rcases hx with rfl | rfl | rfl <;> rfl

theorem noLabel_ark (E : Ext) (t r : Nat) (l : String) :
    ∀ x ∈ ark E t r, x.isLabel l = false := by
  intro x hx
  simp only [ark, List.mem_flatMap, List.mem_range] at hx
  obtain ⟨i, _, hx⟩ := hx
  simp at hx
  rcases hx with rfl | rfl | rfl | rfl | rfl | rfl <;> rfl

theorem noLabel_sigma (t p : Nat) (l : String) :
    ∀ x ∈ sigma t p, x.isLabel l = false := by
  intro x hx
  have h : (sigma t p).all (fun x => !x.isLabel l) = true := rfl
  simpa using List.all_eq_true.mp h x hx

theorem noLabel_sigmas (t nF nP i : Nat) (l : String) :
    ∀ x ∈ (sigmaPositions t nF nP i).flatMap (sigma t), x.isLabel l = false := by
  intro x hx
  simp only [List.mem_flatMap] at hx
  obtain ⟨p, _, hx⟩ := hx
  exact noLabel_sigma t p l x hx

theorem noLabel_loadState (n : Nat) (l : String) :
    ∀ x ∈ loadState n, x.isLabel l = false := by
  intro x hx
  simp only [loadState, List.mem_append, List.mem_flatMap, List.mem_range] at hx
  rcases hx with (hx | ⟨i, _, hx⟩) | hx
  · simp at hx; subst hx; rfl
  · simp at hx; rcases hx with rfl | rfl <;> rfl
  · simp at hx; rcases hx with rfl | rfl <;> rfl

theorem noLabel_checkSelector (E : Ext) (n : Nat) (l : String) :
    ∀ x ∈ checkSelector E n, x.isLabel l = false := by
  intro x hx
  have h : (checkSelector E n).all (fun x => !x.isLabel l) = true := rfl
  simpa using List.all_eq_true.mp h x hx

theorem noLabel_roundData (E : Ext) (t nF nP i : Nat) (l : String) :
    ∀ x ∈ roundData E t nF nP i, x.isLabel l = false := by
  intro x hx
  simp only [roundData, List.mem_append] at hx
  rcases hx with (hx | hx) | hx
  · exact noLabel_ark E t i l x hx
  · exact noLabel_sigmas t nF nP i l x hx
  · simp at hx; rcases hx with rfl | rfl | rfl <;> rfl

theorem round_eq (E : Ext) (t nF nP i : Nat) :
    round E t nF nP i = roundData E t nF nP i ++ [jmp (some "mix"), label (strLabel i)] := by
  simp [round, roundData, callMix]

theorem noLabel_round (E : Ext) (t nF nP i : Nat) (l : String) (hl : l ≠ strLabel i) :
    ∀ x ∈ round E t nF nP i, x.isLabel l = false := by
  intro x hx
  rw [round_eq] at hx
  simp only [List.mem_append] at hx
  rcases hx with hx | hx
  · exact noLabel_roundData E t nF nP i l x hx
  · simp at hx
    rcases hx with rfl | rfl
    · rfl
    · simp [Instr.isLabel]
      exact fun h => hl h.symm

theorem noLabel_header (E : Ext) (n : Nat) (l : String) (hl : l ≠ "start") :
    ∀ x ∈ header E n, x.isLabel l = false := by
  intro x hx
  simp only [header, List.mem_append] at hx
  rcases hx with ((hx | hx) | hx) | hx
  · exact noLabel_checkSelector E n l x hx
  · simp at hx; subst hx
    simp [Instr.isLabel]
    exact fun h => hl h.symm
  · exact noLabel_saveM E _ l x hx
  · exact noLabel_loadState n l x hx

theorem noLabel_upTo (E : Ext) (n i : Nat) (l : String) (hl : l ≠ "start")
    (hr : ∀ k, k < i → l ≠ strLabel k) :
    ∀ x ∈ upTo E n i, x.isLabel l = false := by
  intro x hx
  simp only [upTo, List.mem_append, List.mem_flatMap, List.mem_range] at hx
  rcases hx with hx | ⟨k, hk, hx⟩
  · exact noLabel_header E n l hl x hx
  · exact noLabel_round E _ _ _ k l (hr k hk) x hx

/-! ### Layout of the emitted stream -/

theorem getElem?_at (code pre post : List Instr) (x : Instr) (pc : Nat)
    (hc : code = pre ++ x :: post) (hpc : pc = pre.length) : code[pc]? = some x := by
  subst hc hpc
  exact getElem?_mid pre post x

theorem upTo_succ (E : Ext) (n i : Nat) :
    upTo E n (i + 1)
      = upTo E n i ++ round E (n + 1) N_ROUNDS_F (nRoundsPOf (n + 1)) i := by
  simp [upTo, List.range_succ, List.flatMap_append]

theorem instrs_eq (E : Ext) (n : Nat) :
    instrs E n = upTo E n (N_ROUNDS_F + nRoundsPOf (n + 1)) ++ finish ++ mix (n + 1) := by
  simp [instrs, upTo, header, rounds]

theorem upTo_extend (E : Ext) (n i j : Nat) :
    ∃ post, upTo E n (i + j) = upTo E n i ++ post := by
  induction j with
  | zero => exact ⟨[], by simp⟩
  | succ j ih =>
    obtain ⟨post, h⟩ := ih
    refine ⟨post ++ round E (n + 1) N_ROUNDS_F (nRoundsPOf (n + 1)) (i + j), ?_⟩
    rw [← Nat.add_assoc, upTo_succ, h, List.append_assoc]

theorem instrs_round (E : Ext) (n i : Nat) (hi : i < N_ROUNDS_F + nRoundsPOf (n + 1)) :
    ∃ post, instrs E n
      = upTo E n i ++ round E (n + 1) N_ROUNDS_F (nRoundsPOf (n + 1)) i ++ post := by
  obtain ⟨post, h⟩ := upTo_extend E n (i + 1) (N_ROUNDS_F + nRoundsPOf (n + 1) - (i + 1))
  have he : i + 1 + (N_ROUNDS_F + nRoundsPOf (n + 1) - (i + 1)) = N_ROUNDS_F + nRoundsPOf (n + 1) := by
    omega
  rw [he, upTo_succ] at h
  exact ⟨post ++ finish ++ mix (n + 1), by rw [instrs_eq, h]; simp⟩

theorem mix_eq (t : Nat) : mix t = mixData t ++ [jmp none] := by
  simp [mix, mixData]

theorem labelAddr_mix (E : Ext) (n : Nat) :
    labelAddr (instrs E n) "mix"
      = some ((upTo E n (N_ROUNDS_F + nRoundsPOf (n + 1))).length + finish.length) := by
  have h : instrs E n = (upTo E n (N_ROUNDS_F + nRoundsPOf (n + 1)) ++ finish)
      ++ label "mix" :: (mixRows (n + 1) ++ mixDrop (n + 1) ++ [push (.num 0), mload, jmp none]) := by
    rw [instrs_eq]; simp [mix]
  rw [h, labelAddr_mid, List.length_append]
  intro x hx
  rw [List.mem_append] at hx
  rcases hx with hx | hx
  · exact noLabel_upTo E n _ "mix" (by decide) (fun k _ => (strLabel_ne_mix k).symm) x hx
  · have h : finish.all (fun x => !x.isLabel "mix") = true := rfl
    simpa using List.all_eq_true.mp h x hx

theorem isDest_mix (E : Ext) (n : Nat) :
    isDest (instrs E n)
      ((upTo E n (N_ROUNDS_F + nRoundsPOf (n + 1))).length + finish.length) = true := by
  have h : instrs E n = (upTo E n (N_ROUNDS_F + nRoundsPOf (n + 1)) ++ finish)
      ++ label "mix" :: (mixRows (n + 1) ++ mixDrop (n + 1) ++ [push (.num 0), mload, jmp none]) := by
    rw [instrs_eq]; simp [mix]
  rw [h, ← List.length_append]
  exact isDest_mid _ _ _

theorem labelAddr_strLabel (E : Ext) (n i : Nat) (hi : i < N_ROUNDS_F + nRoundsPOf (n + 1)) :
    labelAddr (instrs E n) (strLabel i)
      = some ((upTo E n i).length
          + (roundData E (n + 1) N_ROUNDS_F (nRoundsPOf (n + 1)) i).length + 1) := by
  obtain ⟨post, h⟩ := instrs_round E n i hi
  have h2 : instrs E n
      = (upTo E n i ++ roundData E (n + 1) N_ROUNDS_F (nRoundsPOf (n + 1)) i ++ [jmp (some "mix")])
        ++ label (strLabel i) :: post := by
    rw [h, round_eq]; simp
  rw [h2, labelAddr_mid]
  · simp [List.length_append, Nat.add_assoc]
  · intro x hx
    simp only [List.mem_append] at hx
    rcases hx with (hx | hx) | hx
    · exact noLabel_upTo E n i _ (strLabel_ne_start i)
        (fun k hk he => absurd (strLabel_injective _ _ he) (by omega)) x hx
    · exact noLabel_roundData E _ _ _ i _ x hx
    · simp at hx; subst hx; rfl

theorem isDest_strLabel (E : Ext) (n i : Nat) (hi : i < N_ROUNDS_F + nRoundsPOf (n + 1)) :
    isDest (instrs E n) ((upTo E n i).length
          + (roundData E (n + 1) N_ROUNDS_F (nRoundsPOf (n + 1)) i).length + 1) = true := by
  obtain ⟨post, h⟩ := instrs_round E n i hi
  have h2 : instrs E n
      = (upTo E n i ++ roundData E (n + 1) N_ROUNDS_F (nRoundsPOf (n + 1)) i ++ [jmp (some "mix")])
        ++ label (strLabel i) :: post := by
    rw [h, round_eq]; simp
  have hl : (upTo E n i).length
          + (roundData E (n + 1) N_ROUNDS_F (nRoundsPOf (n + 1)) i).length + 1
      = (upTo E n i ++ roundData E (n + 1) N_ROUNDS_F (nRoundsPOf (n + 1)) i
          ++ [jmp (some "mix")]).length := by
    simp [List.length_append, Nat.add_assoc]
  rw [hl, h2]
  exact isDest_mid _ _ _

/-! ### Control steps -/

theorem step_jmp_label (code : List Instr) (cd : List Nat) (s : State) (l : String) (a : Nat)
    (hpc : code[s.pc]? = some (jmp (some l))) (ha : labelAddr code l = some a)
    (hd : isDest code a = true) :
    step code cd s = .ok ⟨a, s.stack, s.mem⟩ := by
  simp [step, hpc, ha, jumpTo, hd]

theorem step_jmp_top (code : List Instr) (cd : List Nat) (pc a : Nat) (r : List Nat)
    (m : Nat → Nat) (hpc : code[pc]? = some (jmp none)) (hd : isDest code a = true) :
    step code cd ⟨pc, a :: r, m⟩ = .ok ⟨a, r, m⟩ := by
  simp [step, hpc, jumpTo, hd]

theorem step_label (code : List Instr) (cd : List Nat) (s : State) (l : String)
    (hpc : code[s.pc]? = some (label l)) :
    step code cd s = .ok ⟨s.pc + 1, s.stack, s.mem⟩ :=
  step_data code cd s (label l) s.stack s.mem hpc rfl

/-! ### One round -/

theorem memM_memStore_zero (t : Nat) (m : Nat → Nat) (v : Nat) :
    memM t (memStore m 0 v) = memM t m := by
  funext row col
  simp only [memM, memStore]
  rw [if_neg]
  omega

theorem roundData_block (E : Ext) (n : Nat) (cd : List Nat) (hn1 : 1 ≤ n) (hn8 : n ≤ 8) (i : Nat)
    (hi : i < N_ROUNDS_F + nRoundsPOf (n + 1)) (f : Nat → Nat) (m : Nat → Nat) :
    execBlock (instrs E n) cd (roundData E (n + 1) N_ROUNDS_F (nRoundsPOf (n + 1)) i)
        (vec (n + 1) f ++ [q]) m
      = .ok (vec (n + 1) (sboxF (isFullRound N_ROUNDS_F (nRoundsPOf (n + 1)) i) (arkF E (n + 1) i f))
              ++ [q],
             memStore m 0 ((upTo E n i).length
               + (roundData E (n + 1) N_ROUNDS_F (nRoundsPOf (n + 1)) i).length + 1)) := by
  have h1 := ark_block E (instrs E n) cd (n + 1) i (by omega) (by omega) f [] m
  have h2 := sigma_block (instrs E n) cd (n + 1) N_ROUNDS_F (nRoundsPOf (n + 1)) i (by omega)
    (by omega) (arkF E (n + 1) i f) [] m
  have hl := labelAddr_strLabel E n i hi
  generalize (upTo E n i).length
    + (roundData E (n + 1) N_ROUNDS_F (nRoundsPOf (n + 1)) i).length + 1 = a at hl ⊢
  unfold roundData
  rw [List.append_assoc, execBlock_append _ _ _ _ _ _ _ _ h1, execBlock_append _ _ _ _ _ _ _ _ h2]
  simp only [execBlock, execOp, hl, Lit.val]
  simp

theorem mixData_block (code : List Instr) (cd : List Nat) (t : Nat) (h2 : 2 ≤ t) (h7 : t ≤ 7)
    (f : Nat → Nat) (rest : List Nat) (m : Nat → Nat) :
    execBlock code cd (mixData t) (vec t f ++ q :: rest) m
      = .ok (m 0 :: (vec t (mixF (memM t m) t f) ++ q :: rest), m) := by
  have h := mix_block code cd t h2 h7 f rest m
  unfold mixData
  rw [List.append_assoc, List.append_assoc, List.singleton_append]
  simp only [execBlock, execOp]
  rw [← List.append_assoc, execBlock_append _ _ _ _ _ _ _ _ h]
  simp [execBlock, execOp, Lit.val]

theorem round_exec (E : Ext) (n : Nat) (cd : List Nat) (hn1 : 1 ≤ n) (hn6 : n ≤ 6) (i : Nat)
    (hi : i < N_ROUNDS_F + nRoundsPOf (n + 1)) (f : Nat → Nat) (m : Nat → Nat) :
    ∃ k a, stepN (instrs E n) cd k ⟨(upTo E n i).length, vec (n + 1) f ++ [q], m⟩
      = .ok ⟨(upTo E n (i + 1)).length,
             vec (n + 1) (roundF E (n + 1) (memM (n + 1) m) f i) ++ [q], memStore m 0 a⟩ := by
  obtain ⟨post, hsplit⟩ := instrs_round E n i hi
  rw [round_eq] at hsplit
  -- abbreviations
  generalize hRD : roundData E (n + 1) N_ROUNDS_F (nRoundsPOf (n + 1)) i = RD at hsplit
  have hblk := roundData_block E n cd hn1 (by omega) i hi f m
  rw [hRD] at hblk
  generalize hg : sboxF (isFullRound N_ROUNDS_F (nRoundsPOf (n + 1)) i) (arkF E (n + 1) i f) = g
    at hblk
  have hdest := isDest_strLabel E n i hi
  rw [hRD] at hdest
  have hlen : (upTo E n (i + 1)).length = (upTo E n i).length + RD.length + 1 + 1 := by
    rw [upTo_succ, round_eq, hRD]; simp [Nat.add_assoc]
  generalize ha : (upTo E n i).length + RD.length + 1 = a at hblk hdest hlen
  -- 1. the data operations of the round
  have s1 := stepN_block (instrs E n) cd RD (upTo E n i)
    ([jmp (some "mix"), label (strLabel i)] ++ post) _ _ _ _ (by rw [hsplit]; simp) hblk
  -- 2. the jump to mix
  have s2 := step_jmp_label (instrs E n) cd
    ⟨(upTo E n i).length + RD.length, vec (n + 1) g ++ [q], memStore m 0 a⟩
    "mix" _
    (getElem?_at _ (upTo E n i ++ RD) (label (strLabel i) :: post) _
      ((upTo E n i).length + RD.length) (by rw [hsplit]; simp) (by simp))
    (labelAddr_mix E n) (isDest_mix E n)
  -- 3. the body of mix
  have hmb := mixData_block (instrs E n) cd (n + 1) (by omega) (by omega) g [] (memStore m 0 a)
  have s3 := stepN_block (instrs E n) cd (mixData (n + 1))
    (upTo E n (N_ROUNDS_F + nRoundsPOf (n + 1)) ++ finish) [jmp none] _ _ _ _
    (by rw [instrs_eq, mix_eq]; simp) hmb
  -- 4. the return jump
  have s4 := step_jmp_top (instrs E n) cd
    ((upTo E n (N_ROUNDS_F + nRoundsPOf (n + 1)) ++ finish).length + (mixData (n + 1)).length)
    a (vec (n + 1) (mixF (memM (n + 1) (memStore m 0 a)) (n + 1) g) ++ [q]) (memStore m 0 a)
    (getElem?_at _ (upTo E n (N_ROUNDS_F + nRoundsPOf (n + 1)) ++ finish ++ mixData (n + 1)) [] _
      _ (by rw [instrs_eq, mix_eq]; simp) (by simp [Nat.add_assoc])) hdest
  -- 5. the resumption label
  have s5 := step_label (instrs E n) cd
    ⟨a, vec (n + 1) (mixF (memM (n + 1) (memStore m 0 a)) (n + 1) g) ++ [q], memStore m 0 a⟩
    (strLabel i)
    (getElem?_at _ (upTo E n i ++ RD ++ [jmp (some "mix")]) post _ a
      (by rw [hsplit]; simp) (by rw [← ha]; simp [Nat.add_assoc]))
  refine ⟨RD.length + 1 + (mixData (n + 1)).length + 1 + 1, a, ?_⟩
  rw [hlen]
  have hs2 : memStore m 0 a 0 = a := by simp [memStore]
  rw [hs2] at s3
  have r := stepN_add _ _ _ _ _ _ _
    (stepN_add _ _ _ _ _ _ _
      (stepN_add _ _ _ _ _ _ _
        (stepN_add _ _ _ _ _ _ _ s1 (stepN_one _ _ _ _ s2))
        (by simpa using s3))
      (stepN_one _ _ _ _ s4))
    (stepN_one _ _ _ _ s5)
  rw [memM_memStore_zero] at r
  rw [← hg] at r
  exact r

/-! ### Entry: dispatch and set-up -/

theorem q_lit :
    hexToNat "0x30644e72e131a029b85045b68181585d2833e84879b9709143e1f593f0000001" = q := by
  decide

theorem div_lit :
    hexToNat "0x0100000000000000000000000000000000000000000000000000000000" = 2 ^ 224 := by
  decide

theorem checkSelector_eq (E : Ext) (n : Nat) :
    checkSelector E n = dispatchData E n ++ [jmpi (some "start"), invalid] := rfl

theorem dispatch_block (code : List Instr) (E : Ext) (n : Nat) (cd : List Nat) (m : Nat → Nat) :
    execBlock code cd (dispatchData E n) [] m = .ok ([dispatchFlag E n cd], m) := rfl

set_option maxRecDepth 100000 in
theorem setup_block_raw (code : List Instr) (E : Ext) (n : Nat) (cd : List Nat)
    (hn1 : 1 ≤ n) (hn8 : n ≤ 8) (m : Nat → Nat) :
    execBlock code cd (saveM E (n + 1) ++ loadState n) [] m
      = .ok (vec (n + 1) (initF cd)
              ++ [hexToNat "0x30644e72e131a029b85045b68181585d2833e84879b9709143e1f593f0000001"],
             saveMMem E (n + 1) m) := by
  interval_cases n <;> rfl

theorem setup_block (code : List Instr) (E : Ext) (n : Nat) (cd : List Nat)
    (hn1 : 1 ≤ n) (hn8 : n ≤ 8) (m : Nat → Nat) :
    execBlock code cd (saveM E (n + 1) ++ loadState n) [] m
      = .ok (vec (n + 1) (initF cd) ++ [q], saveMMem E (n + 1) m) := by
  rw [setup_block_raw code E n cd hn1 hn8 m, q_lit]

theorem dispatchFlag_ne_zero (E : Ext) (n : Nat) (cd : List Nat) :
    dispatchFlag E n cd ≠ 0 ↔ Accepted E n cd := by
  unfold dispatchFlag Accepted
  by_cases h1 : hexToNat (selBytes E n) = selector cd <;>
    by_cases h2 : hexToNat (selUint E n) = selector cd <;>
    simp [h1, h2, eq_comm]

theorem step_jmpi_taken (code : List Instr) (cd : List Nat) (pc c a : Nat) (r : List Nat)
    (m : Nat → Nat) (l : String) (hpc : code[pc]? = some (jmpi (some l))) (hc : c ≠ 0)
    (ha : labelAddr code l = some a) (hd : isDest code a = true) :
    step code cd ⟨pc, c :: r, m⟩ = .ok ⟨a, r, m⟩ := by
  simp [step, hpc, hc, ha, jumpTo, hd]

theorem step_jmpi_skip (code : List Instr) (cd : List Nat) (pc : Nat) (r : List Nat)
    (m : Nat → Nat) (l : String) (hpc : code[pc]? = some (jmpi (some l))) :
    step code cd ⟨pc, 0 :: r, m⟩ = .ok ⟨pc + 1, r, m⟩ := by
  simp [step, hpc]

theorem step_invalid (code : List Instr) (cd : List Nat) (s : State)
    (hpc : code[s.pc]? = some invalid) : step code cd s = .error .invalid := by
  simp [step, hpc]

theorem instrs_start (E : Ext) (n : Nat) :
    ∃ post, instrs E n
      = dispatchData E n ++ jmpi (some "start") :: invalid :: label "start"
          :: (saveM E (n + 1) ++ loadState n ++ post) :=
  ⟨rounds E (n + 1) N_ROUNDS_F (nRoundsPOf (n + 1)) ++ finish ++ mix (n + 1), by
    simp [instrs, checkSelector_eq]⟩

theorem dispatchData_length (E : Ext) (n : Nat) : (dispatchData E n).length = 11 := rfl

theorem header_length (E : Ext) (n : Nat) :
    (header E n).length = 14 + (saveM E (n + 1) ++ loadState n).length := by
  simp [header, checkSelector_eq, dispatchData_length]
  omega

theorem labelAddr_start (E : Ext) (n : Nat) : labelAddr (instrs E n) "start" = some 13 := by
  obtain ⟨post, h⟩ := instrs_start E n
  have h2 : instrs E n = (dispatchData E n ++ [jmpi (some "start"), invalid])
      ++ label "start" :: (saveM E (n + 1) ++ loadState n ++ post) := by
    rw [h]; simp
  rw [h2, labelAddr_mid]
  · rfl
  · rw [← checkSelector_eq]
    exact noLabel_checkSelector E n "start"

theorem isDest_start (E : Ext) (n : Nat) : isDest (instrs E n) 13 = true := by
  obtain ⟨post, h⟩ := instrs_start E n
  have h2 : instrs E n = (dispatchData E n ++ [jmpi (some "start"), invalid])
      ++ label "start" :: (saveM E (n + 1) ++ loadState n ++ post) := by
    rw [h]; simp
  rw [h2]
  exact isDest_mid "start" (dispatchData E n ++ [jmpi (some "start"), invalid]) _

/-- The dispatcher on an accepted selector: after 12 steps control is at the
definition of `start`, with an empty stack and untouched memory. -/
theorem dispatch_jump (E : Ext) (n : Nat) (cd : List Nat) (h : Accepted E n cd) :
    stepN (instrs E n) cd 12 initState = .ok ⟨13, [], fun _ => 0⟩ := by
  obtain ⟨post, hc⟩ := instrs_start E n
  have s1 := stepN_block (instrs E n) cd (dispatchData E n) []
    (jmpi (some "start") :: invalid :: label "start" :: (saveM E (n + 1) ++ loadState n ++ post))
    [] (fun _ => 0) _ _ (by rw [hc]; simp) (dispatch_block (instrs E n) E n cd _)
  have s2 := step_jmpi_taken (instrs E n) cd 11 (dispatchFlag E n cd) 13 [] (fun _ => 0) "start"
    (getElem?_at _ (dispatchData E n) _ _ 11 hc rfl)
    ((dispatchFlag_ne_zero E n cd).mpr h) (labelAddr_start E n) (isDest_start E n)
  exact stepN_add _ _ 11 1 _ _ _ s1 (stepN_one _ _ _ _ s2)

/-- One more step passes the definition of `start`. -/
theorem dispatch_accept (E : Ext) (n : Nat) (cd : List Nat) (h : Accepted E n cd) :
    stepN (instrs E n) cd 13 initState = .ok ⟨14, [], fun _ => 0⟩ := by
  obtain ⟨post, hc⟩ := instrs_start E n
  have s3 := step_label (instrs E n) cd ⟨13, [], fun _ => 0⟩ "start"
    (getElem?_at _ (dispatchData E n ++ [jmpi (some "start"), invalid])
      (saveM E (n + 1) ++ loadState n ++ post) _ 13 (by rw [hc]; simp) rfl)
  exact stepN_add _ _ 12 1 _ _ _ (dispatch_jump E n cd h) (stepN_one _ _ _ _ s3)

/-- The dispatcher on any other selector: the abort instruction is reached. -/
theorem dispatch_reject (E : Ext) (n : Nat) (cd : List Nat) (h : ¬ Accepted E n cd) :
    stepN (instrs E n) cd 12 initState = .ok ⟨12, [], fun _ => 0⟩
      ∧ step (instrs E n) cd ⟨12, [], fun _ => 0⟩ = .error .invalid := by
  obtain ⟨post, hc⟩ := instrs_start E n
  have s1 := stepN_block (instrs E n) cd (dispatchData E n) []
    (jmpi (some "start") :: invalid :: label "start" :: (saveM E (n + 1) ++ loadState n ++ post))
    [] (fun _ => 0) _ _ (by rw [hc]; simp) (dispatch_block (instrs E n) E n cd _)
  have hz : dispatchFlag E n cd = 0 := by
    by_contra hne
    exact h ((dispatchFlag_ne_zero E n cd).mp hne)
  rw [hz] at s1
  have s2 := step_jmpi_skip (instrs E n) cd 11 [] (fun _ => 0) "start"
    (getElem?_at _ (dispatchData E n) _ _ 11 hc rfl)
  refine ⟨stepN_add _ _ 11 1 _ _ _ s1 (stepN_one _ _ _ _ s2), ?_⟩
  exact step_invalid _ _ _
    (getElem?_at _ (dispatchData E n ++ [jmpi (some "start")])
      (label "start" :: (saveM E (n + 1) ++ loadState n ++ post)) _ 12 (by rw [hc]; simp) rfl)

theorem upTo_zero (E : Ext) (n : Nat) : upTo E n 0 = header E n := by
  simp [upTo]

/-- Entry up to the first round: the state vector read from the call data sits
on `q`, the matrix is in memory. -/
theorem header_exec (E : Ext) (n : Nat) (cd : List Nat) (hn1 : 1 ≤ n) (hn8 : n ≤ 8)
    (h : Accepted E n cd) :
    ∃ k, stepN (instrs E n) cd k initState
      = .ok ⟨(upTo E n 0).length, vec (n + 1) (initF cd) ++ [q],
             saveMMem E (n + 1) (fun _ => 0)⟩ := by
  obtain ⟨post, hc⟩ := instrs_start E n
  have s1 := dispatch_accept E n cd h
  have s2 := stepN_block (instrs E n) cd (saveM E (n + 1) ++ loadState n)
    (dispatchData E n ++ [jmpi (some "start"), invalid, label "start"]) post [] (fun _ => 0) _ _
    (by rw [hc]; simp) (setup_block (instrs E n) E n cd hn1 hn8 _)
  refine ⟨13 + (saveM E (n + 1) ++ loadState n).length, ?_⟩
  rw [upTo_zero, header_length]
  exact stepN_add _ _ _ _ _ _ _ s1 s2

/-! ### The round loop and the result -/

theorem rounds_exec (E : Ext) (n : Nat) (cd : List Nat) (hn1 : 1 ≤ n) (hn6 : n ≤ 6)
    (f : Nat → Nat) (m : Nat → Nat) :
    ∀ i, i ≤ N_ROUNDS_F + nRoundsPOf (n + 1) →
      ∃ k m', stepN (instrs E n) cd k ⟨(upTo E n 0).length, vec (n + 1) f ++ [q], m⟩
          = .ok ⟨(upTo E n i).length, vec (n + 1) (iterF E (n + 1) (memM (n + 1) m) f i) ++ [q], m'⟩
        ∧ memM (n + 1) m' = memM (n + 1) m := by
  intro i
  induction i with
  | zero => intro _; exact ⟨0, m, rfl, rfl⟩
  | succ i ih =>
    intro hi
    obtain ⟨k, m', hk, hm⟩ := ih (by omega)
    obtain ⟨k2, a, hk2⟩ := round_exec E n cd hn1 hn6 i (by omega)
      (iterF E (n + 1) (memM (n + 1) m) f i) m'
    refine ⟨k + k2, memStore m' 0 a, ?_, ?_⟩
    · have := stepN_add _ _ _ _ _ _ _ hk hk2
      rw [this, hm]
      simp [iterF, List.range_succ]
    · rw [memM_memStore_zero, hm]

theorem vec_succ (n : Nat) (f : Nat → Nat) :
    vec (n + 1) f = f 0 :: vec n (fun k => f (k + 1)) := by
  simp [vec, List.range_succ_eq_map, Function.comp_def]

theorem step_ret (code : List Instr) (cd : List Nat) (pc : Nat) (r : List Nat) (m : Nat → Nat)
    (hpc : code[pc]? = some ret) :
    step code cd ⟨pc, 0 :: 32 :: r, m⟩ = .error (.returned (wordBytes (m 0))) := by
  simp [step, hpc, List.range_succ]

theorem lit_20 : hexToNat "0x20" = 32 := by decide

theorem lit_00 : hexToNat "0x00" = 0 := by decide

/-- The output code: from the end of the round loop, four data steps and the
return instruction yield the 32 bytes of the top stack slot. -/
theorem finish_exec (E : Ext) (n : Nat) (cd : List Nat) (x : Nat) (r : List Nat) (m : Nat → Nat) :
    run (instrs E n) cd 5 ⟨(upTo E n (N_ROUNDS_F + nRoundsPOf (n + 1))).length, x :: r, m⟩
      = some (.returned (wordBytes x)) := by
  have hblk : execBlock (instrs E n) cd (finish.take 4) (x :: r) m
      = .ok (0 :: 32 :: r, memStore m 0 x) := by
    simp [finish, execBlock, execOp, Lit.val, lit_20, lit_00]
  have s1 := stepN_block (instrs E n) cd (finish.take 4)
    (upTo E n (N_ROUNDS_F + nRoundsPOf (n + 1))) (ret :: mix (n + 1)) _ _ _ _
    (by rw [instrs_eq]; simp [finish]) hblk
  have s2 := step_ret (instrs E n) cd
    ((upTo E n (N_ROUNDS_F + nRoundsPOf (n + 1))).length + 4) r (memStore m 0 x)
    (getElem?_at _ (upTo E n (N_ROUNDS_F + nRoundsPOf (n + 1)) ++ finish.take 4) (mix (n + 1)) _ _
      (by rw [instrs_eq]; simp [finish]) (by simp [finish]))
  have := run_of_stepN _ _ _ 1 _ _ s1
  have h4 : (finish.take 4).length = 4 := rfl
  rw [h4] at this
  rw [this]
  simp only [run, h4, s2]
  simp [memStore]

/-- Execution of the whole program on an accepted selector, in terms of the
values the emitted blocks compute. -/
theorem exec_accept (E : Ext) (n : Nat) (cd : List Nat) (hn1 : 1 ≤ n) (hn6 : n ≤ 6)
    (h : Accepted E n cd) :
    ∃ fuel, exec E n cd fuel
      = some (.returned (wordBytes
          (iterF E (n + 1) (memM (n + 1) (saveMMem E (n + 1) (fun _ => 0))) (initF cd)
            (N_ROUNDS_F + nRoundsPOf (n + 1)) 0))) := by
  obtain ⟨k1, h1⟩ := header_exec E n cd hn1 (by omega) h
  obtain ⟨k2, m', h2, _⟩ := rounds_exec E n cd hn1 hn6 (initF cd)
    (saveMMem E (n + 1) (fun _ => 0)) (N_ROUNDS_F + nRoundsPOf (n + 1)) (Nat.le_refl _)
  have h3 := stepN_add _ _ _ _ _ _ _ h1 h2
  rw [vec_succ, List.cons_append] at h3
  refine ⟨k1 + k2 + 5, ?_⟩
  unfold exec
  rw [run_of_stepN _ _ _ 5 _ _ h3]
  exact finish_exec E n cd _ _ _

/-! ### The computed values and the reference permutation -/

theorem q_ne_zero : q ≠ 0 := by decide

theorem addmodOp_q (a b : Nat) : addmodOp a b q = (a + b) % q := by
  simp [addmodOp, q_ne_zero]

theorem mulmodOp_q (a b : Nat) : mulmodOp a b q = (a * b) % q := by
  simp [mulmodOp, q_ne_zero]

theorem vec_length (t : Nat) (f : Nat → Nat) : (vec t f).length = t := by
  simp [vec]

theorem getD_vec (t : Nat) (f : Nat → Nat) (i : Nat) (h : i < t) : (vec t f).getD i 0 = f i := by
  simp [vec, List.getD_eq_getElem?_getD, List.getElem?_map, List.getElem?_range h]

theorem vec_congr (t : Nat) (f g : Nat → Nat) (h : ∀ i, i < t → f i = g i) :
    vec t f = vec t g := by
  apply List.map_congr_left
  intro i hi
  exact h i (List.mem_range.mp hi)

theorem vec_getD (t : Nat) (st : List Nat) (h : st.length = t) :
    vec t (fun i => st.getD i 0) = st := by
  apply List.ext_getElem
  · simp [vec, h]
  · intro i h1 h2
    simp [vec, List.getD_eq_getElem?_getD, List.getElem?_eq_getElem h2]

theorem arkF_ref (E : Ext) (t r : Nat) (f : Nat → Nat) :
    vec t (arkF E t r f) = refArk E t r (vec t f) := by
  apply List.map_congr_left
  intro i hi
  rw [getD_vec t f i (List.mem_range.mp hi)]
  simp [arkF, addmodOp_q, Lit.val, hexToNat_toHex256]

theorem sigmaVal_eq (x : Nat) : sigmaVal x = pow5 x := by
  simp only [sigmaVal, mulmodOp_q, pow5]
  rw [Nat.mul_mod ((x * x % q) * (x * x % q) % q) x q, Nat.mod_mod,
    ← Nat.mul_mod (x * x) (x * x) q, ← Nat.mul_mod]
  congr 1
  ring

theorem sboxF_ref (t : Nat) (full : Bool) (f : Nat → Nat) :
    vec t (sboxF full f) = refSbox t full (vec t f) := by
  apply List.map_congr_left
  intro i hi
  rw [getD_vec t f i (List.mem_range.mp hi)]
  simp [sboxF, sigmaVal_eq]

theorem foldl_addmod_sum (g : Nat → Nat) : ∀ k : Nat,
    (List.range k).foldl (fun acc c => (acc + g (c + 1) % q) % q) (g 0 % q)
      = ((List.range (k + 1)).map g).sum % q := by
  intro k
  induction k with
  | zero => simp [List.range_succ]
  | succ k ih =>
    rw [List.range_succ, List.foldl_append, ih, List.range_succ (k + 1), List.map_append,
      List.sum_append]
    simp [Nat.add_mod]

theorem mixF_eq_sum (Mx : Nat → Nat → Nat) (t : Nat) (ht : 1 ≤ t) (f : Nat → Nat) (row : Nat) :
    mixF Mx t f row = ((List.range t).map fun col => f col * Mx row col).sum % q := by
  obtain ⟨k, rfl⟩ : ∃ k, t = k + 1 := ⟨t - 1, by omega⟩
  simp only [mixF, addmodOp_q, mulmodOp_q, Nat.add_sub_cancel]
  exact foldl_addmod_sum (fun col => f col * Mx row col) k

theorem mixF_ref (E : Ext) (Mx : Nat → Nat → Nat) (t : Nat) (ht : 1 ≤ t)
    (hM : ∀ row col, row < t → col < t → Mx row col = E.M (t - 2) row col) (f : Nat → Nat) :
    vec t (mixF Mx t f) = refMix E t (vec t f) := by
  apply List.map_congr_left
  intro row hrow
  rw [mixF_eq_sum Mx t ht]
  congr 2
  apply List.map_congr_left
  intro col hcol
  rw [getD_vec t f col (List.mem_range.mp hcol),
    hM row col (List.mem_range.mp hrow) (List.mem_range.mp hcol)]

theorem isFullRound_ref (t i : Nat) :
    isFullRound N_ROUNDS_F (nRoundsPOf t) i = refIsFull t i := rfl

theorem roundF_ref (E : Ext) (Mx : Nat → Nat → Nat) (t : Nat) (ht : 1 ≤ t)
    (hM : ∀ row col, row < t → col < t → Mx row col = E.M (t - 2) row col) (f : Nat → Nat)
    (i : Nat) : vec t (roundF E t Mx f i) = refRound E t (vec t f) i := by
  rw [roundF, mixF_ref E Mx t ht hM, sboxF_ref, arkF_ref, isFullRound_ref, refRound]

theorem iterF_ref (E : Ext) (Mx : Nat → Nat → Nat) (t : Nat) (ht : 1 ≤ t)
    (hM : ∀ row col, row < t → col < t → Mx row col = E.M (t - 2) row col) (f : Nat → Nat) :
    ∀ i, vec t (iterF E t Mx f i) = (List.range i).foldl (refRound E t) (vec t f) := by
  intro i
  induction i with
  | zero => rfl
  | succ i ih =>
    rw [iterF, List.range_succ, List.foldl_append, List.foldl_append]
    simp only [List.foldl_cons, List.foldl_nil]
    rw [← ih, ← roundF_ref E Mx t ht hM]
    rfl

theorem foldl_store_row (off v : Nat → Nat) (hinj : ∀ a b, off a = off b → a = b) :
    ∀ (k : Nat) (m0 : Nat → Nat),
      (∀ c, c < k → (List.range k).foldl (fun m j => memStore m (off j) (v j)) m0 (off c) = v c)
      ∧ (∀ a, (∀ j, j < k → a ≠ off j) →
          (List.range k).foldl (fun m j => memStore m (off j) (v j)) m0 a = m0 a) := by
  intro k
  induction k with
  | zero => intro m0; exact ⟨fun c hc => absurd hc (Nat.not_lt_zero c), fun a _ => rfl⟩
  | succ k ih =>
    intro m0
    obtain ⟨ih1, ih2⟩ := ih m0
    rw [List.range_succ, List.foldl_append]
    simp only [List.foldl_cons, List.foldl_nil, memStore]
    constructor
    · intro c hc
      by_cases hck : c = k
      · subst hck; simp
      · rw [if_neg (fun h => hck (hinj _ _ h))]
        exact ih1 c (by omega)
    · intro a ha
      rw [if_neg (ha k (Nat.lt_succ_self k))]
      exact ih2 a (fun j hj => ha j (by omega))

theorem offset_inj (t r c k j : Nat) (hc : c < t) (hj : j < t)
    (h : (1 + r * t + c) * 32 = (1 + k * t + j) * 32) : r = k ∧ c = j := by
  have h1 : r * t + c = k * t + j := by omega
  have hr : r = k := by
    rcases Nat.lt_trichotomy r k with hlt | heq | hgt
    · have : (r + 1) * t ≤ k * t := Nat.mul_le_mul_right t hlt
      rw [Nat.add_mul] at this
      omega
    · exact heq
    · have : (k + 1) * t ≤ r * t := Nat.mul_le_mul_right t hgt
      rw [Nat.add_mul] at this
      omega
  subst hr
  exact ⟨rfl, by omega⟩

theorem foldl_store_rows (E : Ext) (t : Nat) :
    ∀ (k : Nat) (m0 : Nat → Nat),
      (∀ r c, r < k → c < t →
        (List.range k).foldl
          (fun m i => (List.range t).foldl
            (fun m j => memStore m ((1 + i * t + j) * 32)
              (Lit.val (.hex (toHex256 (E.M (t - 2) i j))))) m) m0 ((1 + r * t + c) * 32)
          = Lit.val (.hex (toHex256 (E.M (t - 2) r c))))
      ∧ (∀ a, (∀ i j, i < k → j < t → a ≠ (1 + i * t + j) * 32) →
        (List.range k).foldl
          (fun m i => (List.range t).foldl
            (fun m j => memStore m ((1 + i * t + j) * 32)
              (Lit.val (.hex (toHex256 (E.M (t - 2) i j))))) m) m0 a = m0 a) := by
  intro k
  induction k with
  | zero =>
    intro m0
    exact ⟨fun r c hr _ => absurd hr (Nat.not_lt_zero r), fun a _ => rfl⟩
  | succ k ih =>
    intro m0
    obtain ⟨ih1, ih2⟩ := ih m0
    rw [List.range_succ, List.foldl_append]
    simp only [List.foldl_cons, List.foldl_nil]
    have hrow := foldl_store_row (fun j => (1 + k * t + j) * 32)
      (fun j => Lit.val (.hex (toHex256 (E.M (t - 2) k j)))) (fun a b h => by simp at h; omega) t
      ((List.range k).foldl
          (fun m i => (List.range t).foldl
            (fun m j => memStore m ((1 + i * t + j) * 32)
              (Lit.val (.hex (toHex256 (E.M (t - 2) i j))))) m) m0)
    obtain ⟨hr1, hr2⟩ := hrow
    constructor
    · intro r c hr hc
      by_cases hrk : r = k
      · subst hrk
        exact hr1 c hc
      · rw [hr2 _ (fun j hj h => hrk (offset_inj t r c k j hc hj h).1)]
        exact ih1 r c (by omega) hc
    · intro a ha
      rw [hr2 a (fun j hj => ha k j (Nat.lt_succ_self k) hj)]
      exact ih2 a (fun i j hi hj => ha i j (by omega) hj)

theorem saveMMem_spec (E : Ext) (t : Nat) (m : Nat → Nat)
    (row col : Nat) (hr : row < t) (hc : col < t) :
    memM t (saveMMem E t m) row col = E.M (t - 2) row col := by
  have h := (foldl_store_rows E t t m).1 row col hr hc
  unfold memM saveMMem
  rw [h]
  exact hexToNat_toHex256 _

theorem saveMMem_frame (E : Ext) (t : Nat) (m : Nat → Nat) (a : Nat)
    (ha : ∀ i j, i < t → j < t → a ≠ (1 + i * t + j) * 32) :
    saveMMem E t m a = m a :=
  (foldl_store_rows E t t m).2 a ha

theorem initialState_eq (n : Nat) (cd : List Nat) : initialState n cd = vec (n + 1) (initF cd) := by
  have h : ∀ k, 4 + 32 * (k + 1) = 36 + 32 * k := fun k => by omega
  rw [vec_succ]
  simp only [initialState, initF, vec, h, Nat.mul_zero, Nat.add_zero]

theorem N_ROUNDS_F_eq : N_ROUNDS_F = 8 := rfl

/-- Execution of the whole program on an accepted selector returns element 0 of
the reference permutation of the initial state read from the call data. -/
theorem exec_accept_ref (E : Ext) (n : Nat) (cd : List Nat) (hn1 : 1 ≤ n) (hn6 : n ≤ 6)
    (h : Accepted E n cd) :
    ∃ fuel, exec E n cd fuel
      = some (.returned (wordBytes
          ((refPermutation E (n + 1) (initialState n cd)).getD 0 0))) := by
  obtain ⟨fuel, hf⟩ := exec_accept E n cd hn1 hn6 h
  refine ⟨fuel, ?_⟩
  rw [hf, refPermutation, initialState_eq, ← N_ROUNDS_F_eq,
    ← iterF_ref E (memM (n + 1) (saveMMem E (n + 1) (fun _ => 0))) (n + 1) (by omega)
      (fun row col hr hc => saveMMem_spec E (n + 1) _ row col hr hc),
    getD_vec _ _ 0 (by omega)]

theorem createCode_calls (E : Ext) (n : Nat) (hn1 : 1 ≤ n) (hn8 : n ≤ 8) :
    (createCode E (n : Int)).calls = instrs E n := by
  have h : ¬ ((n : Int) < 1 ∨ (n : Int) > 8) := by omega
  unfold createCode
  rw [if_neg h]
  simp

theorem calldataWord_lt (cd : List Nat) (off : Nat) : calldataWord cd off < 2 ^ 256 := by
  have h : ∀ (l : List Nat) (a k : Nat), a < 256 ^ k →
      l.foldl (fun acc k => acc * 256 + cd.getD (off + k) 0 % 256) a < 256 ^ (k + l.length) := by
    intro l
    induction l with
    | nil => intro a k h; simpa using h
    | cons x l ih =>
      intro a k h
      have hb : cd.getD (off + x) 0 % 256 < 256 := Nat.mod_lt _ (by omega)
      have := ih (a * 256 + cd.getD (off + x) 0 % 256) (k + 1) (by
        rw [pow_succ]
        nlinarith)
      simpa [Nat.add_assoc, Nat.add_comm 1] using this
  have := h (List.range 32) 0 0 (by simp)
  simpa [calldataWord] using this

theorem selector_lt (cd : List Nat) : selector cd < 2 ^ 32 := by
  unfold selector
  rw [div_lit]
  have := calldataWord_lt cd 0
  rw [Nat.div_lt_iff_lt_mul (by positivity)]
  calc calldataWord cd 0 < 2 ^ 256 := this
    _ = 2 ^ 32 * 2 ^ 224 := by norm_num

theorem foldl_bytes_shift (g : Nat → Nat) : ∀ (l : List Nat) (a : Nat),
    l.foldl (fun acc k => acc * 256 + g k) a
      = a * 256 ^ l.length + l.foldl (fun acc k => acc * 256 + g k) 0 := by
  intro l
  induction l with
  | nil => intro a; simp
  | cons x l ih =>
    intro a
    simp only [List.foldl_cons, List.length_cons]
    rw [ih (a * 256 + g x), ih (0 * 256 + g x)]
    ring

theorem foldl_bytes_lt (g : Nat → Nat) (hg : ∀ k, g k < 256) : ∀ (l : List Nat),
    l.foldl (fun acc k => acc * 256 + g k) 0 < 256 ^ l.length := by
  intro l
  induction l using List.reverseRecOn with
  | nil => simp
  | append_singleton l x ih =>
    simp only [List.foldl_append, List.foldl_cons, List.foldl_nil, List.length_append,
      List.length_singleton, pow_succ]
    have := hg x
    nlinarith

/-- The selector is the big-endian value of the first four bytes. -/
theorem selector_eq_bytes (cd : List Nat) :
    selector cd
      = ((cd.getD 0 0 % 256 * 256 + cd.getD 1 0 % 256) * 256 + cd.getD 2 0 % 256) * 256
          + cd.getD 3 0 % 256 := by
  have hsplit : List.range 32 = List.range 4 ++ (List.range 28).map (4 + ·) := by decide
  have h1 := foldl_bytes_shift (fun k => cd.getD (0 + k) 0 % 256) ((List.range 28).map (4 + ·))
    ((List.range 4).foldl (fun acc k => acc * 256 + cd.getD (0 + k) 0 % 256) 0)
  have h2 := foldl_bytes_lt (fun k => cd.getD (0 + k) 0 % 256)
    (fun k => Nat.mod_lt _ (by omega)) ((List.range 28).map (4 + ·))
  have h4 : (List.range 4).foldl (fun acc k => acc * 256 + cd.getD (0 + k) 0 % 256) 0
      = ((cd.getD 0 0 % 256 * 256 + cd.getD 1 0 % 256) * 256 + cd.getD 2 0 % 256) * 256
          + cd.getD 3 0 % 256 := by
    simp [List.range_succ]
  unfold selector calldataWord
  rw [div_lit, hsplit, List.foldl_append, h1, h4]
  simp only [List.length_map, List.length_range] at h2 ⊢
  have e : (256 : Nat) ^ 28 = 2 ^ 224 := by norm_num
  rw [e] at h2 ⊢
  rw [Nat.add_comm, Nat.add_mul_div_right _ _ (by positivity), Nat.div_eq_of_lt h2]
  simp

theorem exec_accept_mono (E : Ext) (n : Nat) (cd : List Nat) (hn1 : 1 ≤ n) (hn6 : n ≤ 6)
    (h : Accepted E n cd) :
    ∃ fuel, ∀ k, run (createCode E (n : Int)).calls cd (fuel + k) initState
      = some (.returned (wordBytes
          ((refPermutation E (n + 1) (initialState n cd)).getD 0 0))) := by
  obtain ⟨fuel, hf⟩ := exec_accept_ref E n cd hn1 hn6 h
  rw [createCode_calls E n hn1 (by omega)]
  exact ⟨fuel, fun k => run_mono _ _ _ k _ _ hf⟩

theorem wordBytes_length (w : Nat) : (wordBytes w).length = 32 := by
  simp [wordBytes]

theorem calldataWord_drop (cd : List Nat) (off : Nat) :
    calldataWord cd (4 + off) = calldataWord (cd.drop 4) off := by
  unfold calldataWord
  congr 1
  funext acc k
  simp [List.getD_eq_getElem?_getD, List.getElem?_drop, Nat.add_assoc]

theorem initialState_drop (n : Nat) (cd1 cd2 : List Nat) (h : cd1.drop 4 = cd2.drop 4) :
    initialState n cd1 = initialState n cd2 := by
  have h4 : ∀ cd : List Nat, calldataWord cd 4 = calldataWord (cd.drop 4) 0 :=
    fun cd => calldataWord_drop cd 0
  have h36 : ∀ (cd : List Nat) (k : Nat),
      calldataWord cd (36 + 32 * k) = calldataWord (cd.drop 4) (32 + 32 * k) := by
    intro cd k
    rw [← calldataWord_drop]
    congr 1
    omega
  simp only [initialState, h4, h36, h]

theorem createTxData_ne_nil (E : Ext) (n : Nat) : createTxData E (instrs E n) ≠ [] := by
  simp [createTxData, instrs, checkSelector, encode]

/-! ### Set-up, constant table, round blocks -/

theorem loadState_block_raw (code : List Instr) (n : Nat) (cd : List Nat)
    (hn1 : 1 ≤ n) (hn8 : n ≤ 8) (rest : List Nat) (m : Nat → Nat) :
    execBlock code cd (loadState n) rest m
      = .ok (initialState n cd
              ++ hexToNat "0x30644e72e131a029b85045b68181585d2833e84879b9709143e1f593f0000001"
                :: rest, m) := by
  interval_cases n <;> rfl

theorem loadState_block (code : List Instr) (n : Nat) (cd : List Nat)
    (hn1 : 1 ≤ n) (hn8 : n ≤ 8) (rest : List Nat) (m : Nat → Nat) :
    execBlock code cd (loadState n) rest m = .ok (initialState n cd ++ q :: rest, m) := by
  rw [loadState_block_raw code n cd hn1 hn8 rest m, q_lit]

theorem initialState_length (n : Nat) (cd : List Nat) : (initialState n cd).length = n + 1 := by
  simp [initialState]

set_option maxRecDepth 100000 in
theorem saveM_block (code : List Instr) (E : Ext) (cd : List Nat) (t : Nat)
    (h2 : 2 ≤ t) (h9 : t ≤ 9) (st : List Nat) (m : Nat → Nat) :
    execBlock code cd (saveM E t) st m = .ok (st, saveMMem E t m) := by
  interval_cases t <;> rfl

theorem count_flatMap_range (a : Instr) (f : Nat → List Instr) (k : Nat) :
    (( List.range k).flatMap f).count a = ((List.range k).map fun i => (f i).count a).sum := by
  induction k with
  | zero => simp
  | succ k ih => simp [List.range_succ, List.flatMap_append, List.count_append, ih]

theorem saveM_count_mstore (E : Ext) (t : Nat) : (saveM E t).count mstore = t * t := by
  unfold saveM
  rw [count_flatMap_range]
  have h : ∀ i, ((List.range t).flatMap fun j =>
      [push (.hex (toHex256 (E.M (t - 2) i j))), push (.num ((1 + i * t + j) * 32)), mstore]).count
        mstore = t := by
    intro i
    rw [count_flatMap_range]
    have : ∀ j, [push (.hex (toHex256 (E.M (t - 2) i j))), push (.num ((1 + i * t + j) * 32)),
        mstore].count mstore = 1 := fun j => rfl
    simp [this]
  simp [h]

theorem ark_no_memory (E : Ext) (t r : Nat) :
    ∀ op ∈ ark E t r, op ≠ mload ∧ op ≠ mstore := by
  intro op hop
  simp only [ark, List.mem_flatMap, List.mem_range] at hop
  obtain ⟨i, _, hop⟩ := hop
  simp at hop
  rcases hop with rfl | rfl | rfl | rfl | rfl | rfl <;> simp

theorem refArk_length (E : Ext) (t r : Nat) (st : List Nat) : (refArk E t r st).length = t := by
  simp [refArk]

theorem sigma_single_block (code : List Instr) (cd : List Nat) (t p : Nat) (h2 : 2 ≤ t)
    (h9 : t ≤ 9) (hp : p < t) (f : Nat → Nat) (rest : List Nat) (m : Nat → Nat) :
    execBlock code cd (sigma t p) (vec t f ++ q :: rest) m
      = .ok (vec t (fun i => if i = p then sigmaVal (f i) else f i) ++ q :: rest, m) := by
  interval_cases t <;> interval_cases p <;> rfl

theorem vec_set (t p v : Nat) (st : List Nat) (hst : st.length = t) :
    vec t (fun i => if i = p then v else st.getD i 0) = st.set p v := by
  apply List.ext_getElem
  · simp [vec, hst]
  · intro i h1 h2
    have hi : i < st.length := by simpa using h2
    simp only [vec, List.getElem_map, List.getElem_range, List.getElem_set]
    by_cases hip : i = p
    · simp [hip]
    · rw [if_neg hip, if_neg (fun h => hip h.symm)]
      simp [List.getD_eq_getElem?_getD, List.getElem?_eq_getElem hi]

theorem sigmaVal_eq_sq (x : Nat) : sigmaVal x = (x ^ 2 % q) ^ 2 % q * x % q := by
  simp [sigmaVal, mulmodOp_q, pow_two]

/-! ### The round schedule -/

theorem count_flatMap (a : Instr) (f : Nat → List Instr) (l : List Nat) :
    (l.flatMap f).count a = (l.map fun i => (f i).count a).sum := by
  induction l with
  | nil => simp
  | cons x l ih => simp [List.flatMap_cons, List.count_append, ih]

theorem ark_count (E : Ext) (t r : Nat) (a : Instr) (h1 : a = mulmod ∨ a = jmp (some "mix")) :
    (ark E t r).count a = 0 := by
  unfold ark
  rw [count_flatMap]
  have h : ∀ i, [dup t, push (.hex (toHex256 (E.K (t - 2) (r * t + i)))), dup (2 + i), addmod,
      swap (1 + i), pop].count a = 0 := by
    intro i
    rcases h1 with rfl | rfl <;> rfl
  simp [h]

theorem sigmas_count_mulmod (t : Nat) (l : List Nat) :
    (l.flatMap (sigma t)).count mulmod = 3 * l.length := by
  rw [count_flatMap]
  have h : ∀ p, (sigma t p).count mulmod = 3 := fun p => rfl
  simp [h, Nat.mul_comm]

theorem sigmas_count_jmp (t : Nat) (l : List Nat) :
    (l.flatMap (sigma t)).count (jmp (some "mix")) = 0 := by
  rw [count_flatMap]
  have h : ∀ p, (sigma t p).count (jmp (some "mix")) = 0 := fun p => rfl
  simp [h]

theorem round_count_mulmod (E : Ext) (t nF nP i : Nat) :
    (round E t nF nP i).count mulmod = 3 * (sigmaPositions t nF nP i).length := by
  have h : (callMix i).count mulmod = 0 := rfl
  simp [round, List.count_append, ark_count E t i mulmod (Or.inl rfl), sigmas_count_mulmod, h]

theorem round_count_jmp (E : Ext) (t nF nP i : Nat) :
    (round E t nF nP i).count (jmp (some "mix")) = 1 := by
  have h : (callMix i).count (jmp (some "mix")) = 1 := by
    simp [callMix, List.count_cons]
  simp [round, List.count_append, ark_count E t i _ (Or.inr rfl), sigmas_count_jmp, h]

theorem rounds_count_mulmod (E : Ext) (t nF nP : Nat) :
    (rounds E t nF nP).count mulmod
      = 3 * ((List.range (nF + nP)).map fun i => (sigmaPositions t nF nP i).length).sum := by
  unfold rounds
  rw [count_flatMap]
  simp only [round_count_mulmod]
  generalize List.range (nF + nP) = l
  induction l with
  | nil => simp
  | cons x l ih => simp [ih, Nat.mul_add]

theorem rounds_count_jmp (E : Ext) (t nF nP : Nat) :
    (rounds E t nF nP).count (jmp (some "mix")) = nF + nP := by
  unfold rounds
  rw [count_flatMap]
  simp [round_count_jmp]

/-! ### Words in the call data -/

theorem foldl_wordBytes (w : Nat) : ∀ j, j ≤ 32 →
    (List.range j).foldl (fun acc k => acc * 256 + w / 256 ^ (31 - k) % 256 % 256) 0
      = w / 256 ^ (32 - j) % 256 ^ j := by
  intro j
  induction j with
  | zero => intro _; simp [Nat.mod_one]
  | succ j ih =>
    intro hj
    rw [List.range_succ, List.foldl_append, ih (by omega)]
    simp only [List.foldl_cons, List.foldl_nil, Nat.mod_mod]
    have e1 : 32 - j = (31 - j) + 1 := by omega
    have e2 : 32 - (j + 1) = 31 - j := by omega
    rw [e1, e2, pow_succ 256 (31 - j), ← Nat.div_div_eq_div_mul, pow_succ' 256 j, Nat.mod_mul]
    ring

theorem getD_wordBytes (w j : Nat) (hj : j < 32) :
    (wordBytes w).getD j 0 = w / 256 ^ (31 - j) % 256 := by
  simp [wordBytes, List.getD_eq_getElem?_getD, List.getElem?_map, List.getElem?_range hj]

theorem foldl_congr_range (f g : Nat → Nat → Nat) (a : Nat) : ∀ n,
    (∀ acc k, k < n → f acc k = g acc k) →
    (List.range n).foldl f a = (List.range n).foldl g a := by
  intro n
  induction n with
  | zero => intro _; rfl
  | succ n ih =>
    intro h
    rw [List.range_succ, List.foldl_append, List.foldl_append,
      ih (fun acc k hk => h acc k (by omega))]
    simp [h _ n (Nat.lt_succ_self n)]

/-- Reading back a word written as 32 big-endian bytes. -/
theorem calldataWord_wordBytes (w : Nat) (hw : w < 2 ^ 256) (rest : List Nat) :
    calldataWord (wordBytes w ++ rest) 0 = w := by
  unfold calldataWord
  rw [foldl_congr_range _ (fun acc k => acc * 256 + w / 256 ^ (31 - k) % 256 % 256) 0 32
    (fun acc k hk => by
      have hl : 0 + k < (wordBytes w).length := by rw [wordBytes_length]; omega
      rw [List.getD_eq_getElem?_getD, List.getElem?_append_left hl,
        ← List.getD_eq_getElem?_getD, Nat.zero_add, getD_wordBytes w k hk]),
    foldl_wordBytes w 32 (Nat.le_refl _)]
  have e : (256 : Nat) ^ 32 = 2 ^ 256 := by norm_num
  rw [Nat.sub_self, pow_zero, Nat.div_one, e]
  exact Nat.mod_eq_of_lt hw

theorem calldataWord_skip (bs rest : List Nat) (off : Nat) :
    calldataWord (bs ++ rest) (bs.length + off) = calldataWord rest off := by
  unfold calldataWord
  congr 1
  funext acc k
  have e : bs.length + off + k - bs.length = off + k := by omega
  rw [List.getD_eq_getElem?_getD, List.getD_eq_getElem?_getD,
    List.getElem?_append_right (by omega), e]

theorem words_read (ws : List Nat) (hws : ∀ w ∈ ws, w < 2 ^ 256) (tail : List Nat) :
    ∀ k, k < ws.length →
      calldataWord (ws.flatMap wordBytes ++ tail) (32 * k) = ws.getD k 0 := by
  induction ws with
  | nil => intro k hk; simp at hk
  | cons w ws ih =>
    intro k hk
    rw [List.flatMap_cons, List.append_assoc]
    cases k with
    | zero =>
      simpa using calldataWord_wordBytes w (hws w (List.mem_cons_self _ _)) _
    | succ k =>
      have e : 32 * (k + 1) = (wordBytes w).length + 32 * k := by
        rw [wordBytes_length]; omega
      rw [e, calldataWord_skip, ih (fun x hx => hws x (List.mem_cons_of_mem _ hx)) k
        (by simpa using hk)]
      simp

/-- The initial state read from call data laid out as four selector bytes, the
initial capacity word and the input words. -/
theorem initialState_layout (n : Nat) (sel : List Nat) (c : Nat) (xs tail : List Nat)
    (hsel : sel.length = 4) (hxs : xs.length = n) (hc : c < 2 ^ 256)
    (hx : ∀ x ∈ xs, x < 2 ^ 256) :
    initialState n (sel ++ (c :: xs).flatMap wordBytes ++ tail) = c :: xs := by
  have hws : ∀ w ∈ c :: xs, w < 2 ^ 256 := by
    intro w hw
    rcases List.mem_cons.mp hw with rfl | h
    · exact hc
    · exact hx w h
  have hread : ∀ k, k < n + 1 →
      calldataWord (sel ++ (c :: xs).flatMap wordBytes ++ tail) (4 + 32 * k)
        = (c :: xs).getD k 0 := by
    intro k hk
    rw [List.append_assoc, ← hsel, calldataWord_skip]
    exact words_read (c :: xs) hws tail k (by simpa [hxs] using hk)
  rw [initialState_eq]
  apply List.ext_getElem
  · simp [vec, hxs]
  · intro i h1 h2
    have hi : i < n + 1 := by simpa [vec] using h1
    simp only [vec, initF, List.getElem_map, List.getElem_range]
    rw [hread i hi, List.getD_eq_getElem?_getD, List.getElem?_eq_getElem h2]
    rfl

/-! ### The mixing routine and the output -/

theorem mixF_eq_mixAcc (E : Ext) (t : Nat) (st : List Nat) (m : Nat → Nat)
    (hM : ∀ row col, row < t → col < t → m (32 * (1 + row * t + col)) = E.M (t - 2) row col)
    (row : Nat) (hrow : row < t) :
    mixF (memM t m) t (fun i => st.getD i 0) row = mixAcc E t st row := by
  have h0 : memM t m row 0 = E.M (t - 2) row 0 := by
    rw [memM, Nat.mul_comm]
    exact hM row 0 hrow (by omega)
  simp only [mixF, mixAcc, addmodOp_q, mulmodOp_q, h0]
  apply foldl_congr_range
  intro acc k hk
  have h1 : memM t m row (k + 1) = E.M (t - 2) row (k + 1) := by
    rw [memM, Nat.mul_comm]
    exact hM row (k + 1) hrow (by omega)
  rw [h1]

theorem mixBody_block (code : List Instr) (cd : List Nat) (t : Nat) (h2 : 2 ≤ t) (h7 : t ≤ 7)
    (f : Nat → Nat) (rest : List Nat) (m : Nat → Nat) :
    execBlock code cd (mixBody t) (vec t f ++ q :: rest) m
      = .ok (vec t (mixF (memM t m) t f) ++ q :: rest, m) := by
  have h := mix_block code cd t h2 h7 f rest m
  unfold mixBody
  rw [List.append_assoc, List.singleton_append]
  simp only [execBlock, execOp]
  exact h

theorem getElem?_vec_append (t : Nat) (f : Nat → Nat) (l : List Nat) (i : Nat) (hi : i < t) :
    (vec t f ++ l)[i]? = some (f i) := by
  rw [List.getElem?_append_left (by rw [vec_length]; exact hi)]
  simp [vec, List.getElem?_map, List.getElem?_range hi]

theorem wordBytes_lt (w : Nat) : ∀ b ∈ wordBytes w, b < 256 := by
  intro b hb
  simp only [wordBytes, List.mem_map] at hb
  obtain ⟨k, _, rfl⟩ := hb
  exact Nat.mod_lt _ (by omega)

theorem finish_store (E : Ext) (n : Nat) (cd : List Nat) (x : Nat) (r : List Nat) (m : Nat → Nat) :
    stepN (instrs E n) cd 2 ⟨(upTo E n (N_ROUNDS_F + nRoundsPOf (n + 1))).length, x :: r, m⟩
      = .ok ⟨(upTo E n (N_ROUNDS_F + nRoundsPOf (n + 1))).length + 2, r, memStore m 0 x⟩ := by
  have hblk : execBlock (instrs E n) cd (finish.take 2) (x :: r) m = .ok (r, memStore m 0 x) := by
    simp [finish, execBlock, execOp, Lit.val, lit_00]
  exact stepN_block (instrs E n) cd (finish.take 2)
    (upTo E n (N_ROUNDS_F + nRoundsPOf (n + 1))) (finish.drop 2 ++ mix (n + 1)) _ _ _ _
    (by rw [instrs_eq]; simp [finish]) hblk

/-- The state with which the program reaches the start of round `i` (for
`i = 0`: the end of the set-up), on an accepted selector. -/
theorem reach_round (E : Ext) (n : Nat) (cd : List Nat) (hn1 : 1 ≤ n) (hn6 : n ≤ 6)
    (h : Accepted E n cd) (i : Nat) (hi : i ≤ N_ROUNDS_F + nRoundsPOf (n + 1)) :
    ∃ k m, stepN (instrs E n) cd k initState
      = .ok ⟨(upTo E n i).length,
          (List.range i).foldl (refRound E (n + 1)) (initialState n cd) ++ [q], m⟩ := by
  obtain ⟨k1, h1⟩ := header_exec E n cd hn1 (by omega) h
  obtain ⟨k2, m', h2, _⟩ := rounds_exec E n cd hn1 hn6 (initF cd)
    (saveMMem E (n + 1) (fun _ => 0)) i hi
  refine ⟨k1 + k2, m', ?_⟩
  rw [stepN_add _ _ _ _ _ _ _ h1 h2,
    iterF_ref E (memM (n + 1) (saveMMem E (n + 1) (fun _ => 0))) (n + 1) (by omega)
      (fun row col hr hc => saveMMem_spec E (n + 1) _ row col hr hc),
    initialState_eq]

theorem refRound_length (E : Ext) (t : Nat) (st : List Nat) (r : Nat) :
    (refRound E t st r).length = t := by
  simp [refRound, refMix]

theorem foldl_refRound_length (E : Ext) (t : Nat) (st : List Nat) (hst : st.length = t) :
    ∀ i, ((List.range i).foldl (refRound E t) st).length = t := by
  intro i
  induction i with
  | zero => simpa using hst
  | succ i _ =>
    rw [List.range_succ, List.foldl_append]
    simp [refRound_length]

/-! ### Labels and jumps of the whole stream -/

theorem allData_saveM (E : Ext) (t : Nat) : ∀ x ∈ saveM E t, x.isData = true := by
  intro x hx
  simp only [saveM, List.mem_flatMap, List.mem_range] at hx
  obtain ⟨i, _, j, _, hx⟩ := hx
  simp at hx
  rcases hx with rfl | rfl | rfl <;> rfl

theorem allData_ark (E : Ext) (t r : Nat) : ∀ x ∈ ark E t r, x.isData = true := by
  intro x hx
  simp only [ark, List.mem_flatMap, List.mem_range] at hx
  obtain ⟨i, _, hx⟩ := hx
  simp at hx
  rcases hx with rfl | rfl | rfl | rfl | rfl | rfl <;> rfl

theorem allData_sigmas (t : Nat) (l : List Nat) : ∀ x ∈ l.flatMap (sigma t), x.isData = true := by
  intro x hx
  simp only [List.mem_flatMap] at hx
  obtain ⟨p, _, hx⟩ := hx
  have h : (sigma t p).all (fun x => x.isData) = true := rfl
  exact List.all_eq_true.mp h x hx

theorem allData_loadState (n : Nat) : ∀ x ∈ loadState n, x.isData = true := by
  intro x hx
  simp only [loadState, List.mem_append, List.mem_flatMap, List.mem_range] at hx
  rcases hx with (hx | ⟨i, _, hx⟩) | hx
  · simp at hx; subst hx; rfl
  · simp at hx; rcases hx with rfl | rfl <;> rfl
  · simp at hx; rcases hx with rfl | rfl <;> rfl

theorem allData_mixCell (t i j : Nat) : ∀ x ∈ mixCell t i j, x.isData = true := by
  intro x hx
  unfold mixCell at hx
  split at hx
  · have h : ([dup (i + t), push (.num ((1 + i * t + j) * 32)), mload, dup (2 + i + j),
        mulmod] : List Instr).all (fun x => x.isData) = true := rfl
    exact List.all_eq_true.mp h x hx
  · have h : ([dup (1 + i + t), push (.num ((1 + i * t + j) * 32)), mload, dup (3 + i + j),
        mulmod, dup (2 + i + t), swap 2, addmod] : List Instr).all (fun x => x.isData) = true :=
      rfl
    exact List.all_eq_true.mp h x hx

theorem allData_mixRows (t : Nat) : ∀ x ∈ mixRows t, x.isData = true := by
  intro x hx
  simp only [mixRows, List.mem_flatMap, List.mem_range] at hx
  obtain ⟨i, _, j, _, hx⟩ := hx
  exact allData_mixCell t i j x hx

theorem allData_mixDrop (t : Nat) : ∀ x ∈ mixDrop t, x.isData = true := by
  intro x hx
  simp only [mixDrop, List.mem_flatMap, List.mem_range] at hx
  obtain ⟨i, _, hx⟩ := hx
  simp at hx
  rcases hx with rfl | rfl <;> rfl

theorem count_zero_of_allData (a : Instr) (ha : a.isData = false) (l : List Instr)
    (hl : ∀ x ∈ l, x.isData = true) : l.count a = 0 := by
  rw [List.count_eq_zero]
  intro hmem
  have := hl a hmem
  rw [ha] at this
  cases this

theorem count_round_nondata (E : Ext) (t nF nP i : Nat) (a : Instr) (ha : a.isData = false) :
    (round E t nF nP i).count a = (callMix i).count a := by
  simp [round, List.count_append, count_zero_of_allData a ha _ (allData_ark E t i),
    count_zero_of_allData a ha _ (allData_sigmas t _)]

theorem count_instrs_nondata (E : Ext) (n : Nat) (a : Instr) (ha : a.isData = false) :
    (instrs E n).count a
      = (checkSelector E n).count a + [label "start"].count a
        + ((List.range (N_ROUNDS_F + nRoundsPOf (n + 1))).map fun i => (callMix i).count a).sum
        + finish.count a + [label "mix"].count a
        + [push (.num 0), mload, jmp none].count a := by
  simp only [instrs, mix, rounds, List.count_append, count_flatMap,
    count_zero_of_allData a ha _ (allData_saveM E (n + 1)),
    count_zero_of_allData a ha _ (allData_loadState n),
    count_zero_of_allData a ha _ (allData_mixRows (n + 1)),
    count_zero_of_allData a ha _ (allData_mixDrop (n + 1)),
    count_round_nondata E _ _ _ _ a ha]
  omega

theorem sum_indicator_range (i0 : Nat) : ∀ R,
    ((List.range R).map fun i => if i = i0 then 1 else 0).sum = if i0 < R then 1 else 0 := by
  intro R
  induction R with
  | zero => simp
  | succ R ih =>
    rw [List.range_succ, List.map_append, List.sum_append, ih]
    by_cases h1 : i0 < R
    · have h2 : R ≠ i0 := by omega
      have h3 : i0 < R + 1 := by omega
      simp [h1, h2, h3]
    · by_cases h2 : R = i0
      · have h3 : i0 < R + 1 := by omega
        simp [h1, h2, h3]
      · have h3 : ¬ i0 < R + 1 := by omega
        simp [h1, h2, h3]

theorem count_label_callMix (i i0 : Nat) :
    (callMix i).count (label (strLabel i0)) = if i = i0 then 1 else 0 := by
  by_cases h : i = i0
  · subst h
    simp [callMix, List.count_cons]
  · have h2 : strLabel i ≠ strLabel i0 := fun he => h (strLabel_injective _ _ he)
    simp [callMix, List.count_cons, h, h2]

theorem count_label_mix (E : Ext) (n : Nat) : (instrs E n).count (label "mix") = 1 := by
  rw [count_instrs_nondata E n (label "mix") rfl]
  have h1 : (checkSelector E n).count (label "mix") = 0 := rfl
  have h2 : ∀ i, (callMix i).count (label "mix") = 0 := by
    intro i
    simp [callMix, List.count_cons, strLabel_ne_mix]
  have h3 : finish.count (label "mix") = 0 := rfl
  simp [h1, h2, h3, List.count_cons]

theorem count_label_start (E : Ext) (n : Nat) : (instrs E n).count (label "start") = 1 := by
  rw [count_instrs_nondata E n (label "start") rfl]
  have h1 : (checkSelector E n).count (label "start") = 0 := rfl
  have h2 : ∀ i, (callMix i).count (label "start") = 0 := by
    intro i
    simp [callMix, List.count_cons, strLabel_ne_start]
  have h3 : finish.count (label "start") = 0 := rfl
  simp [h1, h2, h3, List.count_cons]

theorem count_label_strLabel (E : Ext) (n i0 : Nat)
    (hi : i0 < N_ROUNDS_F + nRoundsPOf (n + 1)) :
    (instrs E n).count (label (strLabel i0)) = 1 := by
  rw [count_instrs_nondata E n (label (strLabel i0)) rfl]
  have h1 : (checkSelector E n).count (label (strLabel i0)) = 0 := rfl
  have h3 : finish.count (label (strLabel i0)) = 0 := rfl
  have h4 : strLabel i0 ≠ "start" := strLabel_ne_start i0
  have h5 : strLabel i0 ≠ "mix" := strLabel_ne_mix i0
  simp only [count_label_callMix, sum_indicator_range, if_pos hi, h1, h3]
  simp [List.count_cons, h4.symm, h5.symm]

theorem count_jmp_mix (E : Ext) (n : Nat) :
    (instrs E n).count (jmp (some "mix")) = N_ROUNDS_F + nRoundsPOf (n + 1) := by
  rw [count_instrs_nondata E n (jmp (some "mix")) rfl]
  have h1 : (checkSelector E n).count (jmp (some "mix")) = 0 := rfl
  have h2 : ∀ i, (callMix i).count (jmp (some "mix")) = 1 := by
    intro i
    simp [callMix, List.count_cons]
  have h3 : finish.count (jmp (some "mix")) = 0 := rfl
  simp [h1, h2, h3, List.count_cons]

theorem mem_of_count_pos (a : Instr) (l : List Instr) (h : 0 < l.count a) : a ∈ l := by
  by_contra hn
  rw [List.count_eq_zero.mpr hn] at h
  exact Nat.lt_irrefl 0 h

theorem sum_pos_exists (g : Nat → Nat) : ∀ R,
    0 < ((List.range R).map g).sum → ∃ i, i < R ∧ 0 < g i := by
  intro R
  induction R with
  | zero => intro h; simp at h
  | succ R ih =>
    intro h
    rw [List.range_succ, List.map_append, List.sum_append] at h
    by_cases h1 : 0 < ((List.range R).map g).sum
    · obtain ⟨i, hi, hg⟩ := ih h1
      exact ⟨i, by omega, hg⟩
    · refine ⟨R, Nat.lt_succ_self R, ?_⟩
      simp at h h1
      omega

/-- Every label referred to in the stream is one of `start`, `mix` and the
resumption labels of the rounds. -/
theorem referenced_label (E : Ext) (n : Nat) (l : String)
    (h : pushLabel l ∈ instrs E n ∨ jmp (some l) ∈ instrs E n ∨ jmpi (some l) ∈ instrs E n) :
    l = "start" ∨ l = "mix" ∨ ∃ i, i < N_ROUNDS_F + nRoundsPOf (n + 1) ∧ l = strLabel i := by
  have key : ∀ a : Instr, a.isData = false → a ∈ instrs E n →
      (checkSelector E n).count a = 0 → [label "start"].count a = 0 → finish.count a = 0 →
      [label "mix"].count a = 0 → [push (.num 0), mload, jmp none].count a = 0 →
      ∃ i, i < N_ROUNDS_F + nRoundsPOf (n + 1) ∧ 0 < (callMix i).count a := by
    intro a ha hmem c1 c2 c3 c4 c5
    have hpos : 0 < (instrs E n).count a := List.count_pos_iff.mpr hmem
    rw [count_instrs_nondata E n a ha, c1, c2, c3, c4, c5] at hpos
    exact sum_pos_exists _ _ (by simpa using hpos)
  rcases h with h | h | h
  · obtain ⟨i, hi, hc⟩ := key (pushLabel l) rfl h rfl rfl rfl rfl rfl
    right; right
    refine ⟨i, hi, ?_⟩
    by_contra hne
    have hne' : strLabel i ≠ l := fun he => hne he.symm
    simp [callMix, List.count_cons, hne'] at hc
  · by_cases hm : l = "mix"
    · exact Or.inr (Or.inl hm)
    · exfalso
      have hm' : ¬ ("mix" = l) := fun he => hm he.symm
      obtain ⟨i, _, hc⟩ := key (jmp (some l)) rfl h rfl rfl rfl rfl (by simp [List.count_cons])
      simp [callMix, List.count_cons, hm'] at hc
  · by_cases hs : l = "start"
    · exact Or.inl hs
    · exfalso
      have hs' : ¬ ("start" = l) := fun he => hs he.symm
      obtain ⟨i, _, hc⟩ := key (jmpi (some l)) rfl h
        (by simp [checkSelector, List.count_cons, hs']) rfl rfl rfl
        (by simp [List.count_cons])
      simp [callMix, List.count_cons] at hc

/-! ### The emulated call of `mix` -/

theorem execBlock_prefix_ok (code : List Instr) (cd : List Nat) :
    ∀ (a b : List Instr) (st : List Nat) (m : Nat → Nat) (r : List Nat × (Nat → Nat)),
      execBlock code cd (a ++ b) st m = .ok r → ∃ r1, execBlock code cd a st m = .ok r1 := by
  intro a
  induction a with
  | nil => intro b st m r _; exact ⟨(st, m), rfl⟩
  | cons op ops ih =>
    intro b st m r h
    simp only [execBlock, List.cons_append] at h ⊢
    cases hop : execOp code cd op st m with
    | error e => rw [hop] at h; cases h
    | ok r2 =>
      obtain ⟨s1, m1⟩ := r2
      rw [hop] at h
      exact ih b s1 m1 r h

theorem execOp_mem_unchanged (code : List Instr) (cd : List Nat) (op : Instr) (hop : op ≠ mstore)
    (st : List Nat) (m : Nat → Nat) (st' : List Nat) (m' : Nat → Nat)
    (h : execOp code cd op st m = .ok (st', m')) : m' = m := by
  cases op <;> simp only [execOp] at h
  case mstore => exact absurd rfl hop
  all_goals first
    | (simp only [Except.ok.injEq, Prod.mk.injEq] at h; exact h.2.symm)
    | (cases h)
    | (split at h <;> first
        | (simp only [Except.ok.injEq, Prod.mk.injEq] at h; exact h.2.symm)
        | (cases h)
        | (split at h <;> first
            | (simp only [Except.ok.injEq, Prod.mk.injEq] at h; exact h.2.symm)
            | (cases h)))

theorem execBlock_mem_unchanged (code : List Instr) (cd : List Nat) :
    ∀ (blk : List Instr), mstore ∉ blk → ∀ (st : List Nat) (m : Nat → Nat) (st' : List Nat)
      (m' : Nat → Nat), execBlock code cd blk st m = .ok (st', m') → m' = m := by
  intro blk
  induction blk with
  | nil =>
    intro _ st m st' m' h
    simp only [execBlock, Except.ok.injEq, Prod.mk.injEq] at h
    exact h.2.symm
  | cons op ops ih =>
    intro hn st m st' m' h
    simp only [execBlock] at h
    cases hop : execOp code cd op st m with
    | error e => rw [hop] at h; cases h
    | ok r =>
      obtain ⟨s1, m1⟩ := r
      rw [hop] at h
      have h1 := execOp_mem_unchanged code cd op
        (fun he => hn (by rw [he]; exact List.mem_cons_self _ _)) st m s1 m1 hop
      have h2 := ih (fun hm => hn (List.mem_cons_of_mem _ hm)) s1 m1 st' m' h
      rw [h2, h1]

theorem mstore_not_mem_mixCell (t i j : Nat) : mstore ∉ mixCell t i j := by
  intro hx
  unfold mixCell at hx
  split at hx
  · have h : ([dup (i + t), push (.num ((1 + i * t + j) * 32)), mload, dup (2 + i + j),
        mulmod] : List Instr).all (fun x => decide (x ≠ mstore)) = true := rfl
    simpa using List.all_eq_true.mp h mstore hx
  · have h : ([dup (1 + i + t), push (.num ((1 + i * t + j) * 32)), mload, dup (3 + i + j),
        mulmod, dup (2 + i + t), swap 2, addmod] : List Instr).all
          (fun x => decide (x ≠ mstore)) = true := rfl
    simpa using List.all_eq_true.mp h mstore hx

theorem mstore_not_mem_mix (t : Nat) : mstore ∉ mix t := by
  intro hx
  simp only [mix, mixRows, mixDrop, List.mem_append, List.mem_flatMap, List.mem_range] at hx
  rcases hx with ((hx | ⟨i, _, j, _, hx⟩) | ⟨i, _, hx⟩) | hx
  · simp at hx
  · exact mstore_not_mem_mixCell t i j hx
  · simp at hx
  · simp at hx

theorem mstore_not_mem_mixData (t : Nat) : mstore ∉ mixData t := by
  intro hx
  apply mstore_not_mem_mix t
  rw [mix_eq]
  exact List.mem_append_left _ hx

/-! ### Round-constant indices -/

theorem arkIndices_flatMap (t : Nat) : ∀ R,
    (List.range R).flatMap (arkIndices t) = List.range (R * t) := by
  intro R
  induction R with
  | zero => simp
  | succ R ih =>
    rw [List.range_succ, List.flatMap_append, ih, Nat.add_mul, Nat.one_mul, List.range_add]
    simp [arkIndices]

theorem pushedHex_append : ∀ (a b : List Instr), pushedHex (a ++ b) = pushedHex a ++ pushedHex b := by
  intro a
  induction a with
  | nil => intro b; rfl
  | cons x a ih =>
    intro b
    cases x with
    | push l =>
      cases l with
      | num k => simpa [pushedHex] using ih b
      | hex s => simpa [pushedHex] using ih b
    | _ => simpa [pushedHex] using ih b

theorem pushedHex_flatMap (f : Nat → List Instr) : ∀ (l : List Nat),
    pushedHex (l.flatMap f) = l.flatMap fun i => pushedHex (f i) := by
  intro l
  induction l with
  | nil => rfl
  | cons x l ih => simp [List.flatMap_cons, pushedHex_append, ih]

theorem pushedHex_ark (E : Ext) (t r : Nat) :
    pushedHex (ark E t r) = (arkIndices t r).map fun k => toHex256 (E.K (t - 2) k) := by
  unfold ark arkIndices
  rw [pushedHex_flatMap]
  have h : ∀ i, pushedHex [dup t, push (.hex (toHex256 (E.K (t - 2) (r * t + i)))), dup (2 + i),
      addmod, swap (1 + i), pop] = [toHex256 (E.K (t - 2) (r * t + i))] := fun i => rfl
  simp only [h, List.map_map]
  generalize List.range t = l
  induction l with
  | nil => rfl
  | cons x l ih => simp [List.flatMap_cons, ih]

theorem pushedHex_round (E : Ext) (t nF nP i : Nat) :
    pushedHex (round E t nF nP i) = (arkIndices t i).map fun k => toHex256 (E.K (t - 2) k) := by
  unfold round
  rw [pushedHex_append, pushedHex_append, pushedHex_ark, pushedHex_flatMap]
  have h1 : ∀ p, pushedHex (sigma t p) = [] := fun p => rfl
  have h2 : pushedHex (callMix i) = [] := rfl
  simp [h1, h2]

theorem flatMap_map_eq (g : Nat → String) (f : Nat → List Nat) : ∀ (l : List Nat),
    (l.flatMap fun i => (f i).map g) = (l.flatMap f).map g := by
  intro l
  induction l with
  | nil => rfl
  | cons x l ih => simp [List.flatMap_cons, ih]

theorem pushedHex_rounds (E : Ext) (t nF nP : Nat) :
    pushedHex (rounds E t nF nP)
      = (List.range ((nF + nP) * t)).map fun k => toHex256 (E.K (t - 2) k) := by
  unfold rounds
  rw [pushedHex_flatMap]
  simp only [pushedHex_round]
  rw [flatMap_map_eq, arkIndices_flatMap]

/-! ### `toHex256` -/

theorem digitChar_mem_hexChars (d : Nat) (h : d < 16) : Nat.digitChar d ∈ hexChars := by
  interval_cases d <;> decide

theorem toDigitsCore_hexChars : ∀ (fuel n : Nat) (ds : List Char),
    (∀ c ∈ ds, c ∈ hexChars) → ∀ c ∈ Nat.toDigitsCore 16 fuel n ds, c ∈ hexChars := by
  intro fuel
  induction fuel with
  | zero => intro n ds h c hc; exact h c (by simpa [Nat.toDigitsCore] using hc)
  | succ f ih =>
    intro n ds h c hc
    have hd : ∀ c ∈ Nat.digitChar (n % 16) :: ds, c ∈ hexChars := by
      intro c hc
      rcases List.mem_cons.mp hc with rfl | hc
      · exact digitChar_mem_hexChars _ (Nat.mod_lt _ (by omega))
      · exact h c hc
    simp only [Nat.toDigitsCore] at hc
    split at hc
    · exact hd c hc
    · exact ih _ _ hd c hc

theorem toDigits_hexChars (a : Nat) : ∀ c ∈ Nat.toDigits 16 a, c ∈ hexChars :=
  toDigitsCore_hexChars (a + 1) a [] (fun c hc => by simp at hc)

theorem hexDigitVal_le (c : Char) : hexDigitVal c ≤ 15 := by
  unfold hexDigitVal
  split
  · omega
  · split
    · omega
    · split
      · omega
      · omega

theorem digitsVal_lt (ds : List Char) : digitsVal 16 ds < 16 ^ ds.length := by
  induction ds using List.reverseRecOn with
  | nil => simp [digitsVal]
  | append_singleton l x ih =>
    simp only [digitsVal, List.foldl_append, List.foldl_cons, List.foldl_nil, List.length_append,
      List.length_singleton, pow_succ] at ih ⊢
    have := hexDigitVal_le x
    omega

theorem toDigits_length_le (a : Nat) (ha : a < 2 ^ 256) : (Nat.toDigits 16 a).length ≤ 64 := by
  have e : (16 : Nat) ^ 64 = 2 ^ 256 := by norm_num
  exact Nat.toDigitsCore_length 16 (by omega) (a + 1) a 64 (by rw [e]; exact ha) (by omega)

theorem toDigits_length_gt (a : Nat) (ha : 2 ^ 256 ≤ a) : 64 < (Nat.toDigits 16 a).length := by
  have e : (16 : Nat) ^ 64 = 2 ^ 256 := by norm_num
  have h1 := digitsVal_lt (Nat.toDigits 16 a)
  rw [digitsVal_toDigits 16 (by omega) (by omega)] at h1
  have h2 : (16 : Nat) ^ 64 < 16 ^ (Nat.toDigits 16 a).length := by
    rw [e]; omega
  exact (Nat.pow_lt_pow_iff_right (by omega)).mp h2

theorem toHex256_data (a : Nat) :
    (toHex256 a).data
      = '0' :: 'x' :: (List.replicate (64 - (Nat.toDigits 16 a).length) '0' ++ Nat.toDigits 16 a) := by
  simp [toHex256]

theorem pairBytes_length : ∀ (l : List Char), (pairBytes l).length = (l.length + 1) / 2
  | [] => rfl
  | [_] => by simp [pairBytes]
  | _ :: _ :: r => by
    simp only [pairBytes, List.length_cons, pairBytes_length r]
    omega

theorem hexBody_toHex256 (a : Nat) :
    hexBody (toHex256 a)
      = List.replicate (64 - (Nat.toDigits 16 a).length) '0' ++ Nat.toDigits 16 a := by
  unfold hexBody
  rw [toHex256_data]
  rfl

theorem toHex256_bytes_length (a : Nat) (ha : a < 2 ^ 256) :
    (Lit.hex (toHex256 a)).bytes.length = 32 := by
  have hl := toDigits_length_le a ha
  have h64 : (List.replicate (64 - (Nat.toDigits 16 a).length) '0'
      ++ Nat.toDigits 16 a).length = 64 := by
    simp only [List.length_append, List.length_replicate]
    omega
  simp only [Lit.bytes, hexBody_toHex256, evenPad, h64]
  rw [if_neg (by decide), pairBytes_length, h64]

/-! ### Unreduced inputs -/

theorem q_pos : 0 < q := by decide

theorem q_lt_word : q < 2 ^ 256 := by decide

theorem getD_map_mod (st : List Nat) (i : Nat) :
    (st.map (· % q)).getD i 0 = st.getD i 0 % q := by
  simp only [List.getD_eq_getElem?_getD, List.getElem?_map]
  cases st[i]? <;> simp

theorem refArk_mod (E : Ext) (t r : Nat) (st : List Nat) :
    refArk E t r (st.map (· % q)) = refArk E t r st := by
  unfold refArk
  apply List.map_congr_left
  intro i _
  rw [getD_map_mod, Nat.mod_add_mod]

theorem refPermutation_mod (E : Ext) (t : Nat) (st : List Nat) :
    refPermutation E t (st.map (· % q)) = refPermutation E t st := by
  unfold refPermutation
  have h : 8 + nRoundsPOf t = (7 + nRoundsPOf t) + 1 := by omega
  rw [h, List.range_succ_eq_map, List.foldl_cons, List.foldl_cons]
  congr 1
  unfold refRound
  rw [refArk_mod]

theorem refPermutation_lt (E : Ext) (t : Nat) (ht : 1 ≤ t) (st : List Nat) :
    (refPermutation E t st).getD 0 0 < q := by
  unfold refPermutation
  have h : 8 + nRoundsPOf t = (7 + nRoundsPOf t) + 1 := by omega
  rw [h, List.range_succ, List.foldl_append]
  simp only [List.foldl_cons, List.foldl_nil, refRound, refMix]
  have h0 : 0 < t := ht
  simp only [List.getD_eq_getElem?_getD, List.getElem?_map, List.getElem?_range h0,
    Option.map_some', Option.getD_some]
  exact Nat.mod_lt _ q_pos

theorem selector_reducedCall (n : Nat) (cd : List Nat) :
    selector (reducedCall n cd) = selector cd := by
  rw [selector_eq_bytes, selector_eq_bytes]
  simp [reducedCall]

theorem initialState_reducedCall (n : Nat) (cd : List Nat) :
    initialState n (reducedCall n cd) = (initialState n cd).map (· % q) := by
  have hlt : ∀ x : Nat, x % q < 2 ^ 256 := fun x =>
    Nat.lt_trans (Nat.mod_lt x q_pos) q_lt_word
  have h := initialState_layout n
    [cd.getD 0 0 % 256, cd.getD 1 0 % 256, cd.getD 2 0 % 256, cd.getD 3 0 % 256]
    (calldataWord cd 4 % q)
    (((List.range n).map fun k => calldataWord cd (36 + 32 * k)).map (· % q)) [] rfl
    (by simp) (hlt _) (by
      intro x hx
      simp only [List.mem_map] at hx
      obtain ⟨y, _, rfl⟩ := hx
      exact hlt y)
  simpa [reducedCall, initialState] using h

/-- Output of the program in terms of the reference permutation, for use with
several call data. -/
theorem exec_output (E : Ext) (n : Nat) (cd : List Nat) (hn1 : 1 ≤ n) (hn6 : n ≤ 6)
    (h : Accepted E n cd) (st : List Nat) (hst : initialState n cd = st) :
    ∃ fuel, ∀ k, run (createCode E (n : Int)).calls cd (fuel + k) initState
      = some (.returned (wordBytes ((refPermutation E (n + 1) st).getD 0 0))) := by
  rw [← hst]
  exact exec_accept_mono E n cd hn1 hn6 h

/-- The emulated call of round `i`, from the jump to `mix` to the return: every
step in between is inside `mix` and leaves memory as it was at the jump, and
the closing indirect jump lands on address `a`, the word stored at offset 0. -/
theorem call_stages (E : Ext) (n : Nat) (cd : List Nat) (hn1 : 1 ≤ n) (hn6 : n ≤ 6) (i : Nat)
    (hi : i < N_ROUNDS_F + nRoundsPOf (n + 1)) (g : Nat → Nat) (m : Nat → Nat) :
    (instrs E n)[(upTo E n i).length
        + (roundData E (n + 1) N_ROUNDS_F (nRoundsPOf (n + 1)) i).length]?
        = some (jmp (some "mix"))
      ∧ (∀ j, j ≤ (mixData (n + 1)).length → ∃ st1, stepN (instrs E n) cd (1 + j)
          ⟨(upTo E n i).length + (roundData E (n + 1) N_ROUNDS_F (nRoundsPOf (n + 1)) i).length,
            vec (n + 1) g ++ [q],
            memStore m 0 ((upTo E n i).length
              + (roundData E (n + 1) N_ROUNDS_F (nRoundsPOf (n + 1)) i).length + 1)⟩
          = .ok ⟨(upTo E n (N_ROUNDS_F + nRoundsPOf (n + 1))).length + finish.length + j, st1,
            memStore m 0 ((upTo E n i).length
              + (roundData E (n + 1) N_ROUNDS_F (nRoundsPOf (n + 1)) i).length + 1)⟩)
      ∧ stepN (instrs E n) cd (1 + (mixData (n + 1)).length + 1)
          ⟨(upTo E n i).length + (roundData E (n + 1) N_ROUNDS_F (nRoundsPOf (n + 1)) i).length,
            vec (n + 1) g ++ [q],
            memStore m 0 ((upTo E n i).length
              + (roundData E (n + 1) N_ROUNDS_F (nRoundsPOf (n + 1)) i).length + 1)⟩
          = .ok ⟨(upTo E n i).length
              + (roundData E (n + 1) N_ROUNDS_F (nRoundsPOf (n + 1)) i).length + 1,
            vec (n + 1) (mixF (memM (n + 1) m) (n + 1) g) ++ [q],
            memStore m 0 ((upTo E n i).length
              + (roundData E (n + 1) N_ROUNDS_F (nRoundsPOf (n + 1)) i).length + 1)⟩ := by
  obtain ⟨post, hsplit⟩ := instrs_round E n i hi
  rw [round_eq] at hsplit
  have hdest := isDest_strLabel E n i hi
  generalize hRD : roundData E (n + 1) N_ROUNDS_F (nRoundsPOf (n + 1)) i = RD at hsplit hdest
  generalize ha : (upTo E n i).length + RD.length + 1 = a at hdest
  have hpc : (instrs E n)[(upTo E n i).length + RD.length]? = some (jmp (some "mix")) :=
    getElem?_at _ (upTo E n i ++ RD) (label (strLabel i) :: post) _
      ((upTo E n i).length + RD.length) (by rw [hsplit]; simp) (by simp)
  have s2 := step_jmp_label (instrs E n) cd
    ⟨(upTo E n i).length + RD.length, vec (n + 1) g ++ [q], memStore m 0 a⟩
    "mix" _ hpc (labelAddr_mix E n) (isDest_mix E n)
  have hmb := mixData_block (instrs E n) cd (n + 1) (by omega) (by omega) g [] (memStore m 0 a)
  have hlenA : (upTo E n (N_ROUNDS_F + nRoundsPOf (n + 1)) ++ finish).length
      = (upTo E n (N_ROUNDS_F + nRoundsPOf (n + 1))).length + finish.length := by
    simp
  refine ⟨hpc, ?_, ?_⟩
  · intro j hj
    have hsp : mixData (n + 1) = (mixData (n + 1)).take j ++ (mixData (n + 1)).drop j :=
      (List.take_append_drop j _).symm
    rw [hsp] at hmb
    obtain ⟨⟨st1, m1⟩, hr1⟩ := execBlock_prefix_ok _ _ _ _ _ _ _ hmb
    have hm1 : m1 = memStore m 0 a :=
      execBlock_mem_unchanged _ _ _
        (fun hm => mstore_not_mem_mixData (n + 1) (List.mem_of_mem_take hm)) _ _ _ _ hr1
    subst hm1
    have s3 := stepN_block (instrs E n) cd ((mixData (n + 1)).take j)
      (upTo E n (N_ROUNDS_F + nRoundsPOf (n + 1)) ++ finish)
      ((mixData (n + 1)).drop j ++ [jmp none]) _ _ _ _
      (by
        have e : (mixData (n + 1)).take j ++ ((mixData (n + 1)).drop j ++ [jmp none])
            = mixData (n + 1) ++ [jmp none] := by
          rw [← List.append_assoc, List.take_append_drop]
        rw [instrs_eq, mix_eq, List.append_assoc _ ((mixData (n + 1)).take j), e]) hr1
    have hl : ((mixData (n + 1)).take j).length = j := by
      rw [List.length_take]; omega
    rw [hl, hlenA] at s3
    exact ⟨st1, stepN_add _ _ 1 j _ _ _ (stepN_one _ _ _ _ s2) s3⟩
  · have s3 := stepN_block (instrs E n) cd (mixData (n + 1))
      (upTo E n (N_ROUNDS_F + nRoundsPOf (n + 1)) ++ finish) [jmp none] _ _ _ _
      (by rw [instrs_eq, mix_eq]; simp) hmb
    have s4 := step_jmp_top (instrs E n) cd
      ((upTo E n (N_ROUNDS_F + nRoundsPOf (n + 1)) ++ finish).length + (mixData (n + 1)).length)
      a (vec (n + 1) (mixF (memM (n + 1) (memStore m 0 a)) (n + 1) g) ++ [q]) (memStore m 0 a)
      (getElem?_at _ (upTo E n (N_ROUNDS_F + nRoundsPOf (n + 1)) ++ finish ++ mixData (n + 1)) []
        _ _ (by rw [instrs_eq, mix_eq]; simp) (by simp [Nat.add_assoc])) hdest
    have hs2 : memStore m 0 a 0 = a := by simp [memStore]
    rw [hs2] at s3
    rw [hlenA] at s3 s4
    have r := stepN_add _ _ _ _ _ _ _
      (stepN_add _ _ _ _ _ _ _ (stepN_one _ _ _ _ s2) s3) (stepN_one _ _ _ _ s4)
    rw [memM_memStore_zero] at r
    exact r

/-! ### Depth operands -/

theorem sigmaPositions_lt (t nF nP i p : Nat) (ht : 1 ≤ t)
    (hp : p ∈ sigmaPositions t nF nP i) : p < t := by
  unfold sigmaPositions at hp
  split at hp
  · exact List.mem_range.mp hp
  · simp at hp; omega

theorem dup_mem_mixCell (t i j d : Nat) (hi : i < t) (hj : j < t) (h : dup d ∈ mixCell t i j) :
    d ≤ 2 * t + 1 := by
  unfold mixCell at h
  split at h
  · simp at h; omega
  · simp at h; omega

theorem swap_mem_mixCell (t i j s : Nat) (h : swap s ∈ mixCell t i j) : s = 2 := by
  unfold mixCell at h
  split at h
  · simp at h
  · simpa using h

/-- Every duplicate operand of the stream is at most `2 t + 1 = 2 n + 3`. -/
theorem dup_operand_le (E : Ext) (n d : Nat) (h : dup d ∈ instrs E n) : d ≤ 2 * n + 3 := by
  simp only [instrs, checkSelector, saveM, loadState, rounds, round, ark, sigma, callMix, finish,
    mix, mixRows, mixDrop, List.mem_append, List.mem_flatMap, List.mem_range] at h
  rcases h with (((((h | h) | h) | h) | h) | h) | h
  · simp at h; omega
  · simp at h
  · obtain ⟨i, _, j, _, h⟩ := h
    simp at h
  · rcases h with (h | ⟨i, _, h⟩) | h <;> simp at h
  · obtain ⟨r, _, h⟩ := h
    rcases h with (⟨i, hi, h⟩ | ⟨p, hp, h⟩) | h
    · simp at h; omega
    · have := sigmaPositions_lt _ _ _ _ _ (by omega) hp
      simp at h; omega
    · simp at h
  · simp at h
  · rcases h with ((h | ⟨i, hi, j, hj, h⟩) | ⟨i, _, h⟩) | h
    · simp at h
    · have := dup_mem_mixCell (n + 1) i j d hi hj h
      omega
    · simp at h
    · simp at h

/-- Every swap operand of the stream lies between 1 and `2 t - 1 = 2 n + 1`. -/
theorem swap_operand_range (E : Ext) (n s : Nat) (hn : 1 ≤ n) (h : swap s ∈ instrs E n) :
    1 ≤ s ∧ s ≤ 2 * n + 1 := by
  simp only [instrs, checkSelector, saveM, loadState, rounds, round, ark, sigma, callMix, finish,
    mix, mixRows, mixDrop, List.mem_append, List.mem_flatMap, List.mem_range] at h
  rcases h with (((((h | h) | h) | h) | h) | h) | h
  · simp at h; omega
  · simp at h
  · obtain ⟨i, _, j, _, h⟩ := h
    simp at h
  · rcases h with (h | ⟨i, _, h⟩) | h <;> simp at h
  · obtain ⟨r, _, h⟩ := h
    rcases h with (⟨i, hi, h⟩ | ⟨p, hp, h⟩) | h
    · simp at h; omega
    · have := sigmaPositions_lt _ _ _ _ _ (by omega) hp
      simp at h; omega
    · simp at h
  · simp at h
  · rcases h with ((h | ⟨i, hi, j, hj, h⟩) | ⟨i, hi, h⟩) | h
    · simp at h
    · have := swap_mem_mixCell (n + 1) i j s h
      omega
    · simp at h; omega
    · simp at h

/-- The largest duplicate operand `2 t + 1` occurs in `mix` (row `t - 1`, column 1). -/
theorem dup_max_mem (E : Ext) (n : Nat) (hn : 1 ≤ n) : dup (2 * n + 3) ∈ instrs E n := by
  have h : dup (2 * n + 3) ∈ mixCell (n + 1) n 1 := by
    have e : 2 * n + 3 = 2 + n + (n + 1) := by omega
    simp [mixCell, e]
  simp only [instrs, mix, mixRows, List.mem_append, List.mem_flatMap, List.mem_range]
  exact Or.inr (Or.inl (Or.inl (Or.inr ⟨n, by omega, 1, by omega, h⟩)))

/-- The largest swap operand `2 t - 1` occurs in the second loop of `mix`. -/
theorem swap_max_mem (E : Ext) (n : Nat) : swap (2 * n + 1) ∈ instrs E n := by
  have h : swap (2 * n + 1) ∈ [swap ((n + 1 - 0) + (n + 1 - 0 - 1)), pop] := by
    have e : (n + 1 - 0) + (n + 1 - 0 - 1) = 2 * n + 1 := by omega
    rw [e]
    exact List.mem_cons_self _ _
  simp only [instrs, mix, mixDrop, List.mem_append, List.mem_flatMap, List.mem_range]
  exact Or.inr (Or.inl (Or.inr ⟨0, by omega, h⟩))

/-! ### Operands outside the range of the machine -/

theorem step_badOperand (code : List Instr) (cd : List Nat) (s : State) (op : Instr)
    (hpc : code[s.pc]? = some op) (hop : execOp code cd op s.stack s.mem = .error .badOperand) :
    step code cd s = .error .badOperand := by
  unfold step
  rw [hpc]
  cases op <;> simp_all [execOp]

theorem run_of_step_error (code : List Instr) (cd : List Nat) (k : Nat) (s0 s : State) (e : Halt)
    (hk : stepN code cd k s0 = .ok s) (he : step code cd s = .error e) (f : Nat) :
    run code cd (k + (1 + f)) s0 = some e := by
  rw [run_of_stepN code cd k (1 + f) s0 s hk, Nat.add_comm 1 f]
  simp [run, he]

theorem stepN_error_of_step (code : List Instr) (cd : List Nat) (e : Halt) :
    ∀ (k : Nat) (s0 s : State), stepN code cd k s0 = .ok s → step code cd s = .error e →
      ∀ f, stepN code cd (k + (1 + f)) s0 = .error e := by
  intro k
  induction k with
  | zero =>
    intro s0 s hk he f
    simp only [stepN] at hk
    cases hk
    rw [Nat.zero_add, Nat.add_comm 1 f]
    simp [stepN, he]
  | succ k ih =>
    intro s0 s hk he f
    have e1 : k + 1 + (1 + f) = (k + (1 + f)) + 1 := by omega
    rw [e1]
    simp only [stepN] at hk ⊢
    cases hs : step code cd s0 with
    | error e2 => rw [hs] at hk; cases hk
    | ok s1 =>
      rw [hs] at hk
      exact ih s1 s hk he f

theorem stepN_add_eq (code : List Instr) (cd : List Nat) :
    ∀ (a b : Nat) (s s1 : State), stepN code cd a s = .ok s1 →
      stepN code cd (a + b) s = stepN code cd b s1 := by
  intro a
  induction a with
  | zero =>
    intro b s s1 h1
    simp only [stepN] at h1
    cases h1
    simp
  | succ a ih =>
    intro b s s1 h1
    rw [Nat.add_right_comm]
    simp only [stepN] at h1 ⊢
    cases hs : step code cd s with
    | error h => rw [hs] at h1; cases h1
    | ok s' =>
      rw [hs] at h1
      exact ih b s' s1 h1

/-- Every intermediate state of a straight-line block that executes without
error is the next position of the stream. -/
theorem stepN_block_trace (code : List Instr) (cd : List Nat)
    (blk pre post : List Instr) (st : List Nat) (m : Nat → Nat) (r : List Nat × (Nat → Nat))
    (hc : code = pre ++ blk ++ post) (h : execBlock code cd blk st m = .ok r) :
    ∀ i, i ≤ blk.length →
      ∃ s1, stepN code cd i ⟨pre.length, st, m⟩ = .ok s1 ∧ s1.pc = pre.length + i := by
  intro i hi
  have hsp : blk = blk.take i ++ blk.drop i := (List.take_append_drop i _).symm
  rw [hsp] at h
  obtain ⟨⟨st1, m1⟩, hr1⟩ := execBlock_prefix_ok _ _ _ _ _ _ _ h
  have s3 := stepN_block code cd (blk.take i) pre (blk.drop i ++ post) st m st1 m1
    (by
      rw [hc]
      conv_lhs => rw [hsp]
      simp only [List.append_assoc]) hr1
  have hl : (blk.take i).length = i := by
    rw [List.length_take]; omega
  rw [hl] at s3
  exact ⟨_, s3, rfl⟩

/-- Traces compose: a property of the position that holds along `a` steps and
along `b` further steps holds along `a + b` steps. -/
theorem trace_append (code : List Instr) (cd : List Nat) (P : Nat → Prop) (s0 s1 : State)
    (a b : Nat) (h1 : ∀ k, k ≤ a → ∃ s, stepN code cd k s0 = .ok s ∧ P s.pc)
    (ha : stepN code cd a s0 = .ok s1)
    (h2 : ∀ k, k ≤ b → ∃ s, stepN code cd k s1 = .ok s ∧ P s.pc) :
    ∀ k, k ≤ a + b → ∃ s, stepN code cd k s0 = .ok s ∧ P s.pc := by
  intro k hk
  by_cases hka : k ≤ a
  · exact h1 k hka
  · have e : k = a + (k - a) := by omega
    rw [e, stepN_add_eq code cd a (k - a) s0 s1 ha]
    exact h2 (k - a) (by omega)

/-- A run that stops with an error after `K` steps visits only the positions of
its first `K + 1` states. -/
theorem trace_all (code : List Instr) (cd : List Nat) (P : Nat → Prop) (s0 sK : State)
    (K : Nat) (e : Halt) (h1 : ∀ k, k ≤ K → ∃ s, stepN code cd k s0 = .ok s ∧ P s.pc)
    (hK : stepN code cd K s0 = .ok sK) (he : step code cd sK = .error e) :
    ∀ k s, stepN code cd k s0 = .ok s → P s.pc := by
  intro k s hs
  by_cases hk : k ≤ K
  · obtain ⟨s', h', hp⟩ := h1 k hk
    rw [hs] at h'
    cases h'
    exact hp
  · have e1 : k = K + (1 + (k - K - 1)) := by omega
    rw [e1, stepN_error_of_step code cd e K s0 sK hK he] at hs
    cases hs

theorem upTo_length_mono (E : Ext) (n i j : Nat) (h : i ≤ j) :
    (upTo E n i).length ≤ (upTo E n j).length := by
  obtain ⟨post, hp⟩ := upTo_extend E n i (j - i)
  have e : i + (j - i) = j := by omega
  rw [e] at hp
  rw [hp, List.length_append]
  omega

theorem upTo_one_length (E : Ext) (n : Nat) :
    (upTo E n 1).length
      = (upTo E n 0).length + (roundData E (n + 1) N_ROUNDS_F (nRoundsPOf (n + 1)) 0).length + 2 := by
  rw [upTo_succ, round_eq]
  simp [Nat.add_assoc]

set_option maxRecDepth 1000000 in
theorem mixData_until_dup16 (code : List Instr) (cd : List Nat) (t : Nat) (h8 : 8 ≤ t) (h9 : t ≤ 9)
    (f : Nat → Nat) (rest : List Nat) (m : Nat → Nat) :
    ∃ r, execBlock code cd ((mixData t).take (if t = 8 then 377 else 356)) (vec t f ++ q :: rest) m
          = .ok r
      ∧ (mixData t)[if t = 8 then 377 else 356]? = some (dup 16) := by
  interval_cases t
  · exact ⟨_, rfl, rfl⟩
  · exact ⟨_, rfl, rfl⟩

theorem length_flatMap_range (f : Nat → List Instr) (k : Nat) :
    ((List.range k).flatMap f).length = ((List.range k).map fun i => (f i).length).sum := by
  induction k with
  | zero => simp
  | succ k ih => simp [List.range_succ, List.flatMap_append, ih]

theorem saveM_length (E : Ext) (t : Nat) : (saveM E t).length = 3 * (t * t) := by
  unfold saveM
  rw [length_flatMap_range]
  have h : ∀ i, ((List.range t).flatMap fun j =>
      [push (.hex (toHex256 (E.M (t - 2) i j))), push (.num ((1 + i * t + j) * 32)),
        mstore]).length = 3 * t := by
    intro i
    rw [length_flatMap_range]
    simp
    ring
  simp only [h]
  simp
  ring

theorem loadState_length (n : Nat) : (loadState n).length = 2 * n + 3 := by
  unfold loadState
  simp only [List.length_append, length_flatMap_range]
  simp
  ring

theorem ark_length (E : Ext) (t r : Nat) : (ark E t r).length = 6 * t := by
  unfold ark
  rw [length_flatMap_range]
  simp
  ring

theorem round_length (E : Ext) (t nF nP i : Nat) :
    (round E t nF nP i).length = 6 * t + 12 * (sigmaPositions t nF nP i).length + 5 := by
  unfold round
  simp only [List.length_append, ark_length, callMix]
  have h : ∀ l : List Nat, (l.flatMap (sigma t)).length = 12 * l.length := by
    intro l
    induction l with
    | nil => rfl
    | cons a l ih =>
      simp only [List.flatMap_cons, List.length_append, ih, List.length_cons]
      have : (sigma t a).length = 12 := rfl
      omega
  rw [h]
  rfl

theorem upTo_length (E : Ext) (n i : Nat) :
    (upTo E n i).length
      = 14 + 3 * ((n + 1) * (n + 1)) + (2 * n + 3)
        + ((List.range i).map fun r =>
            6 * (n + 1) + 12 * (sigmaPositions (n + 1) N_ROUNDS_F (nRoundsPOf (n + 1)) r).length
              + 5).sum := by
  unfold upTo
  rw [List.length_append, header_length, List.length_append, saveM_length, loadState_length,
    length_flatMap_range]
  simp only [round_length]
  omega

theorem mixStart_7 (E : Ext) :
    (upTo E 7 (N_ROUNDS_F + nRoundsPOf (7 + 1))).length + finish.length = 5580 := by
  rw [upTo_length]
  decide

theorem mixStart_8 (E : Ext) :
    (upTo E 8 (N_ROUNDS_F + nRoundsPOf (8 + 1))).length + finish.length = 6090 := by
  rw [upTo_length]
  decide

set_option maxRecDepth 100000 in
theorem failAt_lt (n : Nat) (hn7 : 7 ≤ n) (hn8 : n ≤ 8) :
    (if n + 1 = 8 then 377 else 356) < (mixData (n + 1)).length := by
  interval_cases n <;> decide

set_option maxRecDepth 100000 in
/-- The position of the stream at which `mix` holds its first operand outside
the range of the machine, for the arities 7 and 8: the call `dup(2+i+t)` of
row 6, column 1 (arity 7) and of row 5, column 1 (arity 8). -/
theorem instrs_failAt (E : Ext) (n : Nat) (hn7 : 7 ≤ n) (hn8 : n ≤ 8) :
    (instrs E n)[(upTo E n (N_ROUNDS_F + nRoundsPOf (n + 1))).length + finish.length
        + (if n + 1 = 8 then 377 else 356)]? = some (dup 16) := by
  have hlt := failAt_lt n hn7 hn8
  have hop : (mixData (n + 1))[if n + 1 = 8 then 377 else 356]? = some (dup 16) := by
    interval_cases n <;> rfl
  have hpre : (upTo E n (N_ROUNDS_F + nRoundsPOf (n + 1)) ++ finish).length
      = (upTo E n (N_ROUNDS_F + nRoundsPOf (n + 1))).length + finish.length :=
    List.length_append _ _
  rw [instrs_eq, mix_eq, ← hpre, List.getElem?_append_right (Nat.le_add_right _ _),
    Nat.add_sub_cancel_left, List.getElem?_append_left hlt]
  exact hop

/-- From the start of round `i`, for the arities 7 and 8: the data operations of
the round and the jump to `mix` succeed, and inside `mix` execution stops at the
call `dup(16)`, an operand outside the range of the machine. -/
theorem round_fail (E : Ext) (n : Nat) (cd : List Nat) (hn7 : 7 ≤ n) (hn8 : n ≤ 8) (i : Nat)
    (hi : i < N_ROUNDS_F + nRoundsPOf (n + 1)) (f : Nat → Nat) (m : Nat → Nat) :
    ∃ s, stepN (instrs E n) cd
          ((roundData E (n + 1) N_ROUNDS_F (nRoundsPOf (n + 1)) i).length + 1
            + (if n + 1 = 8 then 377 else 356))
          ⟨(upTo E n i).length, vec (n + 1) f ++ [q], m⟩ = .ok s
      ∧ s.pc = (upTo E n (N_ROUNDS_F + nRoundsPOf (n + 1))).length + finish.length
          + (if n + 1 = 8 then 377 else 356)
      ∧ (instrs E n)[s.pc]? = some (dup 16)
      ∧ step (instrs E n) cd s = .error .badOperand
      ∧ (∀ k, k ≤ (roundData E (n + 1) N_ROUNDS_F (nRoundsPOf (n + 1)) i).length + 1
            + (if n + 1 = 8 then 377 else 356) → ∃ s1,
          stepN (instrs E n) cd k ⟨(upTo E n i).length, vec (n + 1) f ++ [q], m⟩ = .ok s1
          ∧ (s1.pc ≤ (upTo E n i).length
                + (roundData E (n + 1) N_ROUNDS_F (nRoundsPOf (n + 1)) i).length
              ∨ (upTo E n (N_ROUNDS_F + nRoundsPOf (n + 1))).length + finish.length ≤ s1.pc)) := by
  obtain ⟨post, hsplit⟩ := instrs_round E n i hi
  rw [round_eq] at hsplit
  have hlt := failAt_lt n hn7 hn8
  have hat := instrs_failAt E n hn7 hn8
  generalize hJ : (if n + 1 = 8 then 377 else 356) = J at hlt hat ⊢
  generalize hRD : roundData E (n + 1) N_ROUNDS_F (nRoundsPOf (n + 1)) i = RD at hsplit
  have hblk := roundData_block E n cd (by omega) hn8 i hi f m
  rw [hRD] at hblk
  generalize hg : sboxF (isFullRound N_ROUNDS_F (nRoundsPOf (n + 1)) i) (arkF E (n + 1) i f) = g
    at hblk
  generalize ha : (upTo E n i).length + RD.length + 1 = a at hblk
  have hcode1 : instrs E n
      = upTo E n i ++ RD ++ ([jmp (some "mix"), label (strLabel i)] ++ post) := by
    rw [hsplit]; simp
  -- 1. the data operations of the round
  have s1 := stepN_block (instrs E n) cd RD (upTo E n i)
    ([jmp (some "mix"), label (strLabel i)] ++ post) _ _ _ _ hcode1 hblk
  have t1 := stepN_block_trace (instrs E n) cd RD (upTo E n i)
    ([jmp (some "mix"), label (strLabel i)] ++ post) _ _ _ hcode1 hblk
  -- 2. the jump to mix
  have s2 := step_jmp_label (instrs E n) cd
    ⟨(upTo E n i).length + RD.length, vec (n + 1) g ++ [q], memStore m 0 a⟩
    "mix" _
    (getElem?_at _ (upTo E n i ++ RD) (label (strLabel i) :: post) _
      ((upTo E n i).length + RD.length) (by rw [hsplit]; simp) (by simp))
    (labelAddr_mix E n) (isDest_mix E n)
  -- 3. the operations of mix before the first operand out of range
  obtain ⟨⟨st3, m3⟩, hmb, _⟩ := mixData_until_dup16 (instrs E n) cd (n + 1) (by omega) (by omega)
    g [] (memStore m 0 a)
  rw [hJ] at hmb
  have hcode3 : instrs E n = (upTo E n (N_ROUNDS_F + nRoundsPOf (n + 1)) ++ finish)
      ++ (mixData (n + 1)).take J ++ ((mixData (n + 1)).drop J ++ [jmp none]) := by
    rw [instrs_eq, mix_eq]
    conv_lhs => rw [← List.take_append_drop J (mixData (n + 1))]
    simp only [List.append_assoc]
  have hl : ((mixData (n + 1)).take J).length = J := by
    rw [List.length_take]; omega
  have s3 := stepN_block (instrs E n) cd ((mixData (n + 1)).take J)
    (upTo E n (N_ROUNDS_F + nRoundsPOf (n + 1)) ++ finish)
    ((mixData (n + 1)).drop J ++ [jmp none]) _ _ _ _ hcode3 hmb
  have t3 := stepN_block_trace (instrs E n) cd ((mixData (n + 1)).take J)
    (upTo E n (N_ROUNDS_F + nRoundsPOf (n + 1)) ++ finish)
    ((mixData (n + 1)).drop J ++ [jmp none]) _ _ _ hcode3 hmb
  have hlenA : (upTo E n (N_ROUNDS_F + nRoundsPOf (n + 1)) ++ finish).length
      = (upTo E n (N_ROUNDS_F + nRoundsPOf (n + 1))).length + finish.length := by
    simp
  rw [hl, hlenA] at s3 t3
  have s12 := stepN_add _ _ _ _ _ _ _ s1 (stepN_one _ _ _ _ s2)
  -- 4. the call dup(16)
  have s4 : step (instrs E n) cd
      ⟨(upTo E n (N_ROUNDS_F + nRoundsPOf (n + 1))).length + finish.length + J, st3, m3⟩
      = .error .badOperand :=
    step_badOperand (instrs E n) cd _ (dup 16) hat (by simp [execOp])
  refine ⟨_, stepN_add _ _ _ _ _ _ _ s12 s3, rfl, hat, s4, ?_⟩
  refine trace_append (instrs E n) cd
    (fun pc => pc ≤ (upTo E n i).length + RD.length
      ∨ (upTo E n (N_ROUNDS_F + nRoundsPOf (n + 1))).length + finish.length ≤ pc)
    _ _ (RD.length + 1) J ?_ s12 ?_
  · refine trace_append (instrs E n) cd
      (fun pc => pc ≤ (upTo E n i).length + RD.length
        ∨ (upTo E n (N_ROUNDS_F + nRoundsPOf (n + 1))).length + finish.length ≤ pc)
      _ _ RD.length 1 ?_ s1 ?_
    · intro k hk
      obtain ⟨s', h', hp⟩ := t1 k hk
      exact ⟨s', h', Or.inl (by omega)⟩
    · intro k hk
      cases k with
      | zero => exact ⟨_, rfl, Or.inl (Nat.le_refl _)⟩
      | succ k =>
        have : k = 0 := by omega
        subst this
        exact ⟨_, stepN_one _ _ _ _ s2, Or.inr (Nat.le_refl _)⟩
  · intro k hk
    obtain ⟨s', h', hp⟩ := t3 k hk
    exact ⟨s', h', Or.inr (by omega)⟩

/-- Entry up to the first round, step by step: every position visited lies in
the part of the stream before the first round. -/
theorem header_trace (E : Ext) (n : Nat) (cd : List Nat) (h : Accepted E n cd)
    (hn1 : 1 ≤ n) (hn8 : n ≤ 8) :
    ∀ k, k ≤ 13 + (saveM E (n + 1) ++ loadState n).length →
      ∃ s, stepN (instrs E n) cd k initState = .ok s ∧ s.pc ≤ (upTo E n 0).length := by
  obtain ⟨post, hc⟩ := instrs_start E n
  have hlen : (upTo E n 0).length = 14 + (saveM E (n + 1) ++ loadState n).length := by
    rw [upTo_zero, header_length]
  have t1 := stepN_block_trace (instrs E n) cd (dispatchData E n) []
    (jmpi (some "start") :: invalid :: label "start" :: (saveM E (n + 1) ++ loadState n ++ post))
    [] (fun _ => 0) _ (by rw [hc]; simp) (dispatch_block (instrs E n) E n cd _)
  have s12 := dispatch_jump E n cd h
  have s13 := dispatch_accept E n cd h
  have t4 := stepN_block_trace (instrs E n) cd (saveM E (n + 1) ++ loadState n)
    (dispatchData E n ++ [jmpi (some "start"), invalid, label "start"]) post [] (fun _ => 0) _
    (by rw [hc]; simp) (setup_block (instrs E n) E n cd hn1 hn8 _)
  refine trace_append (instrs E n) cd (fun pc => pc ≤ (upTo E n 0).length) _ _ 13 _ ?_ s13 ?_
  · intro k hk
    by_cases hk11 : k ≤ 11
    · obtain ⟨s', h', hp⟩ := t1 k (by rw [dispatchData_length]; exact hk11)
      refine ⟨s', h', ?_⟩
      simp only [List.length_nil] at hp
      show s'.pc ≤ _
      omega
    · by_cases hk12 : k = 12
      · subst hk12
        exact ⟨_, s12, by show 13 ≤ _; omega⟩
      · have : k = 13 := by omega
        subst this
        exact ⟨_, s13, by show 14 ≤ _; omega⟩
  · intro k hk
    obtain ⟨s', h', hp⟩ := t4 k hk
    refine ⟨s', h', ?_⟩
    have h14 : (dispatchData E n ++ [jmpi (some "start"), invalid, label "start"]).length = 14 := by
      simp [dispatchData_length]
    rw [h14] at hp
    show s'.pc ≤ _
    omega

/-- The whole run for the arities 7 and 8 on an accepted selector: inside the
first call of `mix` execution stops at the call `dup(16)`; every position
visited before lies in the set-up, in the data operations of round 0, or in
`mix`. -/
theorem exec_fail (E : Ext) (n : Nat) (cd : List Nat) (hn7 : 7 ≤ n) (hn8 : n ≤ 8)
    (h : Accepted E n cd) :
    ∃ K s, stepN (instrs E n) cd K initState = .ok s
      ∧ s.pc = (upTo E n (N_ROUNDS_F + nRoundsPOf (n + 1))).length + finish.length
          + (if n + 1 = 8 then 377 else 356)
      ∧ (instrs E n)[s.pc]? = some (dup 16)
      ∧ step (instrs E n) cd s = .error .badOperand
      ∧ (∀ k, k ≤ K → ∃ s1, stepN (instrs E n) cd k initState = .ok s1
          ∧ (s1.pc ≤ (upTo E n 0).length
                + (roundData E (n + 1) N_ROUNDS_F (nRoundsPOf (n + 1)) 0).length
              ∨ (upTo E n (N_ROUNDS_F + nRoundsPOf (n + 1))).length + finish.length ≤ s1.pc)) := by
  obtain ⟨k1, h1⟩ := header_exec E n cd (by omega) hn8 h
  have t1 := header_trace E n cd h (by omega) hn8
  have hk1 : stepN (instrs E n) cd (13 + (saveM E (n + 1) ++ loadState n).length) initState
      = .ok ⟨(upTo E n 0).length, vec (n + 1) (initF cd) ++ [q],
             saveMMem E (n + 1) (fun _ => 0)⟩ := by
    obtain ⟨post, hc⟩ := instrs_start E n
    have s1 := dispatch_accept E n cd h
    have s2 := stepN_block (instrs E n) cd (saveM E (n + 1) ++ loadState n)
      (dispatchData E n ++ [jmpi (some "start"), invalid, label "start"]) post [] (fun _ => 0) _ _
      (by rw [hc]; simp) (setup_block (instrs E n) E n cd (by omega) hn8 _)
    rw [upTo_zero, header_length]
    exact stepN_add _ _ _ _ _ _ _ s1 s2
  have hR : 0 < N_ROUNDS_F + nRoundsPOf (n + 1) := by
    have : N_ROUNDS_F = 8 := rfl
    omega
  obtain ⟨s, hs, hpc, hop, hf, htr⟩ := round_fail E n cd hn7 hn8 0 hR (initF cd)
    (saveMMem E (n + 1) (fun _ => 0))
  refine ⟨_, s, stepN_add _ _ _ _ _ _ _ hk1 hs, hpc, hop, hf, ?_⟩
  refine trace_append (instrs E n) cd
    (fun pc => pc ≤ (upTo E n 0).length
        + (roundData E (n + 1) N_ROUNDS_F (nRoundsPOf (n + 1)) 0).length
      ∨ (upTo E n (N_ROUNDS_F + nRoundsPOf (n + 1))).length + finish.length ≤ pc)
    _ _ _ _ ?_ hk1 htr
  intro k hk
  obtain ⟨s', h', hp⟩ := t1 k hk
  exact ⟨s', h', Or.inl (by omega)⟩

/-- For the arities 7 and 8 every run with enough fuel stops with `badOperand`. -/
theorem exec_fail_run (E : Ext) (n : Nat) (cd : List Nat) (hn7 : 7 ≤ n) (hn8 : n ≤ 8)
    (h : Accepted E n cd) :
    ∃ fuel, ∀ k, run (createCode E (n : Int)).calls cd (fuel + k) initState
      = some .badOperand := by
  obtain ⟨K, s, hs, _, _, hf, _⟩ := exec_fail E n cd hn7 hn8 h
  rw [createCode_calls E n (by omega) hn8]
  refine ⟨K + 1, fun k => ?_⟩
  rw [Nat.add_assoc]
  exact run_of_step_error _ _ K _ s _ hs hf k

/-- For the arities 7 and 8 no amount of fuel makes the program return data. -/
theorem exec_fail_no_return (E : Ext) (n : Nat) (cd : List Nat) (hn7 : 7 ≤ n) (hn8 : n ≤ 8)
    (h : Accepted E n cd) (f : Nat) (out : List Nat) :
    run (createCode E (n : Int)).calls cd f initState ≠ some (.returned out) := by
  obtain ⟨fuel, hf⟩ := exec_fail_run E n cd hn7 hn8 h
  intro hr
  have h1 := run_mono _ _ f fuel _ _ hr
  rw [Nat.add_comm, hf f] at h1
  cases h1

/-- For the arities 7 and 8 the position after the resumption label of a round
is never reached. -/
theorem exec_fail_unreached (E : Ext) (n : Nat) (cd : List Nat) (hn7 : 7 ≤ n) (hn8 : n ≤ 8)
    (h : Accepted E n cd) (i : Nat) (hi1 : 1 ≤ i) (hi : i ≤ N_ROUNDS_F + nRoundsPOf (n + 1))
    (k : Nat) (s : State)
    (hs : stepN (createCode E (n : Int)).calls cd k initState = .ok s) :
    s.pc ≠ (upTo E n i).length := by
  rw [createCode_calls E n (by omega) hn8] at hs
  obtain ⟨K, sK, hK, _, _, hf, htr⟩ := exec_fail E n cd hn7 hn8 h
  have hp := trace_all (instrs E n) cd
    (fun pc => pc ≤ (upTo E n 0).length
        + (roundData E (n + 1) N_ROUNDS_F (nRoundsPOf (n + 1)) 0).length
      ∨ (upTo E n (N_ROUNDS_F + nRoundsPOf (n + 1))).length + finish.length ≤ pc)
    initState sK K _ htr hK hf k s hs
  have h1 := upTo_length_mono E n 1 i hi1
  have h2 := upTo_length_mono E n i _ hi
  rw [upTo_one_length] at h1
  have hfin : finish.length = 5 := rfl
  rcases hp with hp | hp <;> omega

/-! ### Generation: which calls the machine can represent -/

theorem assemble_error (E : Ext) (code : List Instr) (op : Instr) (hm : op ∈ code)
    (hr : op.representable = false) : assemble E code = .error "Assertion failed" := by
  unfold assemble
  rw [if_neg]
  intro h
  have := List.all_eq_true.mp h op hm
  rw [hr] at this
  cases this

theorem assemble_ok (E : Ext) (code : List Instr) (h : ∀ op ∈ code, op.representable = true) :
    assemble E code = .ok (createTxData E code) := by
  unfold assemble
  rw [if_pos (List.all_eq_true.mpr h)]

theorem createCode_result (E : Ext) (n : Nat) (hn1 : 1 ≤ n) (hn8 : n ≤ 8) :
    (createCode E (n : Int)).result = assemble E (instrs E n) := by
  have h : ¬ ((n : Int) < 1 ∨ (n : Int) > 8) := by omega
  unfold createCode
  rw [if_neg h]
  simp

theorem toDigitsCore_length_ge (b : Nat) : ∀ (fuel n : Nat) (ds : List Char),
    ds.length ≤ (Nat.toDigitsCore b fuel n ds).length := by
  intro fuel
  induction fuel with
  | zero => intro n ds; simp [Nat.toDigitsCore]
  | succ fuel ih =>
    intro n ds
    simp only [Nat.toDigitsCore]
    split
    · simp
    · exact Nat.le_trans (by simp) (ih _ _)

theorem toDigits_length_pos (a : Nat) : 1 ≤ (Nat.toDigits 16 a).length := by
  unfold Nat.toDigits
  simp only [Nat.toDigitsCore]
  split
  · simp
  · exact Nat.le_trans (by simp) (toDigitsCore_length_ge 16 _ _ _)

theorem evenPad_length (ds : List Char) :
    ((evenPad ds).length + 1) / 2 = (ds.length + 1) / 2 := by
  unfold evenPad
  split
  · simp only [List.length_cons]; omega
  · rfl

/-- A number below `2^256` is pushed with a payload of 1 to 32 bytes. -/
theorem num_representable (v : Nat) (hv : v < 2 ^ 256) :
    (push (.num v)).representable = true := by
  have h1 := toDigits_length_pos v
  have h2 := toDigits_length_le v hv
  simp only [Instr.representable, Lit.bytes, pairBytes_length, evenPad_length, decide_eq_true_eq]
  omega

/-- A constant below `2^256` written by `toHex256` is pushed with 32 bytes. -/
theorem toHex256_representable (a : Nat) (ha : a < 2 ^ 256) :
    (push (.hex (toHex256 a))).representable = true := by
  simp only [Instr.representable, toHex256_bytes_length a ha, decide_eq_true_eq]
  omega

theorem small_lt_word (v : Nat) (h : v < 65536) : v < 2 ^ 256 :=
  Nat.lt_trans h (by norm_num)

/-- Every call of `createCode(n)` names an operation of the machine when
`n ≤ 6` and the external data fit. -/
theorem instrs_representable (E : Ext) (n : Nat) (hn1 : 1 ≤ n) (hn6 : n ≤ 6) (hE : E.fits n) :
    ∀ op ∈ instrs E n, op.representable = true := by
  obtain ⟨hM, hK, hU, hB⟩ := hE
  intro op h
  cases op with
  | dup d =>
    have := dup_operand_le E n d h
    simp only [Instr.representable, Instr.depthOk, decide_eq_true_eq]
    omega
  | swap s =>
    have := swap_operand_range E n s hn1 h
    simp only [Instr.representable, Instr.depthOk, decide_eq_true_eq]
    omega
  | push x =>
    simp only [instrs, checkSelector, saveM, loadState, rounds, round, ark, sigma, callMix, finish,
      mix, mixRows, mixDrop, List.mem_append, List.mem_flatMap, List.mem_range] at h
    rcases h with (((((h | h) | h) | h) | h) | h) | h
    · simp only [List.mem_cons, Instr.push.injEq, List.mem_singleton, reduceCtorEq, false_or,
        or_false, List.not_mem_nil] at h
      rcases h with rfl | rfl | rfl | rfl
      · decide
      · decide
      · simp only [Instr.representable, hU, decide_eq_true_eq]; omega
      · simp only [Instr.representable, hB, decide_eq_true_eq]; omega
    · simp at h
    · obtain ⟨i, hi, j, hj, h⟩ := h
      simp only [List.mem_cons, Instr.push.injEq, List.mem_singleton, reduceCtorEq, false_or,
        or_false, List.not_mem_nil] at h
      rcases h with rfl | rfl
      · exact toHex256_representable _ (hM i hi j hj)
      · apply num_representable
        apply small_lt_word
        have : i * (n + 1) ≤ 6 * 7 := Nat.mul_le_mul (by omega) (by omega)
        omega
    · rcases h with (h | ⟨i, hi, h⟩) | h
      · simp only [List.mem_singleton, Instr.push.injEq] at h
        subst h
        decide
      · simp only [List.mem_cons, Instr.push.injEq, List.mem_singleton, reduceCtorEq, false_or,
          or_false, List.not_mem_nil] at h
        subst h
        apply num_representable
        apply small_lt_word
        omega
      · simp only [List.mem_cons, Instr.push.injEq, List.mem_singleton, reduceCtorEq, false_or,
          or_false, List.not_mem_nil] at h
        subst h
        decide
    · obtain ⟨r, hr, h⟩ := h
      rcases h with (⟨i, hi, h⟩ | ⟨p, hp, h⟩) | h
      · simp only [List.mem_cons, Instr.push.injEq, List.mem_singleton, reduceCtorEq, false_or,
          or_false, List.not_mem_nil] at h
        subst h
        exact toHex256_representable _ (hK r hr i hi)
      · simp at h
      · simp only [List.mem_cons, Instr.push.injEq, List.mem_singleton, reduceCtorEq, false_or,
          or_false, List.not_mem_nil] at h
        subst h
        decide
    · simp only [List.mem_cons, Instr.push.injEq, List.mem_singleton, reduceCtorEq, false_or,
        or_false, List.not_mem_nil] at h
      rcases h with rfl | rfl | rfl <;> decide
    · rcases h with ((h | ⟨i, hi, j, hj, h⟩) | ⟨i, _, h⟩) | h
      · simp at h
      · unfold mixCell at h
        split at h
        · simp only [List.mem_cons, Instr.push.injEq, List.mem_singleton, reduceCtorEq, false_or,
            or_false, List.not_mem_nil] at h
          subst h
          apply num_representable
          apply small_lt_word
          have : i * (n + 1) ≤ 6 * 7 := Nat.mul_le_mul (by omega) (by omega)
          omega
        · simp only [List.mem_cons, Instr.push.injEq, List.mem_singleton, reduceCtorEq, false_or,
            or_false, List.not_mem_nil] at h
          subst h
          apply num_representable
          apply small_lt_word
          have : i * (n + 1) ≤ 6 * 7 := Nat.mul_le_mul (by omega) (by omega)
          omega
      · simp at h
      · simp only [List.mem_cons, Instr.push.injEq, List.mem_singleton, reduceCtorEq, false_or,
          or_false, List.not_mem_nil] at h
        subst h
        decide
  | _ => rfl

/-- The call `dup(16)` of `mix` is among the calls of `createCode(7)` and of
`createCode(8)`. -/
theorem dup16_mem (E : Ext) (n : Nat) (hn7 : 7 ≤ n) (hn8 : n ≤ 8) : dup 16 ∈ instrs E n :=
  List.mem_iff_getElem?.mpr ⟨_, instrs_failAt E n hn7 hn8⟩

/-- Generation succeeds for the arities 1 to 6. -/
theorem createCode_ok (E : Ext) (n : Nat) (hn1 : 1 ≤ n) (hn6 : n ≤ 6) (hE : E.fits n) :
    (createCode E (n : Int)).result = .ok (createTxData E (instrs E n)) := by
  rw [createCode_result E n hn1 (by omega)]
  exact assemble_ok E _ (instrs_representable E n hn1 hn6 hE)

/-- Generation raises for the arities 7 and 8. -/
theorem createCode_raises (E : Ext) (n : Nat) (hn7 : 7 ≤ n) (hn8 : n ≤ 8) :
    (createCode E (n : Int)).result = .error "Assertion failed" := by
  rw [createCode_result E n (by omega) hn8]
  exact assemble_error E _ (dup 16) (dup16_mem E n hn7 hn8) rfl

/-- For the arities 7 and 8 `createCode` returns no bytes. -/
theorem createCode_no_bytes (E : Ext) (n : Nat) (hn7 : 7 ≤ n) (hn8 : n ≤ 8)
    (bytes : List Nat) : (createCode E (n : Int)).result ≠ .ok bytes := by
  intro hb
  rw [createCode_raises E n hn7 hn8] at hb
  cases hb

/-- Before `mix` every depth operand is within the range of the machine: the
duplicate operands of the selector check, of `ark` and of `sigma` are at most
`t + 1`, their swap operands lie between 1 and `t`. -/
theorem depthOk_before_mix (E : Ext) (n : Nat) (hn8 : n ≤ 8) :
    ∀ op ∈ upTo E n (N_ROUNDS_F + nRoundsPOf (n + 1)) ++ finish, op.depthOk = true := by
  intro op h
  cases op with
  | dup d =>
    simp only [upTo, header, checkSelector, saveM, loadState, round, ark, sigma, callMix, finish,
      List.mem_append, List.mem_flatMap, List.mem_range] at h
    simp only [Instr.depthOk, decide_eq_true_eq]
    rcases h with ((((h | h) | h) | h) | h) | h
    · simp at h; omega
    · simp at h
    · obtain ⟨i, _, j, _, h⟩ := h
      simp at h
    · rcases h with (h | ⟨i, _, h⟩) | h <;> simp at h
    · obtain ⟨r, _, h⟩ := h
      rcases h with (⟨i, hi, h⟩ | ⟨p, hp, h⟩) | h
      · simp at h; omega
      · have := sigmaPositions_lt _ _ _ _ _ (by omega) hp
        simp at h; omega
      · simp at h
    · simp at h
  | swap s =>
    simp only [upTo, header, checkSelector, saveM, loadState, round, ark, sigma, callMix, finish,
      List.mem_append, List.mem_flatMap, List.mem_range] at h
    simp only [Instr.depthOk, decide_eq_true_eq]
    rcases h with ((((h | h) | h) | h) | h) | h
    · simp at h; omega
    · simp at h
    · obtain ⟨i, _, j, _, h⟩ := h
      simp at h
    · rcases h with (h | ⟨i, _, h⟩) | h <;> simp at h
    · obtain ⟨r, _, h⟩ := h
      rcases h with (⟨i, hi, h⟩ | ⟨p, hp, h⟩) | h
      · simp at h; omega
      · have := sigmaPositions_lt _ _ _ _ _ (by omega) hp
        simp at h; omega
      · simp at h
    · simp at h
  | _ => rfl

set_option maxRecDepth 100000 in
theorem depthOk_mix_start (n : Nat) (hn7 : 7 ≤ n) (hn8 : n ≤ 8) :
    ∀ op ∈ (mixData (n + 1)).take (if n + 1 = 8 then 377 else 356), op.depthOk = true := by
  have h : ((mixData (n + 1)).take (if n + 1 = 8 then 377 else 356)).all Instr.depthOk = true := by
    interval_cases n <;> decide
  exact fun op hop => List.all_eq_true.mp h op hop

/-- The call `dup(16)` at the position of `instrs_failAt` is the first call of
`createCode(7)` and of `createCode(8)` whose depth operand the machine does not
have. -/
theorem depthOk_before_failAt (E : Ext) (n : Nat) (hn7 : 7 ≤ n) (hn8 : n ≤ 8) (k : Nat)
    (hk : k < (upTo E n (N_ROUNDS_F + nRoundsPOf (n + 1))).length + finish.length
        + (if n + 1 = 8 then 377 else 356))
    (op : Instr) (hop : (instrs E n)[k]? = some op) : op.depthOk = true := by
  have hlt := failAt_lt n hn7 hn8
  generalize hJ : (if n + 1 = 8 then 377 else 356) = J at hk hlt
  have hpre : (upTo E n (N_ROUNDS_F + nRoundsPOf (n + 1)) ++ finish).length
      = (upTo E n (N_ROUNDS_F + nRoundsPOf (n + 1))).length + finish.length :=
    List.length_append _ _
  rw [instrs_eq, mix_eq, ← List.append_assoc] at hop
  by_cases hkp : k < (upTo E n (N_ROUNDS_F + nRoundsPOf (n + 1)) ++ finish).length
  · rw [List.getElem?_append_left (by rw [List.length_append]; omega),
      List.getElem?_append_left hkp] at hop
    exact depthOk_before_mix E n hn8 op (List.mem_iff_getElem?.mpr ⟨k, hop⟩)
  · have hk2 : k - (upTo E n (N_ROUNDS_F + nRoundsPOf (n + 1)) ++ finish).length < J := by omega
    rw [List.getElem?_append_left (by rw [List.length_append]; omega),
      List.getElem?_append_right (by omega)] at hop
    apply depthOk_mix_start n hn7 hn8 op
    rw [hJ]
    apply List.mem_iff_getElem?.mpr
    refine ⟨k - (upTo E n (N_ROUNDS_F + nRoundsPOf (n + 1)) ++ finish).length, ?_⟩
    rw [List.getElem?_take_of_lt hk2]
    exact hop

theorem failAt_7 (E : Ext) :
    (upTo E 7 (N_ROUNDS_F + nRoundsPOf (7 + 1))).length + finish.length
      + (if 7 + 1 = 8 then 377 else 356) = 5957 := by
  rw [mixStart_7]
  rfl

theorem failAt_8 (E : Ext) :
    (upTo E 8 (N_ROUNDS_F + nRoundsPOf (8 + 1))).length + finish.length
      + (if 8 + 1 = 8 then 377 else 356) = 6446 := by
  rw [mixStart_8]
  rfl

theorem assemble_ne_invalid_arity (E : Ext) (code : List Instr) :
    assemble E code ≠ .error "Invalid number of inputs. Must be 1<=nInputs<=8" := by
  unfold assemble
  split
  · intro h; cases h
  · intro h
    have := Except.error.inj h
    revert this
    decide

/-- The bytes returned begin, behind the prefix of the assembler, with the
encoding of the selector check: a push of 29 bytes (the literal of line 112), a
push of one zero byte, the input load, the division and the duplicate of
depth 0. -/
theorem createTxData_head (E : Ext) (n : Nat) :
    ∃ rest, createTxData E (instrs E n)
      = E.loader ((instrs E n).flatMap (encode (instrs E n))).length
        ++ ([0x7c, 0x01] ++ List.replicate 28 0 ++ [0x60, 0x00, 0x35, 0x04, 0x80] ++ rest) := by
  have key : ∀ code, (instrs E n).flatMap (encode code)
      = [0x7c, 0x01] ++ List.replicate 28 0 ++ [0x60, 0x00, 0x35, 0x04, 0x80]
        ++ ((instrs E n).drop 5).flatMap (encode code) := by
    intro code
    rfl
  refine ⟨((instrs E n).drop 5).flatMap (encode (instrs E n)), ?_⟩
  unfold createTxData
  rw [← key]

/-- The calls of `createCode(n)` depend on the external data only through the
matrix entries and round constants of width `n + 1` and the two dispatch
codes. -/
theorem instrs_congr (E E' : Ext) (n : Nat)
    (hM : ∀ i j, i < n + 1 → j < n + 1 → E'.M (n + 1 - 2) i j = E.M (n + 1 - 2) i j)
    (hK : ∀ r i, r < N_ROUNDS_F + nRoundsPOf (n + 1) → i < n + 1 →
      E'.K (n + 1 - 2) (r * (n + 1) + i) = E.K (n + 1 - 2) (r * (n + 1) + i))
    (hU : selUint E' n = selUint E n) (hB : selBytes E' n = selBytes E n) :
    instrs E' n = instrs E n := by
  have h1 : checkSelector E' n = checkSelector E n := by
    simp only [checkSelector, hU, hB]
  have h2 : saveM E' (n + 1) = saveM E (n + 1) := by
    unfold saveM
    apply List.flatMap_congr
    intro i hi
    apply List.flatMap_congr
    intro j hj
    rw [hM i j (List.mem_range.mp hi) (List.mem_range.mp hj)]
  have h3 : rounds E' (n + 1) N_ROUNDS_F (nRoundsPOf (n + 1))
      = rounds E (n + 1) N_ROUNDS_F (nRoundsPOf (n + 1)) := by
    unfold rounds
    apply List.flatMap_congr
    intro r hr
    unfold round
    congr 2
    unfold ark
    apply List.flatMap_congr
    intro i hi
    rw [hK r i (List.mem_range.mp hr) (List.mem_range.mp hi)]
  simp only [instrs, h1, h2, h3]

set_option maxRecDepth 1000000 in
theorem mixBody_until_dup16 (code : List Instr) (cd : List Nat) (t : Nat) (h8 : 8 ≤ t) (h9 : t ≤ 9)
    (f : Nat → Nat) (rest : List Nat) (m : Nat → Nat) :
    ∃ r, execBlock code cd ((mixBody t).take (if t = 8 then 377 else 356)) (vec t f ++ q :: rest) m
          = .ok r
      ∧ (mixBody t)[if t = 8 then 377 else 356]? = some (dup 16)
      ∧ (if t = 8 then 377 else 356) < (mixBody t).length := by
  interval_cases t
  · exact ⟨_, rfl, rfl, by decide⟩
  · exact ⟨_, rfl, rfl, by decide⟩

/-- A block whose operations before position `J` execute and whose operation at
`J` is `dup(16)`: after `J` steps the machine is at that call, the next step
stops with `badOperand`, and so does every longer run. -/
theorem block_fail_at (code : List Instr) (cd : List Nat) (blk pre post : List Instr)
    (st : List Nat) (m : Nat → Nat) (J : Nat) (r : List Nat × (Nat → Nat))
    (hc : code = pre ++ blk ++ post) (hJ : J < blk.length)
    (hpre : execBlock code cd (blk.take J) st m = .ok r) (hop : blk[J]? = some (dup 16)) :
    ∃ s, stepN code cd J ⟨pre.length, st, m⟩ = .ok s
      ∧ s.pc = pre.length + J
      ∧ code[s.pc]? = some (dup 16)
      ∧ step code cd s = .error .badOperand
      ∧ (∀ k, J < k → stepN code cd k ⟨pre.length, st, m⟩ = .error .badOperand) := by
  obtain ⟨st1, m1⟩ := r
  have hcode : code = pre ++ blk.take J ++ (blk.drop J ++ post) := by
    rw [hc]
    conv_lhs => rw [← List.take_append_drop J blk]
    simp only [List.append_assoc]
  have hl : (blk.take J).length = J := by
    rw [List.length_take]; omega
  have s3 := stepN_block code cd (blk.take J) pre (blk.drop J ++ post) st m st1 m1 hcode hpre
  rw [hl] at s3
  have hat : code[pre.length + J]? = some (dup 16) := by
    rw [hc, List.append_assoc, List.getElem?_append_right (Nat.le_add_right _ _),
      Nat.add_sub_cancel_left, List.getElem?_append_left hJ]
    exact hop
  have s4 : step code cd ⟨pre.length + J, st1, m1⟩ = .error .badOperand :=
    step_badOperand code cd _ (dup 16) hat (by simp [execOp])
  refine ⟨_, s3, rfl, hat, s4, ?_⟩
  intro k hk
  have e : k = J + (1 + (k - J - 1)) := by omega
  rw [e]
  exact stepN_error_of_step code cd _ J _ _ s3 s4 _

/-- The state with which the program reaches the end of the set-up, for every
arity from 1 to 8. -/
theorem reach_setup (E : Ext) (n : Nat) (cd : List Nat) (hn1 : 1 ≤ n) (hn8 : n ≤ 8)
    (h : Accepted E n cd) :
    ∃ k m, stepN (instrs E n) cd k initState
      = .ok ⟨(upTo E n 0).length, initialState n cd ++ [q], m⟩ := by
  obtain ⟨k1, h1⟩ := header_exec E n cd hn1 hn8 h
  exact ⟨k1, _, by rw [h1, initialState_eq]⟩

/-- The run for the arities 7 and 8 on an accepted selector, on the calls of
`createCode`: it stops at the call `dup(16)` of `mix`, at position 5957 of the
stream for arity 7 and 6446 for arity 8. -/
theorem exec_fail_at (E : Ext) (n : Nat) (cd : List Nat) (hn7 : 7 ≤ n) (hn8 : n ≤ 8)
    (h : Accepted E n cd) :
    ∃ K s, stepN (createCode E (n : Int)).calls cd K initState = .ok s
      ∧ (createCode E (n : Int)).calls[s.pc]? = some (dup 16)
      ∧ step (createCode E (n : Int)).calls cd s = .error .badOperand
      ∧ (n = 7 → s.pc = 5957)
      ∧ (n = 8 → s.pc = 6446)
      ∧ (∀ k, run (createCode E (n : Int)).calls cd (K + 1 + k) initState = some .badOperand) := by
  rw [createCode_calls E n (by omega) hn8]
  obtain ⟨K, s, hs, hpc, hop, hf, _⟩ := exec_fail E n cd hn7 hn8 h
  refine ⟨K, s, hs, hop, hf, ?_, ?_, ?_⟩
  · intro h7
    subst h7
    rw [hpc, failAt_7]
  · intro h8
    subst h8
    rw [hpc, failAt_8]
  · intro k
    rw [Nat.add_assoc]
    exact run_of_step_error _ _ K _ s _ hs hf k

/-- The emulated call of round `i` for the arities 7 and 8: from the start of
the round execution stops at the call `dup(16)` of `mix`, every longer run stops
there, and the resumption label of the round is never reached. -/
theorem round_fail_call (E : Ext) (n : Nat) (cd : List Nat) (hn7 : 7 ≤ n) (hn8 : n ≤ 8) (i : Nat)
    (hi : i < N_ROUNDS_F + nRoundsPOf (n + 1)) (f : Nat → Nat) (m : Nat → Nat) :
    ∃ K s, stepN (instrs E n) cd K ⟨(upTo E n i).length, vec (n + 1) f ++ [q], m⟩ = .ok s
      ∧ (instrs E n)[s.pc]? = some (dup 16)
      ∧ step (instrs E n) cd s = .error .badOperand
      ∧ (∀ k, K < k →
          stepN (instrs E n) cd k ⟨(upTo E n i).length, vec (n + 1) f ++ [q], m⟩
            = .error .badOperand)
      ∧ (∀ k s1, stepN (instrs E n) cd k ⟨(upTo E n i).length, vec (n + 1) f ++ [q], m⟩
            = .ok s1 →
          s1.pc ≠ (upTo E n i).length
            + (roundData E (n + 1) N_ROUNDS_F (nRoundsPOf (n + 1)) i).length + 1) := by
  obtain ⟨s, hs, _, hat, hf, htr⟩ := round_fail E n cd hn7 hn8 i hi f m
  refine ⟨_, s, hs, hat, hf, ?_, ?_⟩
  · intro k hk
    have e : k = ((roundData E (n + 1) N_ROUNDS_F (nRoundsPOf (n + 1)) i).length + 1
        + (if n + 1 = 8 then 377 else 356))
        + (1 + (k - ((roundData E (n + 1) N_ROUNDS_F (nRoundsPOf (n + 1)) i).length + 1
          + (if n + 1 = 8 then 377 else 356)) - 1)) := by omega
    rw [e]
    exact stepN_error_of_step _ _ _ _ _ _ hs hf _
  · intro k s1 hs1
    have hp := trace_all (instrs E n) cd
      (fun pc => pc ≤ (upTo E n i).length
          + (roundData E (n + 1) N_ROUNDS_F (nRoundsPOf (n + 1)) i).length
        ∨ (upTo E n (N_ROUNDS_F + nRoundsPOf (n + 1))).length + finish.length ≤ pc)
      _ s _ _ htr hs hf k s1 hs1
    have h2 := upTo_length_mono E n (i + 1) _ hi
    have h3 : (upTo E n (i + 1)).length = (upTo E n i).length
        + (roundData E (n + 1) N_ROUNDS_F (nRoundsPOf (n + 1)) i).length + 2 := by
      rw [upTo_succ, round_eq]
      simp [Nat.add_assoc]
    rcases hp with hp | hp <;> omega

theorem sampleExt_fits_1 : sampleExt.fits 1 := by
  refine ⟨fun i hi j hj => ?_, fun r hr i hi => ?_, by decide, by decide⟩
  · exact small_lt_word _ (by simp only [sampleExt]; omega)
  · have hR : N_ROUNDS_F + nRoundsPOf (1 + 1) = 64 := rfl
    rw [hR] at hr
    exact small_lt_word _ (by simp only [sampleExt]; omega)

/-! ## The claims -/

/-- C1: for the arities 1 to 6 and every call data carrying an accepted
selector, running the stream emitted by `createCode(n)` returns, for every
sufficient amount of fuel, the 32 bytes of element 0 of the reference
permutation (`8 + partialRounds(t)` rounds of add-round-constant, S-box and
multiplication by the mixing matrix, modulo `q`) applied to the initial state
read from the call data.  For the arities 7 and 8, which pass the arity check,
it does not: `mix` calls `dup(16)`, an operand the machine does not have, so
`createCode(n)` returns no bytes, and a run of its calls stops at that call and
never returns data.  When the call data is four selector bytes followed by the
32-byte words of `c` and of `x[0], ..., x[n-1]`, the initial state is
`(c, x[0], ..., x[n-1])`. -/
theorem C1_reference_permutation_up_to_arity_6 (E : Ext) (n : Nat) (cd : List Nat)
    (hn1 : 1 ≤ n) (hn8 : n ≤ 8) (h : Accepted E n cd) :
    (n ≤ 6 → ∃ fuel, ∀ k, run (createCode E (n : Int)).calls cd (fuel + k) initState
        = some (.returned (wordBytes
            ((refPermutation E (n + 1) (initialState n cd)).getD 0 0))))
      ∧ (7 ≤ n →
          dup 16 ∈ (createCode E (n : Int)).calls
          ∧ (∀ bytes, (createCode E (n : Int)).result ≠ .ok bytes)
          ∧ (∃ fuel, ∀ k, run (createCode E (n : Int)).calls cd (fuel + k) initState
              = some .badOperand)
          ∧ (∀ f out, run (createCode E (n : Int)).calls cd f initState
              ≠ some (.returned out)))
      ∧ (∀ (sel : List Nat) (c : Nat) (xs tail : List Nat),
          sel.length = 4 → xs.length = n → c < 2 ^ 256 → (∀ x ∈ xs, x < 2 ^ 256) →
          cd = sel ++ (c :: xs).flatMap wordBytes ++ tail →
          initialState n cd = c :: xs) := by
  refine ⟨fun hn6 => exec_accept_mono E n cd hn1 hn6 h, fun hn7 => ⟨?_, ?_, ?_, ?_⟩, ?_⟩
  · rw [createCode_calls E n hn1 hn8]
    exact dup16_mem E n hn7 hn8
  · exact createCode_no_bytes E n hn7 hn8
  · exact exec_fail_run E n cd hn7 hn8 h
  · exact exec_fail_no_return E n cd hn7 hn8 h
  · intro sel c xs tail hsel hxs hc hx hcd
    rw [hcd]
    exact initialState_layout n sel c xs tail hsel hxs hc hx

/-- Witness of C1: arity 7 on call data with state `(1, ..., 8)`, where the run
stops at `dup(16)`; arity 2 on the sample call data, whose initial state is
`(1, 2, 3)`; arity 1 on call data whose initial state is `(0, 0)`. -/
theorem C1_witness :
    ((1 ≤ 7 ∧ 7 ≤ 8 ∧ Accepted sampleExt 7 sampleCall7)
      ∧ initialState 7 sampleCall7 = [1, 2, 3, 4, 5, 6, 7, 8]
      ∧ dup 16 ∈ (createCode sampleExt ((7 : Nat) : Int)).calls
      ∧ (∃ fuel, ∀ k, run (createCode sampleExt ((7 : Nat) : Int)).calls sampleCall7 (fuel + k)
          initState = some .badOperand))
    ∧ ((1 ≤ 2 ∧ 2 ≤ 8 ∧ Accepted sampleExt 2 sampleCallU)
      ∧ initialState 2 sampleCallU = [1, 2, 3]
      ∧ ∃ fuel, ∀ k, run (createCode sampleExt ((2 : Nat) : Int)).calls sampleCallU (fuel + k)
          initState
        = some (.returned (wordBytes
            ((refPermutation sampleExt (2 + 1) (initialState 2 sampleCallU)).getD 0 0))))
    ∧ ((1 ≤ 1 ∧ 1 ≤ 8 ∧ Accepted sampleExt 1 sampleCallZero)
      ∧ initialState 1 sampleCallZero = [0, 0]
      ∧ ∃ fuel, ∀ k, run (createCode sampleExt ((1 : Nat) : Int)).calls sampleCallZero (fuel + k)
          initState
        = some (.returned (wordBytes
            ((refPermutation sampleExt (1 + 1) (initialState 1 sampleCallZero)).getD 0 0)))) :=
  ⟨⟨⟨by decide, by decide, by unfold Accepted; decide⟩, by decide,
      ((C1_reference_permutation_up_to_arity_6 sampleExt 7 sampleCall7 (by decide) (by decide)
        (by unfold Accepted; decide)).2.1 (by decide)).1,
      ((C1_reference_permutation_up_to_arity_6 sampleExt 7 sampleCall7 (by decide) (by decide)
        (by unfold Accepted; decide)).2.1 (by decide)).2.2.1⟩,
    ⟨⟨by decide, by decide, by unfold Accepted; decide⟩, by decide,
      (C1_reference_permutation_up_to_arity_6 sampleExt 2 sampleCallU (by decide) (by decide)
        (by unfold Accepted; decide)).1 (by decide)⟩,
    ⟨⟨by decide, by decide, by unfold Accepted; decide⟩, by decide,
      (C1_reference_permutation_up_to_arity_6 sampleExt 1 sampleCallZero (by decide)
        (by decide) (by unfold Accepted; decide)).1 (by decide)⟩⟩

/-- C2: `createCode(n)` throws the invalid-arity error exactly when `n < 1` or
`n > 8`, and then it has made no assembler call and returns no bytes; in
particular this is so for `n = 0` and `n = 9`. -/
theorem C2_invalid_arity_iff (E : Ext) (n : Int) :
    ((n < 1 ∨ n > 8) ↔
        (createCode E n).result = .error "Invalid number of inputs. Must be 1<=nInputs<=8")
      ∧ ((n < 1 ∨ n > 8) ↔
        createCode E n = ⟨[], .error "Invalid number of inputs. Must be 1<=nInputs<=8"⟩)
      ∧ createCode E 0 = ⟨[], .error "Invalid number of inputs. Must be 1<=nInputs<=8"⟩
      ∧ createCode E 9 = ⟨[], .error "Invalid number of inputs. Must be 1<=nInputs<=8"⟩ := by
  refine ⟨?_, ?_, rfl, rfl⟩
  · constructor
    · intro h
      unfold createCode
      rw [if_pos h]
    · intro h
      by_contra hn
      unfold createCode at h
      rw [if_neg hn] at h
      exact assemble_ne_invalid_arity E _ h
  · constructor
    · intro h
      unfold createCode
      rw [if_pos h]
    · intro h
      by_contra hn
      unfold createCode at h
      rw [if_neg hn] at h
      exact assemble_ne_invalid_arity E _ (congrArg GenResult.result h)

/-- C3: `createCode(n)` returns a byte sequence for the arities 1 to 6 only.  For
the arities 7 and 8, which pass the arity check, `mix` calls `dup(16)`, which
names no operation of the machine: no bytes are returned and the error raised
is not the invalid-arity error.  For the arities 1 to 6, with matrix entries and
round constants below `2^256` and dispatch codes of four bytes, every call names
an operation of the machine and the bytes returned are not empty: behind the
prefix of the assembler they begin with the encoding of the selector check; and
they are the same for all external data with the same matrix entries and round
constants of width `n + 1`, the same dispatch codes and the same prefix. -/
theorem C3_generation_raises_for_arities_7_and_8 (E : Ext) (n : Nat)
    (hn1 : 1 ≤ n) (hn8 : n ≤ 8) :
    (7 ≤ n →
        dup 16 ∈ (createCode E (n : Int)).calls
        ∧ (dup 16).representable = false
        ∧ (∀ bytes, (createCode E (n : Int)).result ≠ .ok bytes)
        ∧ ∃ msg, (createCode E (n : Int)).result = .error msg
            ∧ msg ≠ "Invalid number of inputs. Must be 1<=nInputs<=8")
      ∧ (n ≤ 6 → E.fits n →
          (∀ op ∈ (createCode E (n : Int)).calls, op.representable = true)
          ∧ ∃ bytes rest, (createCode E (n : Int)).result = .ok bytes
              ∧ bytes ≠ []
              ∧ bytes = E.loader (((createCode E (n : Int)).calls.flatMap
                    (encode (createCode E (n : Int)).calls)).length)
                  ++ ([0x7c, 0x01] ++ List.replicate 28 0 ++ [0x60, 0x00, 0x35, 0x04, 0x80]
                    ++ rest)
              ∧ ∀ E' : Ext,
                  (∀ i j, i < n + 1 → j < n + 1 → E'.M (n + 1 - 2) i j = E.M (n + 1 - 2) i j) →
                  (∀ r i, r < N_ROUNDS_F + nRoundsPOf (n + 1) → i < n + 1 →
                    E'.K (n + 1 - 2) (r * (n + 1) + i) = E.K (n + 1 - 2) (r * (n + 1) + i)) →
                  selUint E' n = selUint E n → selBytes E' n = selBytes E n →
                  E'.loader = E.loader →
                  (createCode E' (n : Int)).result = .ok bytes) := by
  refine ⟨fun hn7 => ⟨?_, rfl, ?_, ?_⟩, fun hn6 hE => ⟨?_, ?_⟩⟩
  · rw [createCode_calls E n hn1 hn8]
    exact dup16_mem E n hn7 hn8
  · intro bytes hb
    rw [createCode_raises E n hn7 hn8] at hb
    cases hb
  · exact ⟨_, createCode_raises E n hn7 hn8, by decide⟩
  · rw [createCode_calls E n hn1 hn8]
    exact instrs_representable E n hn1 hn6 hE
  · obtain ⟨rest, hrest⟩ := createTxData_head E n
    refine ⟨createTxData E (instrs E n), rest, createCode_ok E n hn1 hn6 hE,
      createTxData_ne_nil E n, ?_, ?_⟩
    · rw [createCode_calls E n hn1 hn8]
      exact hrest
    · intro E' hM hK hU hB hL
      have hE' : E'.fits n := by
        obtain ⟨h1, h2, h3, h4⟩ := hE
        refine ⟨fun i hi j hj => ?_, fun r hr i hi => ?_, ?_, ?_⟩
        · rw [hM i j hi hj]; exact h1 i hi j hj
        · rw [hK r i hr hi]; exact h2 r hr i hi
        · rw [hU]; exact h3
        · rw [hB]; exact h4
      rw [createCode_ok E' n hn1 hn6 hE', instrs_congr E E' n hM hK hU hB]
      unfold createTxData
      rw [hL]

/-- Witness of C3: at arity 7 no bytes are returned; at arity 1 with the sample
data the result is a non-empty byte sequence. -/
theorem C3_witness :
    ((1 ≤ 7 ∧ 7 ≤ 8)
      ∧ dup 16 ∈ (createCode sampleExt ((7 : Nat) : Int)).calls
      ∧ (∀ bytes, (createCode sampleExt ((7 : Nat) : Int)).result ≠ .ok bytes))
    ∧ ((1 ≤ 1 ∧ 1 ≤ 8 ∧ sampleExt.fits 1)
      ∧ ∃ bytes, (createCode sampleExt ((1 : Nat) : Int)).result = .ok bytes ∧ bytes ≠ []) :=
  ⟨⟨⟨by decide, by decide⟩,
      ((C3_generation_raises_for_arities_7_and_8 sampleExt 7 (by decide) (by decide)).1
        (by decide)).1,
      ((C3_generation_raises_for_arities_7_and_8 sampleExt 7 (by decide) (by decide)).1
        (by decide)).2.2.1⟩,
    ⟨⟨by decide, by decide, sampleExt_fits_1⟩, by
      obtain ⟨_, bytes, _, h1, h2, _⟩ :=
        (C3_generation_raises_for_arities_7_and_8 sampleExt 1 (by decide) (by decide)).2
          (by decide) (sampleExt_fits_1)
      exact ⟨bytes, h1, h2⟩⟩⟩

/-- C4: with `s` the first call-data word divided by `2^224` (the big-endian
value of the leading four bytes, below `2^32`), the dispatcher of every arity
in 1..8 reaches the definition of `start` with an empty stack exactly when `s`
is one of the two dispatch codes; otherwise the abort instruction is executed
and nothing is returned, whatever the other bytes are. -/
theorem C4_dispatcher (E : Ext) (n : Nat) (cd : List Nat) (hn1 : 1 ≤ n) (hn8 : n ≤ 8) :
    selector cd = calldataWord cd 0 / 2 ^ 224
      ∧ selector cd
          = ((cd.getD 0 0 % 256 * 256 + cd.getD 1 0 % 256) * 256 + cd.getD 2 0 % 256) * 256
              + cd.getD 3 0 % 256
      ∧ selector cd < 2 ^ 32
      ∧ labelAddr (createCode E (n : Int)).calls "start" = some 13
      ∧ (stepN (createCode E (n : Int)).calls cd 12 initState = .ok ⟨13, [], fun _ => 0⟩
          ↔ (selector cd = hexToNat (selUint E n) ∨ selector cd = hexToNat (selBytes E n)))
      ∧ (¬ (selector cd = hexToNat (selUint E n) ∨ selector cd = hexToNat (selBytes E n)) →
          ∀ k, run (createCode E (n : Int)).calls cd (13 + k) initState = some .invalid) := by
  rw [createCode_calls E n hn1 hn8]
  refine ⟨by rw [selector, div_lit], selector_eq_bytes cd, selector_lt cd, labelAddr_start E n,
    ?_, ?_⟩
  · constructor
    · intro h
      by_contra hna
      have := (dispatch_reject E n cd hna).1
      rw [this] at h
      simp at h
    · intro h
      exact dispatch_jump E n cd h
  · intro hna k
    obtain ⟨h1, h2⟩ := dispatch_reject E n cd hna
    have h3 : run (instrs E n) cd 1 ⟨12, [], fun _ => 0⟩ = some .invalid := by
      simp [run, h2]
    have := run_of_stepN _ _ 12 1 _ _ h1
    rw [h3] at this
    exact run_mono _ _ 13 k _ _ this

/-- Witness of C4 at arity 2 on the sample call data. -/
theorem C4_witness :
    (1 ≤ 2 ∧ 2 ≤ 8)
      ∧ (stepN (createCode sampleExt ((2 : Nat) : Int)).calls sampleCallU 12 initState
            = .ok ⟨13, [], fun _ => 0⟩
          ↔ (selector sampleCallU = hexToNat (selUint sampleExt 2)
              ∨ selector sampleCallU = hexToNat (selBytes sampleExt 2)))
      ∧ (¬ (selector sampleCallBad = hexToNat (selUint sampleExt 2)
              ∨ selector sampleCallBad = hexToNat (selBytes sampleExt 2)) →
          ∀ k, run (createCode sampleExt ((2 : Nat) : Int)).calls sampleCallBad (13 + k) initState
            = some .invalid) :=
  ⟨⟨by decide, by decide⟩,
    (C4_dispatcher sampleExt 2 sampleCallU (by decide) (by decide)).2.2.2.2.1,
    (C4_dispatcher sampleExt 2 sampleCallBad (by decide) (by decide)).2.2.2.2.2⟩

/-- C5: two call data that differ only in the leading four bytes, one with the
`uint256[n]` dispatch code and one with the `bytes32[n]` dispatch code, make the
program of the arities 1 to 6 return the same 32 bytes.  For the arities 7 and
8, which pass the arity check, neither call returns anything: `createCode`
returns no bytes, and both runs of its calls stop at the call `dup(16)` of
`mix`, an operand the machine does not have. -/
theorem C5_both_signatures_up_to_arity_6 (E : Ext) (n : Nat) (cd1 cd2 : List Nat)
    (hn1 : 1 ≤ n) (hn8 : n ≤ 8) (hsame : cd1.drop 4 = cd2.drop 4)
    (h1 : selector cd1 = hexToNat (selUint E n)) (h2 : selector cd2 = hexToNat (selBytes E n)) :
    (n ≤ 6 → ∃ out, out.length = 32
        ∧ (∃ fuel, ∀ k, run (createCode E (n : Int)).calls cd1 (fuel + k) initState
              = some (.returned out))
        ∧ (∃ fuel, ∀ k, run (createCode E (n : Int)).calls cd2 (fuel + k) initState
              = some (.returned out)))
      ∧ (7 ≤ n →
          (∀ bytes, (createCode E (n : Int)).result ≠ .ok bytes)
          ∧ (∃ fuel, ∀ k, run (createCode E (n : Int)).calls cd1 (fuel + k) initState
              = some .badOperand)
          ∧ (∃ fuel, ∀ k, run (createCode E (n : Int)).calls cd2 (fuel + k) initState
              = some .badOperand)
          ∧ (∀ f out, run (createCode E (n : Int)).calls cd1 f initState ≠ some (.returned out)
              ∧ run (createCode E (n : Int)).calls cd2 f initState ≠ some (.returned out))) := by
  refine ⟨fun hn6 => ?_, fun hn7 => ?_⟩
  · refine ⟨wordBytes ((refPermutation E (n + 1) (initialState n cd1)).getD 0 0),
      wordBytes_length _, exec_accept_mono E n cd1 hn1 hn6 (Or.inl h1), ?_⟩
    rw [initialState_drop n cd1 cd2 hsame]
    exact exec_accept_mono E n cd2 hn1 hn6 (Or.inr h2)
  · exact ⟨createCode_no_bytes E n hn7 hn8,
      exec_fail_run E n cd1 hn7 hn8 (Or.inl h1), exec_fail_run E n cd2 hn7 hn8 (Or.inr h2),
      fun f out => ⟨exec_fail_no_return E n cd1 hn7 hn8 (Or.inl h1) f out,
        exec_fail_no_return E n cd2 hn7 hn8 (Or.inr h2) f out⟩⟩

set_option maxRecDepth 100000 in
/-- Witness of C5: the two call data for arity 7, on which nothing is returned,
and the two sample call data for arity 2, on which the same bytes are. -/
theorem C5_witness :
    ((1 ≤ 7 ∧ 7 ≤ 8 ∧ sampleCall7.drop 4 = sampleCall7B.drop 4
        ∧ selector sampleCall7 = hexToNat (selUint sampleExt 7)
        ∧ selector sampleCall7B = hexToNat (selBytes sampleExt 7))
      ∧ (∃ fuel, ∀ k, run (createCode sampleExt ((7 : Nat) : Int)).calls sampleCall7 (fuel + k)
            initState = some .badOperand)
      ∧ (∃ fuel, ∀ k, run (createCode sampleExt ((7 : Nat) : Int)).calls sampleCall7B (fuel + k)
            initState = some .badOperand))
    ∧ ((1 ≤ 2 ∧ 2 ≤ 8 ∧ sampleCallU.drop 4 = sampleCallB.drop 4
        ∧ selector sampleCallU = hexToNat (selUint sampleExt 2)
        ∧ selector sampleCallB = hexToNat (selBytes sampleExt 2))
      ∧ ∃ out, out.length = 32
        ∧ (∃ fuel, ∀ k, run (createCode sampleExt ((2 : Nat) : Int)).calls sampleCallU (fuel + k)
              initState = some (.returned out))
        ∧ (∃ fuel, ∀ k, run (createCode sampleExt ((2 : Nat) : Int)).calls sampleCallB (fuel + k)
              initState = some (.returned out))) :=
  ⟨⟨⟨by decide, by decide, by decide, by decide, by decide⟩,
      ((C5_both_signatures_up_to_arity_6 sampleExt 7 sampleCall7 sampleCall7B (by decide)
        (by decide) (by decide) (by decide) (by decide)).2 (by decide)).2.1,
      ((C5_both_signatures_up_to_arity_6 sampleExt 7 sampleCall7 sampleCall7B (by decide)
        (by decide) (by decide) (by decide) (by decide)).2 (by decide)).2.2.1⟩,
    ⟨⟨by decide, by decide, by decide, by decide, by decide⟩,
      (C5_both_signatures_up_to_arity_6 sampleExt 2 sampleCallU sampleCallB (by decide)
        (by decide) (by decide) (by decide) (by decide)).1 (by decide)⟩⟩

/-- C6: for every arity in 1..8 the set-up code (push of `q`, the input loads,
the load of the initial capacity), run from an empty stack, leaves exactly
`n + 2` slots: the word at call-data offset 4 on top, then the words at offsets
`36 + 32 k` for `k = 0 .. n-1` in ascending order, then `q` at the bottom; this
is also the stack with which the emitted program enters its first round. -/
theorem C6_setup_stack (E : Ext) (n : Nat) (cd : List Nat) (hn1 : 1 ≤ n) (hn8 : n ≤ 8)
    (pre post : List Instr) (m : Nat → Nat) :
    stepN (pre ++ loadState n ++ post) cd (loadState n).length ⟨pre.length, [], m⟩
        = .ok ⟨pre.length + (loadState n).length,
            (calldataWord cd 4 :: (List.range n).map fun k => calldataWord cd (36 + 32 * k))
              ++ [0x30644e72e131a029b85045b68181585d2833e84879b9709143e1f593f0000001], m⟩
      ∧ ((calldataWord cd 4 :: (List.range n).map fun k => calldataWord cd (36 + 32 * k))
              ++ [0x30644e72e131a029b85045b68181585d2833e84879b9709143e1f593f0000001]).length
          = n + 2
      ∧ (Accepted E n cd → ∃ k m', stepN (createCode E (n : Int)).calls cd k initState
          = .ok ⟨(header E n).length,
              (calldataWord cd 4 :: (List.range n).map fun k => calldataWord cd (36 + 32 * k))
                ++ [0x30644e72e131a029b85045b68181585d2833e84879b9709143e1f593f0000001], m'⟩) := by
  refine ⟨?_, by simp, ?_⟩
  · exact stepN_block _ cd (loadState n) pre post [] m _ m rfl
      (loadState_block _ n cd hn1 hn8 [] m)
  · intro h
    obtain ⟨k, hk⟩ := header_exec E n cd hn1 hn8 h
    rw [createCode_calls E n hn1 hn8]
    refine ⟨k, saveMMem E (n + 1) (fun _ => 0), ?_⟩
    rw [hk, upTo_zero, ← initialState_eq]
    rfl

/-- Witness of C6 at arity 2 on the sample call data. -/
theorem C6_witness :
    (1 ≤ 2 ∧ 2 ≤ 8)
      ∧ stepN ([] ++ loadState 2 ++ []) sampleCallU (loadState 2).length ⟨0, [], fun _ => 0⟩
        = .ok ⟨0 + (loadState 2).length,
            (calldataWord sampleCallU 4
                :: (List.range 2).map fun k => calldataWord sampleCallU (36 + 32 * k))
              ++ [0x30644e72e131a029b85045b68181585d2833e84879b9709143e1f593f0000001],
            fun _ => 0⟩ :=
  ⟨⟨by decide, by decide⟩,
    (C6_setup_stack sampleExt 2 sampleCallU (by decide) (by decide) [] [] (fun _ => 0)).1⟩

/-- C7: for every width in 2..9 the code of `saveM` makes exactly `t * t` stores;
afterwards the word at offset `32 * (1 + row * t + col)` is `M[t-2][row][col]`
for all `row, col < t`, word 0 and every other word are as before, and the
stack is the one the code started with. -/
theorem C7_saveM (E : Ext) (t : Nat) (cd : List Nat) (h2 : 2 ≤ t) (h9 : t ≤ 9)
    (pre post : List Instr) (st : List Nat) (m : Nat → Nat) :
    (saveM E t).count mstore = t * t
      ∧ ∃ m', stepN (pre ++ saveM E t ++ post) cd (saveM E t).length ⟨pre.length, st, m⟩
            = .ok ⟨pre.length + (saveM E t).length, st, m'⟩
          ∧ (∀ row col, row < t → col < t →
              m' (32 * (1 + row * t + col)) = E.M (t - 2) row col)
          ∧ m' 0 = m 0
          ∧ (∀ a, (∀ row col, row < t → col < t → a ≠ 32 * (1 + row * t + col)) →
              m' a = m a) := by
  refine ⟨saveM_count_mstore E t, saveMMem E t m, ?_, ?_, ?_, ?_⟩
  · exact stepN_block _ cd (saveM E t) pre post st m st _ rfl (saveM_block _ E cd t h2 h9 st m)
  · intro row col hr hc
    have := saveMMem_spec E t m row col hr hc
    rw [memM, Nat.mul_comm] at this
    exact this
  · exact saveMMem_frame E t m 0 (fun i j _ _ => by omega)
  · intro a ha
    exact saveMMem_frame E t m a (fun i j hi hj => by
      have := ha i j hi hj
      rwa [Nat.mul_comm] at this)

/-- Witness of C7 at width 3. -/
theorem C7_witness :
    (2 ≤ 3 ∧ 3 ≤ 9)
      ∧ (saveM sampleExt 3).count mstore = 3 * 3
      ∧ ∃ m', stepN ([] ++ saveM sampleExt 3 ++ []) [] (saveM sampleExt 3).length
              ⟨0, [7], fun _ => 0⟩
            = .ok ⟨0 + (saveM sampleExt 3).length, [7], m'⟩
          ∧ (∀ row col, row < 3 → col < 3 →
              m' (32 * (1 + row * 3 + col)) = sampleExt.M (3 - 2) row col)
          ∧ m' 0 = (fun _ => 0) 0
          ∧ (∀ a, (∀ row col, row < 3 → col < 3 → a ≠ 32 * (1 + row * 3 + col)) →
              m' a = (fun _ => 0) a) :=
  ⟨⟨by decide, by decide⟩,
    C7_saveM sampleExt 3 [] (by decide) (by decide) [] [] [7] (fun _ => 0)⟩

/-- C8: for every width in 2..9, every round `r` and every stack whose top `t`
slots are the state (position 0 on top) with `q` directly beneath, the code of
`ark(r)` leaves a stack of the same height whose slot `i < t` holds
`(state[i] + K[t-2][r*t+i]) mod q`, with `q` and all lower slots unchanged; the
code contains no memory operation and memory is unchanged. -/
theorem C8_ark (E : Ext) (t r : Nat) (cd : List Nat) (h2 : 2 ≤ t) (h9 : t ≤ 9)
    (st rest : List Nat) (hst : st.length = t) (pre post : List Instr) (m : Nat → Nat) :
    ∃ st', st'.length = t
      ∧ stepN (pre ++ ark E t r ++ post) cd (ark E t r).length ⟨pre.length, st ++ q :: rest, m⟩
          = .ok ⟨pre.length + (ark E t r).length, st' ++ q :: rest, m⟩
      ∧ (∀ i, i < t → (st' ++ q :: rest)[i]? = some ((st.getD i 0 + E.K (t - 2) (r * t + i)) % q))
      ∧ (st' ++ q :: rest).length = (st ++ q :: rest).length
      ∧ (∀ op ∈ ark E t r, op ≠ mload ∧ op ≠ mstore) := by
  refine ⟨refArk E t r st, refArk_length E t r st, ?_, ?_, ?_, ark_no_memory E t r⟩
  · have hb := ark_block E (pre ++ ark E t r ++ post) cd t r h2 h9 (fun i => st.getD i 0) rest m
    rw [arkF_ref, vec_getD t st hst] at hb
    exact stepN_block _ cd (ark E t r) pre post _ m _ m rfl hb
  · intro i hi
    rw [List.getElem?_append_left (by rw [refArk_length]; exact hi)]
    simp [refArk, List.getElem?_map, List.getElem?_range hi]
  · simp [refArk_length, hst]

/-- Witness of C8 at width 3, round 1. -/
theorem C8_witness :
    (2 ≤ 3 ∧ 3 ≤ 9 ∧ [10, 20, 30].length = 3)
      ∧ ∃ st', st'.length = 3
        ∧ stepN ([] ++ ark sampleExt 3 1 ++ []) [] (ark sampleExt 3 1).length
              ⟨0, [10, 20, 30] ++ q :: [5], fun _ => 0⟩
            = .ok ⟨0 + (ark sampleExt 3 1).length, st' ++ q :: [5], fun _ => 0⟩
        ∧ (∀ i, i < 3 → (st' ++ q :: [5])[i]?
            = some (([10, 20, 30].getD i 0 + sampleExt.K (3 - 2) (1 * 3 + i)) % q))
        ∧ (st' ++ q :: [5]).length = ([10, 20, 30] ++ q :: [5]).length
        ∧ (∀ op ∈ ark sampleExt 3 1, op ≠ mload ∧ op ≠ mstore) :=
  ⟨⟨by decide, by decide, by decide⟩,
    C8_ark sampleExt 3 1 [] (by decide) (by decide) [10, 20, 30] [5] (by decide) [] []
      (fun _ => 0)⟩

/-- C9: for every width in 2..9, every position `p < t` and every stack whose top
`t` slots are the state with `q` directly beneath, the code of `sigma(p)` leaves a
stack of the same height in which slot `p` holds
`((state[p]^2 mod q)^2 mod q) * state[p] mod q`, equal to `state[p]^5 mod q`;
every other slot, `q` included, keeps its value and place; the code contains
exactly three modular multiplications. -/
theorem C9_sigma (t p : Nat) (cd : List Nat) (h2 : 2 ≤ t) (h9 : t ≤ 9) (hp : p < t)
    (st rest : List Nat) (hst : st.length = t) (pre post : List Instr) (m : Nat → Nat) :
    stepN (pre ++ sigma t p ++ post) cd (sigma t p).length ⟨pre.length, st ++ q :: rest, m⟩
        = .ok ⟨pre.length + (sigma t p).length,
            st.set p ((st.getD p 0 ^ 2 % q) ^ 2 % q * st.getD p 0 % q) ++ q :: rest, m⟩
      ∧ (st.getD p 0 ^ 2 % q) ^ 2 % q * st.getD p 0 % q = st.getD p 0 ^ 5 % q
      ∧ (st.set p ((st.getD p 0 ^ 2 % q) ^ 2 % q * st.getD p 0 % q) ++ q :: rest).length
          = (st ++ q :: rest).length
      ∧ (sigma t p).count mulmod = 3 := by
  refine ⟨?_, ?_, by simp, rfl⟩
  · have hb := sigma_single_block (pre ++ sigma t p ++ post) cd t p h2 h9 hp
      (fun i => st.getD i 0) rest m
    have hv : vec t (fun i => if i = p then sigmaVal (st.getD i 0) else st.getD i 0)
        = st.set p (sigmaVal (st.getD p 0)) := by
      rw [← vec_set t p (sigmaVal (st.getD p 0)) st hst]
      apply vec_congr
      intro i _
      by_cases hip : i = p
      · simp [hip]
      · simp [hip]
    rw [hv, vec_getD t st hst, sigmaVal_eq_sq] at hb
    exact stepN_block _ cd (sigma t p) pre post _ m _ m rfl hb
  · rw [← sigmaVal_eq_sq, sigmaVal_eq, pow5]

/-- Witness of C9 at width 3, position 1. -/
theorem C9_witness :
    (2 ≤ 3 ∧ 3 ≤ 9 ∧ 1 < 3 ∧ [10, 20, 30].length = 3)
      ∧ stepN ([] ++ sigma 3 1 ++ []) [] (sigma 3 1).length
            ⟨0, [10, 20, 30] ++ q :: [5], fun _ => 0⟩
          = .ok ⟨0 + (sigma 3 1).length,
              [10, 20, 30].set 1
                (([10, 20, 30].getD 1 0 ^ 2 % q) ^ 2 % q * [10, 20, 30].getD 1 0 % q)
                ++ q :: [5], fun _ => 0⟩ :=
  ⟨⟨by decide, by decide, by decide, by decide⟩,
    (C9_sigma 3 1 [] (by decide) (by decide) (by decide) [10, 20, 30] [5] (by decide) [] []
      (fun _ => 0)).1⟩

/-- C10: for every width in 2..9, with `P` taken from the table
`(56,57,56,60,60,63,64,63)`, the round loop emits `8 + P` rounds (one call of
`mix` each); round `i` applies `sigma` to every position `0 .. t-1` exactly when
`i < 4` or `i ≥ P + 4`, and to position 0 only otherwise; so the full rounds are
the first four and the last four, `P` rounds are partial, and `sigma` is emitted
`8 * t + P` times (three modular multiplications each). -/
theorem C10_round_schedule (E : Ext) (t : Nat) (h2 : 2 ≤ t) (h9 : t ≤ 9) :
    nRoundsPOf t = [56, 57, 56, 60, 60, 63, 64, 63].getD (t - 2) 0
      ∧ rounds E t N_ROUNDS_F (nRoundsPOf t)
          = (List.range (8 + nRoundsPOf t)).flatMap (fun i =>
              ark E t i ++ (sigmaPositions t N_ROUNDS_F (nRoundsPOf t) i).flatMap (sigma t)
                ++ callMix i)
      ∧ (rounds E t N_ROUNDS_F (nRoundsPOf t)).count (jmp (some "mix")) = 8 + nRoundsPOf t
      ∧ (∀ i, sigmaPositions t N_ROUNDS_F (nRoundsPOf t) i
          = if i < 4 ∨ i ≥ nRoundsPOf t + 4 then List.range t else [0])
      ∧ (List.range (8 + nRoundsPOf t)).filter
            (fun i => (sigmaPositions t N_ROUNDS_F (nRoundsPOf t) i == List.range t))
          = [0, 1, 2, 3, nRoundsPOf t + 4, nRoundsPOf t + 5, nRoundsPOf t + 6, nRoundsPOf t + 7]
      ∧ ((List.range (8 + nRoundsPOf t)).filter
            (fun i => (sigmaPositions t N_ROUNDS_F (nRoundsPOf t) i == [0]))).length
          = nRoundsPOf t
      ∧ ((List.range (8 + nRoundsPOf t)).map
            (fun i => (sigmaPositions t N_ROUNDS_F (nRoundsPOf t) i).length)).sum
          = 8 * t + nRoundsPOf t
      ∧ (rounds E t N_ROUNDS_F (nRoundsPOf t)).count mulmod = 3 * (8 * t + nRoundsPOf t) := by
  have hsum : ((List.range (8 + nRoundsPOf t)).map
        fun i => (sigmaPositions t N_ROUNDS_F (nRoundsPOf t) i).length).sum
      = 8 * t + nRoundsPOf t := by
    interval_cases t <;> decide
  refine ⟨rfl, rfl, rounds_count_jmp E t _ _, ?_, ?_, ?_, hsum, ?_⟩
  · intro i
    simp only [sigmaPositions, isFullRound, N_ROUNDS_F]
    by_cases h : i < 4 ∨ i ≥ nRoundsPOf t + 4
    · rw [if_pos h]
      rcases h with h | h <;> simp [h]
    · rw [if_neg h]
      have h1 : ¬ i < 4 := fun hh => h (Or.inl hh)
      have h3 : ¬ i ≥ nRoundsPOf t + 4 := fun hh => h (Or.inr hh)
      simp [h1, h3]
  · interval_cases t <;> decide
  · interval_cases t <;> decide
  · rw [rounds_count_mulmod]
    have := hsum
    simp only [N_ROUNDS_F] at this ⊢
    rw [this]

/-- Witness of C10 at width 3, where `P = 57`. -/
theorem C10_witness :
    (2 ≤ 3 ∧ 3 ≤ 9)
      ∧ nRoundsPOf 3 = 57
      ∧ (rounds sampleExt 3 N_ROUNDS_F (nRoundsPOf 3)).count (jmp (some "mix")) = 8 + nRoundsPOf 3
      ∧ (rounds sampleExt 3 N_ROUNDS_F (nRoundsPOf 3)).count mulmod
          = 3 * (8 * 3 + nRoundsPOf 3) :=
  ⟨⟨by decide, by decide⟩, by decide,
    (C10_round_schedule sampleExt 3 (by decide) (by decide)).2.2.1,
    (C10_round_schedule sampleExt 3 (by decide) (by decide)).2.2.2.2.2.2.2⟩

/-- C11: for the widths 2 to 7, if memory holds `M[t-2][row][col]` at offset
`32 * (1 + row * t + col)` and the top `t` slots are the old state with `q`
directly beneath, then at the final load of the return address of `mix` the
stack has its entry height, `q` and everything below are unchanged, and slot
`row` holds the running-reduced sum of that row, which equals
`(sum over col of old[col] * M[row][col]) mod q`; no old state value is left.
For the widths 8 and 9, which the claim includes, the code of `mix` does not get
that far: after 377 steps (width 8: row 6, column 1) or 356 steps (width 9:
row 5, column 1) it is at the call `dup(2+i+t)` with operand 16, which the
machine does not have, and every longer run stops there. -/
theorem C11_mix_up_to_width_7 (E : Ext) (t : Nat) (cd : List Nat) (h2 : 2 ≤ t) (h9 : t ≤ 9)
    (st rest : List Nat) (hst : st.length = t) (pre post : List Instr) (m : Nat → Nat)
    (hM : ∀ row col, row < t → col < t → m (32 * (1 + row * t + col)) = E.M (t - 2) row col) :
    mix t = mixBody t ++ [push (.num 0), mload, jmp none]
      ∧ (t ≤ 7 →
          stepN (pre ++ mixBody t ++ post) cd (mixBody t).length
              ⟨pre.length, st ++ q :: rest, m⟩
            = .ok ⟨pre.length + (mixBody t).length,
                (List.range t).map (mixAcc E t st) ++ q :: rest, m⟩)
      ∧ (8 ≤ t → dup 16 ∈ mix t ∧ (dup 16).representable = false
          ∧ ∃ J s, (t = 8 → J = 377) ∧ (t = 9 → J = 356) ∧ J < (mixBody t).length
          ∧ stepN (pre ++ mixBody t ++ post) cd J ⟨pre.length, st ++ q :: rest, m⟩ = .ok s
          ∧ s.pc = pre.length + J
          ∧ (pre ++ mixBody t ++ post)[s.pc]? = some (dup 16)
          ∧ step (pre ++ mixBody t ++ post) cd s = .error .badOperand
          ∧ (∀ k, J < k →
              stepN (pre ++ mixBody t ++ post) cd k ⟨pre.length, st ++ q :: rest, m⟩
                = .error .badOperand))
      ∧ ((List.range t).map (mixAcc E t st) ++ q :: rest).length = (st ++ q :: rest).length
      ∧ (∀ row, row < t →
          ((List.range t).map (mixAcc E t st) ++ q :: rest)[row]? = some (mixAcc E t st row))
      ∧ (∀ row, row < t → mixAcc E t st row
          = ((List.range t).map fun col => st.getD col 0 * E.M (t - 2) row col).sum % q) := by
  have hv : vec t (mixF (memM t m) t (fun i => st.getD i 0)) = (List.range t).map (mixAcc E t st) :=
    vec_congr t _ _ (fun row hrow => mixF_eq_mixAcc E t st m hM row hrow)
  refine ⟨by simp [mix, mixBody], ?_, ?_, by simp [hst], ?_, ?_⟩
  · intro h7
    have hb := mixBody_block (pre ++ mixBody t ++ post) cd t h2 h7 (fun i => st.getD i 0) rest m
    rw [hv, vec_getD t st hst] at hb
    exact stepN_block _ cd (mixBody t) pre post _ m _ m rfl hb
  · intro h8
    obtain ⟨r, hpre, hop, hJ⟩ := mixBody_until_dup16 (pre ++ mixBody t ++ post) cd t h8 h9
      (fun i => st.getD i 0) rest m
    rw [vec_getD t st hst] at hpre
    obtain ⟨s, hs, hpc, hat, hf, hall⟩ := block_fail_at (pre ++ mixBody t ++ post) cd (mixBody t)
      pre post _ m _ r rfl hJ hpre hop
    refine ⟨?_, rfl, _, s, fun h => by rw [if_pos h], fun h => by rw [if_neg (by omega)], hJ, hs,
      hpc, hat, hf, hall⟩
    have hm : dup 16 ∈ mixBody t := List.mem_iff_getElem?.mpr ⟨_, hop⟩
    simp only [mix, mixBody] at hm ⊢
    exact List.mem_append_left _ hm
  · intro row hrow
    exact getElem?_vec_append t (mixAcc E t st) _ row hrow
  · intro row hrow
    rw [← mixF_eq_mixAcc E t st m hM row hrow, mixF_eq_sum _ t (by omega)]
    congr 2
    apply List.map_congr_left
    intro col hcol
    have h := hM row col hrow (List.mem_range.mp hcol)
    rw [Nat.mul_comm 32] at h
    rw [memM, h]

/-- Witness of C11: at width 8, on a memory holding the sample matrix, the code
stops at `dup(16)` after 377 steps; at width 2 it leaves the mixed state. -/
theorem C11_witness :
    ((2 ≤ 8 ∧ 8 ≤ 9 ∧ [1, 2, 3, 4, 5, 6, 7, 8].length = 8
        ∧ ∀ row col, row < 8 → col < 8 →
            sampleMem8 (32 * (1 + row * 8 + col)) = sampleExt.M (8 - 2) row col)
      ∧ ∃ J s, (8 = 8 → J = 377)
        ∧ stepN ([] ++ mixBody 8 ++ []) [] J ⟨0, [1, 2, 3, 4, 5, 6, 7, 8] ++ q :: [5], sampleMem8⟩
            = .ok s
        ∧ ([] ++ mixBody 8 ++ [])[s.pc]? = some (dup 16)
        ∧ step ([] ++ mixBody 8 ++ []) [] s = .error .badOperand)
    ∧ ((2 ≤ 2 ∧ 2 ≤ 9 ∧ [10, 20].length = 2
        ∧ ∀ row col, row < 2 → col < 2 →
            sampleMem (32 * (1 + row * 2 + col)) = sampleExt.M (2 - 2) row col)
      ∧ stepN ([] ++ mixBody 2 ++ []) [] (mixBody 2).length ⟨0, [10, 20] ++ q :: [5], sampleMem⟩
          = .ok ⟨0 + (mixBody 2).length,
              (List.range 2).map (mixAcc sampleExt 2 [10, 20]) ++ q :: [5], sampleMem⟩) :=
  ⟨⟨⟨by decide, by decide, by decide,
      fun row col hr hc => by interval_cases row <;> interval_cases col <;> rfl⟩, by
      obtain ⟨_, _, J, s, hJ, _, _, hs, _, hat, hf, _⟩ :=
        (C11_mix_up_to_width_7 sampleExt 8 [] (by decide) (by decide) [1, 2, 3, 4, 5, 6, 7, 8] [5]
          (by decide) [] [] sampleMem8
          (fun row col hr hc => by interval_cases row <;> interval_cases col <;> rfl)).2.2.1
          (by decide)
      exact ⟨J, s, hJ, hs, hat, hf⟩⟩,
    ⟨⟨by decide, by decide, by decide,
      fun row col hr hc => by interval_cases row <;> interval_cases col <;> rfl⟩,
    (C11_mix_up_to_width_7 sampleExt 2 [] (by decide) (by decide) [10, 20] [5] (by decide) [] []
      sampleMem
      (fun row col hr hc => by interval_cases row <;> interval_cases col <;> rfl)).2.1
      (by decide)⟩⟩

/-- C12: for every arity in 1..8 the code emitted after the last round stores the
top stack slot into memory word 0 and returns the 32 bytes of that word: the
return data is the 32-byte big-endian encoding of the top slot, whatever the
other slots hold. -/
theorem C12_finalize (E : Ext) (n : Nat) (cd : List Nat) (hn1 : 1 ≤ n) (hn8 : n ≤ 8)
    (x : Nat) (r : List Nat) (m : Nat → Nat) :
    (createCode E (n : Int)).calls
        = upTo E n (N_ROUNDS_F + nRoundsPOf (n + 1)) ++ finish ++ mix (n + 1)
      ∧ stepN (createCode E (n : Int)).calls cd 2
            ⟨(upTo E n (N_ROUNDS_F + nRoundsPOf (n + 1))).length, x :: r, m⟩
          = .ok ⟨(upTo E n (N_ROUNDS_F + nRoundsPOf (n + 1))).length + 2, r, memStore m 0 x⟩
      ∧ memStore m 0 x 0 = x
      ∧ (∀ k, run (createCode E (n : Int)).calls cd (5 + k)
            ⟨(upTo E n (N_ROUNDS_F + nRoundsPOf (n + 1))).length, x :: r, m⟩
          = some (.returned (wordBytes x)))
      ∧ (wordBytes x).length = 32
      ∧ (∀ b ∈ wordBytes x, b < 256)
      ∧ (x < 2 ^ 256 → calldataWord (wordBytes x) 0 = x) := by
  rw [createCode_calls E n hn1 hn8]
  refine ⟨instrs_eq E n, finish_store E n cd x r m, by simp [memStore], ?_, wordBytes_length x,
    wordBytes_lt x, ?_⟩
  · intro k
    exact run_mono _ _ 5 k _ _ (finish_exec E n cd x r m)
  · intro hx
    have := calldataWord_wordBytes x hx []
    simpa using this

/-- Witness of C12 at arity 2 with 7 on top of the stack. -/
theorem C12_witness :
    (1 ≤ 2 ∧ 2 ≤ 8)
      ∧ (∀ k, run (createCode sampleExt ((2 : Nat) : Int)).calls [] (5 + k)
            ⟨(upTo sampleExt 2 (N_ROUNDS_F + nRoundsPOf (2 + 1))).length, 7 :: [8, 9, q],
              fun _ => 0⟩
          = some (.returned (wordBytes 7)))
      ∧ wordBytes 7 = List.replicate 31 0 ++ [7] :=
  ⟨⟨by decide, by decide⟩,
    (C12_finalize sampleExt 2 [] (by decide) (by decide) 7 [8, 9, q] (fun _ => 0)).2.2.2.1,
    by decide⟩

/-- C13: for every arity in 1..8 and every call data with an accepted selector the
stack right after the set-up holds exactly `t + 1` slots, the initial state in
index order on top and `q` directly beneath; for the arities 1 to 6 the same
holds right after the resumption label of each round (`i` rounds completed,
`i ≤ 8 + partialRounds(t)`), with the state after `i` reference rounds.  For the
arities 7 and 8, which the claim includes, `createCode` returns no bytes and no
round of its calls completes: the position after the resumption label of a
round is never reached, because the first call of `mix` stops at `dup(16)`. -/
theorem C13_stack_invariant_up_to_arity_6 (E : Ext) (n : Nat) (cd : List Nat)
    (hn1 : 1 ≤ n) (hn8 : n ≤ 8) (h : Accepted E n cd) (i : Nat)
    (hi : i ≤ 8 + nRoundsPOf (n + 1)) :
    (i = 0 ∨ n ≤ 6 →
        ∃ k st m, stepN (createCode E (n : Int)).calls cd k initState
            = .ok ⟨(upTo E n i).length, st ++ [q], m⟩
          ∧ st = (List.range i).foldl (refRound E (n + 1)) (initialState n cd)
          ∧ st.length = n + 1
          ∧ (st ++ [q]).length = (n + 1) + 1)
      ∧ (7 ≤ n → 1 ≤ i →
          (∀ bytes, (createCode E (n : Int)).result ≠ .ok bytes)
          ∧ (∀ k s, stepN (createCode E (n : Int)).calls cd k initState = .ok s →
            s.pc ≠ (upTo E n i).length)
          ∧ ∃ K s, stepN (createCode E (n : Int)).calls cd K initState = .ok s
              ∧ (createCode E (n : Int)).calls[s.pc]? = some (dup 16)
              ∧ step (createCode E (n : Int)).calls cd s = .error .badOperand)
      ∧ upTo E n 0
          = checkSelector E n ++ [label "start"] ++ saveM E (n + 1) ++ loadState n
      ∧ (∀ j, upTo E n (j + 1)
          = upTo E n j ++ roundData E (n + 1) N_ROUNDS_F (nRoundsPOf (n + 1)) j
              ++ [jmp (some "mix"), label (strLabel j)])
      ∧ ∃ post, (createCode E (n : Int)).calls = upTo E n i ++ post := by
  have hlen := foldl_refRound_length E (n + 1) (initialState n cd) (initialState_length n cd) i
  refine ⟨?_, ?_, ?_, ?_, ?_⟩
  · intro hc
    rw [createCode_calls E n hn1 hn8]
    rcases hc with h0 | hn6
    · subst h0
      obtain ⟨k, m, hk⟩ := reach_setup E n cd hn1 hn8 h
      exact ⟨k, _, m, hk, rfl, initialState_length n cd, by simp [initialState_length]⟩
    · obtain ⟨k, m, hk⟩ := reach_round E n cd hn1 hn6 h i hi
      exact ⟨k, _, m, hk, rfl, hlen, by simp [hlen]⟩
  · intro hn7 hi1
    refine ⟨createCode_no_bytes E n hn7 hn8,
      fun k s hs => exec_fail_unreached E n cd hn7 hn8 h i hi1 hi k s hs, ?_⟩
    obtain ⟨K, s, hs, hat, hf, _⟩ := exec_fail_at E n cd hn7 hn8 h
    exact ⟨K, s, hs, hat, hf⟩
  · rw [upTo_zero]; rfl
  · intro j
    rw [upTo_succ, round_eq, List.append_assoc]
  · rw [createCode_calls E n hn1 hn8]
    obtain ⟨post, hp⟩ := upTo_extend E n i (N_ROUNDS_F + nRoundsPOf (n + 1) - i)
    have he : i + (N_ROUNDS_F + nRoundsPOf (n + 1) - i) = N_ROUNDS_F + nRoundsPOf (n + 1) := by
      have : N_ROUNDS_F = 8 := rfl
      omega
    rw [he] at hp
    exact ⟨post ++ finish ++ mix (n + 1), by rw [instrs_eq, hp]; simp⟩

/-- Witness of C13: at arity 7 the position after round 0 is never reached; at
arity 2 the invariant holds after three rounds on the sample call data. -/
theorem C13_witness :
    ((1 ≤ 7 ∧ 7 ≤ 8 ∧ Accepted sampleExt 7 sampleCall7 ∧ 1 ≤ 8 + nRoundsPOf (7 + 1))
      ∧ ∀ k s, stepN (createCode sampleExt ((7 : Nat) : Int)).calls sampleCall7 k initState
          = .ok s → s.pc ≠ (upTo sampleExt 7 1).length)
    ∧ ((1 ≤ 2 ∧ 2 ≤ 8 ∧ Accepted sampleExt 2 sampleCallU ∧ 3 ≤ 8 + nRoundsPOf (2 + 1))
      ∧ ∃ k st m, stepN (createCode sampleExt ((2 : Nat) : Int)).calls sampleCallU k initState
            = .ok ⟨(upTo sampleExt 2 3).length, st ++ [q], m⟩
          ∧ st = (List.range 3).foldl (refRound sampleExt (2 + 1)) (initialState 2 sampleCallU)
          ∧ st.length = 2 + 1) :=
  ⟨⟨⟨by decide, by decide, by unfold Accepted; decide, by decide⟩,
      ((C13_stack_invariant_up_to_arity_6 sampleExt 7 sampleCall7 (by decide) (by decide)
        (by unfold Accepted; decide) 1 (by decide)).2.1 (by decide) (by decide)).2.1⟩,
    ⟨⟨by decide, by decide, by unfold Accepted; decide, by decide⟩, by
      obtain ⟨k, st, m, h1, h2, h3, _⟩ :=
        (C13_stack_invariant_up_to_arity_6 sampleExt 2 sampleCallU (by decide) (by decide)
          (by unfold Accepted; decide) 3 (by decide)).1 (Or.inr (by decide))
      exact ⟨k, st, m, h1, h2, h3⟩⟩⟩

/-- C14: for every arity in 1..8 the emitted stream defines `mix` exactly once
and holds exactly `8 + partialRounds(t)` jumps to it, one in each round; the
resumption labels `"aferMix" ++ i` are pairwise distinct and each is defined
exactly once; and every label pushed or jumped to is defined in the stream. -/
theorem C14_labels_and_call_sites (E : Ext) (n : Nat) (hn1 : 1 ≤ n) (hn8 : n ≤ 8) :
    (createCode E (n : Int)).calls.count (label "mix") = 1
      ∧ (createCode E (n : Int)).calls.count (jmp (some "mix")) = 8 + nRoundsPOf (n + 1)
      ∧ (∀ i, (round E (n + 1) N_ROUNDS_F (nRoundsPOf (n + 1)) i).count (jmp (some "mix")) = 1)
      ∧ (∀ i, strLabel i = "aferMix" ++ toString i)
      ∧ (∀ i j, strLabel i = strLabel j → i = j)
      ∧ (∀ i, i < 8 + nRoundsPOf (n + 1) →
          (createCode E (n : Int)).calls.count (label (strLabel i)) = 1)
      ∧ (createCode E (n : Int)).calls.count (label "start") = 1
      ∧ (∀ l, (pushLabel l ∈ (createCode E (n : Int)).calls
              ∨ jmp (some l) ∈ (createCode E (n : Int)).calls
              ∨ jmpi (some l) ∈ (createCode E (n : Int)).calls) →
            label l ∈ (createCode E (n : Int)).calls) := by
  rw [createCode_calls E n hn1 hn8]
  refine ⟨count_label_mix E n, count_jmp_mix E n, fun i => round_count_jmp E _ _ _ i,
    fun _ => rfl, strLabel_injective, fun i hi => count_label_strLabel E n i hi,
    count_label_start E n, ?_⟩
  intro l hl
  rcases referenced_label E n l hl with rfl | rfl | ⟨i, hi, rfl⟩
  · exact mem_of_count_pos _ _ (by rw [count_label_start]; omega)
  · exact mem_of_count_pos _ _ (by rw [count_label_mix]; omega)
  · exact mem_of_count_pos _ _ (by rw [count_label_strLabel E n i hi]; omega)

/-- Witness of C14 at arity 2, where `8 + partialRounds(3) = 65`. -/
theorem C14_witness :
    (1 ≤ 2 ∧ 2 ≤ 8)
      ∧ (createCode sampleExt ((2 : Nat) : Int)).calls.count (label "mix") = 1
      ∧ (createCode sampleExt ((2 : Nat) : Int)).calls.count (jmp (some "mix")) = 65 :=
  ⟨⟨by decide, by decide⟩,
    (C14_labels_and_call_sites sampleExt 2 (by decide) (by decide)).1,
    (C14_labels_and_call_sites sampleExt 2 (by decide) (by decide)).2.1⟩

/-- C15: for the arities 1 to 6 and every call data whose leading four bytes are
an accepted dispatch code, execution ends at the return instruction after
finitely many steps, and no run, whatever its fuel, stops in an error state:
no stack underflow, no jump to a position that is not a label definition, no
abort, no unaligned access, no running past the end of the stream, no operand
outside the range of the machine.  For the arities 7 and 8, which the claim
includes, `createCode` returns no bytes, and a run of its calls reaches an error
state: it stops at the call `dup(16)` of `mix`, at position 5957 of the stream for arity 7 and 6446 for arity 8, and
never reaches the return instruction. -/
theorem C15_no_error_state_up_to_arity_6 (E : Ext) (n : Nat) (cd : List Nat)
    (hn1 : 1 ≤ n) (hn8 : n ≤ 8) (h : Accepted E n cd) :
    (n ≤ 6 → ∃ fuel data,
        (∀ k, run (createCode E (n : Int)).calls cd (fuel + k) initState
          = some (.returned data))
        ∧ (∀ f, run (createCode E (n : Int)).calls cd f initState = none
            ∨ run (createCode E (n : Int)).calls cd f initState = some (.returned data))
        ∧ (∀ f, run (createCode E (n : Int)).calls cd f initState ≠ some .stackUnderflow
            ∧ run (createCode E (n : Int)).calls cd f initState ≠ some .badJump
            ∧ run (createCode E (n : Int)).calls cd f initState ≠ some .invalid
            ∧ run (createCode E (n : Int)).calls cd f initState ≠ some .unaligned
            ∧ run (createCode E (n : Int)).calls cd f initState ≠ some .codeEnd
            ∧ run (createCode E (n : Int)).calls cd f initState ≠ some .badOperand))
      ∧ (7 ≤ n → (∀ bytes, (createCode E (n : Int)).result ≠ .ok bytes) ∧ ∃ K s,
          stepN (createCode E (n : Int)).calls cd K initState = .ok s
          ∧ (createCode E (n : Int)).calls[s.pc]? = some (dup 16)
          ∧ step (createCode E (n : Int)).calls cd s = .error .badOperand
          ∧ (n = 7 → s.pc = 5957)
          ∧ (n = 8 → s.pc = 6446)
          ∧ (∀ k, run (createCode E (n : Int)).calls cd (K + 1 + k) initState
              = some .badOperand)
          ∧ (∀ f out, run (createCode E (n : Int)).calls cd f initState
              ≠ some (.returned out))) := by
  refine ⟨fun hn6 => ?_, fun hn7 => ?_⟩
  · obtain ⟨fuel, hf⟩ := exec_accept_mono E n cd hn1 hn6 h
    have hall : ∀ f, run (createCode E (n : Int)).calls cd f initState = none
        ∨ run (createCode E (n : Int)).calls cd f initState
            = some (.returned (wordBytes
                ((refPermutation E (n + 1) (initialState n cd)).getD 0 0))) := by
      intro f
      cases hr : run (createCode E (n : Int)).calls cd f initState with
      | none => exact Or.inl rfl
      | some hh =>
        right
        have h1 := run_mono _ _ f fuel _ _ hr
        rw [Nat.add_comm, hf f] at h1
        exact h1.symm
    refine ⟨fuel, _, hf, hall, ?_⟩
    intro f
    rcases hall f with h0 | h0 <;> rw [h0] <;> simp
  · obtain ⟨K, s, hs, hat, hf, h7, h8, hrun⟩ := exec_fail_at E n cd hn7 hn8 h
    exact ⟨createCode_no_bytes E n hn7 hn8, K, s, hs, hat, hf, h7, h8, hrun,
      exec_fail_no_return E n cd hn7 hn8 h⟩

/-- Witness of C15: at arity 7 the run stops at position 5957, the call
`dup(16)`; at arity 2 on the sample call data it returns. -/
theorem C15_witness :
    ((1 ≤ 7 ∧ 7 ≤ 8 ∧ Accepted sampleExt 7 sampleCall7)
      ∧ ∃ K s, stepN (createCode sampleExt ((7 : Nat) : Int)).calls sampleCall7 K initState
            = .ok s
          ∧ s.pc = 5957
          ∧ (createCode sampleExt ((7 : Nat) : Int)).calls[s.pc]? = some (dup 16)
          ∧ step (createCode sampleExt ((7 : Nat) : Int)).calls sampleCall7 s
              = .error .badOperand)
    ∧ ((1 ≤ 2 ∧ 2 ≤ 8 ∧ Accepted sampleExt 2 sampleCallU)
      ∧ ∃ fuel data, (∀ k, run (createCode sampleExt ((2 : Nat) : Int)).calls sampleCallU
            (fuel + k) initState = some (.returned data))
          ∧ (∀ f, run (createCode sampleExt ((2 : Nat) : Int)).calls sampleCallU f initState
                = none
              ∨ run (createCode sampleExt ((2 : Nat) : Int)).calls sampleCallU f initState
                = some (.returned data))) :=
  ⟨⟨⟨by decide, by decide, by unfold Accepted; decide⟩, by
      obtain ⟨_, K, s, h1, h2, h3, h4, _⟩ :=
        (C15_no_error_state_up_to_arity_6 sampleExt 7 sampleCall7 (by decide) (by decide)
          (by unfold Accepted; decide)).2 (by decide)
      exact ⟨K, s, h1, h4 rfl, h2, h3⟩⟩,
    ⟨⟨by decide, by decide, by unfold Accepted; decide⟩, by
      obtain ⟨fuel, data, h1, h2, _⟩ :=
        (C15_no_error_state_up_to_arity_6 sampleExt 2 sampleCallU (by decide) (by decide)
          (by unfold Accepted; decide)).1 (by decide)
      exact ⟨fuel, data, h1, h2⟩⟩⟩

/-- C16: for every arity in 1..8 and every round `i`, the round stores the address
of its own resumption label into memory word 0 and jumps to `mix`; `mix` holds
no store, and the matrix offsets are at least 32 and distinct for distinct
`(row, col)`.  For the arities 1 to 6 the emulated call returns to its caller:
every step up to the closing jump of `mix` is inside `mix` and leaves memory as
it was at the jump, and the closing indirect jump lands on the resumption label
of round `i`, which directly precedes round `i + 1`.  For the arities 7 and 8,
which the claim includes, `createCode` returns no bytes and the call does not
return: execution stops inside `mix` at the call `dup(16)`, and the resumption
label is never reached. -/
theorem C16_call_returns_up_to_arity_6 (E : Ext) (n : Nat) (cd : List Nat)
    (hn1 : 1 ≤ n) (hn8 : n ≤ 8) (i : Nat) (hi : i < 8 + nRoundsPOf (n + 1))
    (f : Nat → Nat) (m : Nat → Nat) :
    ∃ a g g',
      labelAddr (createCode E (n : Int)).calls (strLabel i) = some a
      ∧ (createCode E (n : Int)).calls[a]? = some (label (strLabel i))
      ∧ a + 1 = (upTo E n (i + 1)).length
      ∧ roundData E (n + 1) N_ROUNDS_F (nRoundsPOf (n + 1)) i
          = ark E (n + 1) i
            ++ (sigmaPositions (n + 1) N_ROUNDS_F (nRoundsPOf (n + 1)) i).flatMap (sigma (n + 1))
            ++ [pushLabel (strLabel i), push (.num 0), mstore]
      ∧ stepN (createCode E (n : Int)).calls cd
            (roundData E (n + 1) N_ROUNDS_F (nRoundsPOf (n + 1)) i).length
            ⟨(upTo E n i).length, vec (n + 1) f ++ [q], m⟩
          = .ok ⟨(upTo E n i).length
              + (roundData E (n + 1) N_ROUNDS_F (nRoundsPOf (n + 1)) i).length,
              vec (n + 1) g ++ [q], memStore m 0 a⟩
      ∧ memStore m 0 a 0 = a
      ∧ (createCode E (n : Int)).calls[(upTo E n i).length
            + (roundData E (n + 1) N_ROUNDS_F (nRoundsPOf (n + 1)) i).length]?
          = some (jmp (some "mix"))
      ∧ mstore ∉ mix (n + 1)
      ∧ (∃ pre, (createCode E (n : Int)).calls = pre ++ mix (n + 1)
          ∧ pre.length = (upTo E n (8 + nRoundsPOf (n + 1))).length + finish.length)
      ∧ (n ≤ 6 →
          (∀ j, j ≤ (mixData (n + 1)).length →
            ∃ st1, stepN (createCode E (n : Int)).calls cd (1 + j)
              ⟨(upTo E n i).length
                + (roundData E (n + 1) N_ROUNDS_F (nRoundsPOf (n + 1)) i).length,
                vec (n + 1) g ++ [q], memStore m 0 a⟩
            = .ok ⟨(upTo E n (8 + nRoundsPOf (n + 1))).length + finish.length + j, st1,
                memStore m 0 a⟩)
          ∧ stepN (createCode E (n : Int)).calls cd (1 + (mixData (n + 1)).length + 1)
              ⟨(upTo E n i).length
                + (roundData E (n + 1) N_ROUNDS_F (nRoundsPOf (n + 1)) i).length,
                vec (n + 1) g ++ [q], memStore m 0 a⟩
            = .ok ⟨a, vec (n + 1) g' ++ [q], memStore m 0 a⟩)
      ∧ (7 ≤ n → (∀ bytes, (createCode E (n : Int)).result ≠ .ok bytes) ∧ ∃ K s,
          stepN (createCode E (n : Int)).calls cd K
              ⟨(upTo E n i).length, vec (n + 1) f ++ [q], m⟩ = .ok s
          ∧ (createCode E (n : Int)).calls[s.pc]? = some (dup 16)
          ∧ step (createCode E (n : Int)).calls cd s = .error .badOperand
          ∧ (∀ k, K < k →
              stepN (createCode E (n : Int)).calls cd k
                ⟨(upTo E n i).length, vec (n + 1) f ++ [q], m⟩ = .error .badOperand)
          ∧ (∀ k s1, stepN (createCode E (n : Int)).calls cd k
                ⟨(upTo E n i).length, vec (n + 1) f ++ [q], m⟩ = .ok s1 → s1.pc ≠ a))
      ∧ (∀ row col, row < n + 1 → col < n + 1 → 32 ≤ 32 * (1 + row * (n + 1) + col))
      ∧ (∀ r c r' c', c < n + 1 → c' < n + 1 →
          32 * (1 + r * (n + 1) + c) = 32 * (1 + r' * (n + 1) + c') → r = r' ∧ c = c') := by
  have hnb : 7 ≤ n → ∀ bytes, (createCode E (n : Int)).result ≠ .ok bytes :=
    fun hn7 => createCode_no_bytes E n hn7 hn8
  generalize (createCode E (n : Int)).result = res at hnb
  rw [createCode_calls E n hn1 hn8]
  have h8 : (8 : Nat) = N_ROUNDS_F := rfl
  rw [h8] at hi ⊢
  obtain ⟨post, hsplit⟩ := instrs_round E n i hi
  rw [round_eq] at hsplit
  have hblk := roundData_block E n cd hn1 hn8 i hi f m
  have s1 := stepN_block (instrs E n) cd (roundData E (n + 1) N_ROUNDS_F (nRoundsPOf (n + 1)) i)
    (upTo E n i) ([jmp (some "mix"), label (strLabel i)] ++ post) _ _ _ _
    (by rw [hsplit]; simp) hblk
  have hjmp : (instrs E n)[(upTo E n i).length
      + (roundData E (n + 1) N_ROUNDS_F (nRoundsPOf (n + 1)) i).length]?
      = some (jmp (some "mix")) :=
    getElem?_at _ (upTo E n i ++ roundData E (n + 1) N_ROUNDS_F (nRoundsPOf (n + 1)) i)
      (label (strLabel i) :: post) _ _ (by rw [hsplit]; simp) (by simp)
  refine ⟨_, _, mixF (memM (n + 1) m) (n + 1)
      (sboxF (isFullRound N_ROUNDS_F (nRoundsPOf (n + 1)) i) (arkF E (n + 1) i f)),
    labelAddr_strLabel E n i hi, ?_, ?_, rfl, s1, by simp [memStore], hjmp,
    mstore_not_mem_mix (n + 1), ⟨_, by rw [instrs_eq], by simp⟩, ?_, ?_, ?_, ?_⟩
  · exact getElem?_at _
      (upTo E n i ++ roundData E (n + 1) N_ROUNDS_F (nRoundsPOf (n + 1)) i ++ [jmp (some "mix")])
      post _ _ (by rw [hsplit]; simp) (by simp [Nat.add_assoc])
  · rw [upTo_succ, round_eq]
    simp [Nat.add_assoc]
  · intro hn6
    obtain ⟨_, c2, c3⟩ := call_stages E n cd hn1 hn6 i hi
      (sboxF (isFullRound N_ROUNDS_F (nRoundsPOf (n + 1)) i) (arkF E (n + 1) i f)) m
    exact ⟨c2, c3⟩
  · intro hn7
    exact ⟨hnb hn7, round_fail_call E n cd hn7 hn8 i hi f m⟩
  · intro row col _ _
    omega
  · intro r c r' c' hc hc' he
    exact offset_inj (n + 1) r c r' c' hc hc' (by omega)

/-- Witness of C16: at arity 7, round 0, from the state `(1, ..., 8)` the call of
`mix` stops at `dup(16)`; at arity 2, round 5, the resumption label is where the
round ends. -/
theorem C16_witness :
    ((1 ≤ 7 ∧ 7 ≤ 8 ∧ 0 < 8 + nRoundsPOf (7 + 1))
      ∧ ∃ a, labelAddr (createCode sampleExt ((7 : Nat) : Int)).calls (strLabel 0) = some a
          ∧ ∃ K s, stepN (createCode sampleExt ((7 : Nat) : Int)).calls [] K
                ⟨(upTo sampleExt 7 0).length, vec (7 + 1) (fun k => k + 1) ++ [q], fun _ => 0⟩
              = .ok s
            ∧ (createCode sampleExt ((7 : Nat) : Int)).calls[s.pc]? = some (dup 16)
            ∧ step (createCode sampleExt ((7 : Nat) : Int)).calls [] s = .error .badOperand
            ∧ (∀ k s1, stepN (createCode sampleExt ((7 : Nat) : Int)).calls [] k
                ⟨(upTo sampleExt 7 0).length, vec (7 + 1) (fun k => k + 1) ++ [q], fun _ => 0⟩
              = .ok s1 → s1.pc ≠ a))
    ∧ ((1 ≤ 2 ∧ 2 ≤ 8 ∧ 5 < 8 + nRoundsPOf (2 + 1))
      ∧ ∃ a, labelAddr (createCode sampleExt ((2 : Nat) : Int)).calls (strLabel 5) = some a
          ∧ (createCode sampleExt ((2 : Nat) : Int)).calls[a]? = some (label (strLabel 5))
          ∧ a + 1 = (upTo sampleExt 2 (5 + 1)).length) :=
  ⟨⟨⟨by decide, by decide, by decide⟩, by
      obtain ⟨a, _, _, h1, _, _, _, _, _, _, _, _, _, h7, _⟩ :=
        C16_call_returns_up_to_arity_6 sampleExt 7 [] (by decide) (by decide) 0 (by decide)
          (fun k => k + 1) (fun _ => 0)
      obtain ⟨_, K, s, hs, hat, hf, _, hun⟩ := h7 (by decide)
      exact ⟨a, h1, K, s, hs, hat, hf, hun⟩⟩,
    ⟨⟨by decide, by decide, by decide⟩, by
      obtain ⟨a, _, _, h1, h2, h3, _⟩ :=
        C16_call_returns_up_to_arity_6 sampleExt 2 [] (by decide) (by decide) 5 (by decide)
          (fun _ => 0) (fun _ => 0)
      exact ⟨a, h1, h2, h3⟩⟩⟩

/-- C17: the depth operands of `createCode(7)` and `createCode(8)` leave the range
of the machine: the stream for arity 7 holds `dup(17)`, the stream for arity 8
holds `dup(19)` and `swap(17)`, so for these arities it is false that every
duplicate operand is at most 15 and every swap operand at most 16; in the byte
encoding `dup(17)` is the byte of `swap(2)`.  The first call with an operand
outside the range is, for both arities, a `dup(16)` (the call `dup(2+i+t)` of
`mix`): at position 5957 of the stream for arity 7 (row 6, column 1) and at
position 6446 for arity 8 (row 5, column 1); every depth operand before it is
within the range. -/
theorem C17_depth_operands_exceed_range (E : Ext) :
    dup 17 ∈ (createCode E 7).calls
      ∧ dup 19 ∈ (createCode E 8).calls
      ∧ swap 17 ∈ (createCode E 8).calls
      ∧ ¬ (∀ d, dup d ∈ (createCode E 7).calls → 0 ≤ d ∧ d ≤ 15)
      ∧ ¬ (∀ s, swap s ∈ (createCode E 8).calls → 1 ≤ s ∧ s ≤ 16)
      ∧ encode (createCode E 7).calls (dup 17) = encode (createCode E 7).calls (swap 2)
      ∧ (createCode E 7).calls[5957]? = some (dup 16)
      ∧ (∀ k, k < 5957 → ∀ op, (createCode E 7).calls[k]? = some op → op.depthOk = true)
      ∧ (createCode E 8).calls[6446]? = some (dup 16)
      ∧ (∀ k, k < 6446 → ∀ op, (createCode E 8).calls[k]? = some op → op.depthOk = true)
      ∧ (dup 16).depthOk = false := by
  have c7 : (createCode E 7).calls = instrs E 7 := createCode_calls E 7 (by omega) (by omega)
  have c8 : (createCode E 8).calls = instrs E 8 := createCode_calls E 8 (by omega) (by omega)
  have h7 : dup 17 ∈ instrs E 7 := dup_max_mem E 7 (by omega)
  have h8 : dup 19 ∈ instrs E 8 := dup_max_mem E 8 (by omega)
  have s8 : swap 17 ∈ instrs E 8 := swap_max_mem E 8
  have a7 := instrs_failAt E 7 (by omega) (by omega)
  have a8 := instrs_failAt E 8 (by omega) (by omega)
  have b7 := depthOk_before_failAt E 7 (by omega) (by omega)
  have b8 := depthOk_before_failAt E 8 (by omega) (by omega)
  rw [failAt_7] at a7 b7
  rw [failAt_8] at a8 b8
  rw [c7, c8]
  refine ⟨h7, h8, s8, ?_, ?_, rfl, a7, b7, a8, b8, rfl⟩
  · intro h
    have := (h 17 h7).2
    omega
  · intro h
    have := (h 17 s8).2
    omega

/-- C18: for the arities 1 to 6 and every call data with an accepted selector,
whatever 256-bit values the initial capacity word and the input words hold, the
program returns a value `v < q`, and it returns the same `v` on every accepted
call data whose words are the residues modulo `q` of those words; such call
data exists, so unreduced inputs are not rejected and matter only modulo `q`.
For the arities 7 and 8, which the claim includes, there is no output at all:
`createCode` returns no bytes, and neither on the call data nor on the call
data with reduced words does a run of its calls return; both runs stop at the
call `dup(16)` of `mix`. -/
theorem C18_unreduced_inputs_up_to_arity_6 (E : Ext) (n : Nat) (cd : List Nat)
    (hn1 : 1 ≤ n) (hn8 : n ≤ 8) (h : Accepted E n cd) :
    Accepted E n (reducedCall n cd)
      ∧ initialState n (reducedCall n cd) = (initialState n cd).map (· % q)
      ∧ (n ≤ 6 → ∃ v, v < q
          ∧ v = (refPermutation E (n + 1) ((initialState n cd).map (· % q))).getD 0 0
          ∧ (∃ fuel, ∀ k, run (createCode E (n : Int)).calls cd (fuel + k) initState
                = some (.returned (wordBytes v)))
          ∧ (∀ cd', Accepted E n cd' → initialState n cd' = (initialState n cd).map (· % q) →
              ∃ fuel, ∀ k, run (createCode E (n : Int)).calls cd' (fuel + k) initState
                = some (.returned (wordBytes v))))
      ∧ (7 ≤ n →
          (∀ bytes, (createCode E (n : Int)).result ≠ .ok bytes)
          ∧ (∃ fuel, ∀ k, run (createCode E (n : Int)).calls cd (fuel + k) initState
              = some .badOperand)
          ∧ (∃ fuel, ∀ k, run (createCode E (n : Int)).calls (reducedCall n cd) (fuel + k)
              initState = some .badOperand)
          ∧ (∀ f out, run (createCode E (n : Int)).calls cd f initState ≠ some (.returned out)
              ∧ run (createCode E (n : Int)).calls (reducedCall n cd) f initState
                ≠ some (.returned out))) := by
  have hred : Accepted E n (reducedCall n cd) := by
    unfold Accepted at h ⊢
    rw [selector_reducedCall]
    exact h
  refine ⟨hred, initialState_reducedCall n cd, fun hn6 => ?_, fun hn7 => ?_⟩
  · refine ⟨_, refPermutation_lt E (n + 1) (by omega) _, rfl, ?_, ?_⟩
    · rw [refPermutation_mod]
      exact exec_accept_mono E n cd hn1 hn6 h
    · intro cd' h' hst
      exact exec_output E n cd' hn1 hn6 h' _ hst
  · exact ⟨createCode_no_bytes E n hn7 hn8,
      exec_fail_run E n cd hn7 hn8 h, exec_fail_run E n _ hn7 hn8 hred,
      fun f out => ⟨exec_fail_no_return E n cd hn7 hn8 h f out,
        exec_fail_no_return E n _ hn7 hn8 hred f out⟩⟩

set_option maxRecDepth 100000 in
/-- Witness of C18: arity 7 with state `(q + 1, 2, ..., 8)`, on which nothing is
returned; arity 2 with state `(q + 1, 2, 3)`, whose residues are the state
`(1, 2, 3)` of the sample call data. -/
theorem C18_witness :
    ((1 ≤ 7 ∧ 7 ≤ 8 ∧ Accepted sampleExt 7 sampleCall7Big)
      ∧ initialState 7 sampleCall7Big = [q + 1, 2, 3, 4, 5, 6, 7, 8]
      ∧ ∃ fuel, ∀ k, run (createCode sampleExt ((7 : Nat) : Int)).calls sampleCall7Big
            (fuel + k) initState = some .badOperand)
    ∧ ((1 ≤ 2 ∧ 2 ≤ 8 ∧ Accepted sampleExt 2 sampleCallBig)
      ∧ initialState 2 sampleCallBig = [q + 1, 2, 3]
      ∧ (Accepted sampleExt 2 sampleCallU
          ∧ initialState 2 sampleCallU = (initialState 2 sampleCallBig).map (· % q))
      ∧ ∃ v, v < q
        ∧ (∃ fuel, ∀ k, run (createCode sampleExt ((2 : Nat) : Int)).calls sampleCallBig
              (fuel + k) initState = some (.returned (wordBytes v)))
        ∧ (∃ fuel, ∀ k, run (createCode sampleExt ((2 : Nat) : Int)).calls sampleCallU
              (fuel + k) initState = some (.returned (wordBytes v)))) :=
  ⟨⟨⟨by decide, by decide, by unfold Accepted; decide⟩, by decide,
      ((C18_unreduced_inputs_up_to_arity_6 sampleExt 7 sampleCall7Big (by decide) (by decide)
        (by unfold Accepted; decide)).2.2.2 (by decide)).2.1⟩,
    ⟨⟨by decide, by decide, by unfold Accepted; decide⟩, by decide,
      ⟨by unfold Accepted; decide, by decide⟩, by
      obtain ⟨v, h1, _, h3, h6⟩ :=
        (C18_unreduced_inputs_up_to_arity_6 sampleExt 2 sampleCallBig (by decide) (by decide)
          (by unfold Accepted; decide)).2.2.1 (by decide)
      exact ⟨v, h1, h3, h6 sampleCallU (by unfold Accepted; decide) (by decide)⟩⟩⟩

/-- C19: for every width in 2..9 with `R = 8 + partialRounds(t)`, the indices
`r * t + i` used by `ark` over the rounds `r < R` and positions `i < t` are, in
order, exactly `0, 1, ..., R * t - 1`: they are pairwise distinct and below
`R * t`, and the round loop pushes `K[t-2][0], ..., K[t-2][R*t-1]` once each in
table order; the lookup `N_ROUNDS_P[t - 2]` is inside the 8-entry table. -/
theorem C19_round_constant_indices (E : Ext) (t : Nat) (h2 : 2 ≤ t) (h9 : t ≤ 9) :
    (List.range (8 + nRoundsPOf t)).flatMap (arkIndices t)
        = List.range ((8 + nRoundsPOf t) * t)
      ∧ ((List.range (8 + nRoundsPOf t)).flatMap (arkIndices t)).Nodup
      ∧ (∀ r i, r < 8 + nRoundsPOf t → i < t → r * t + i < (8 + nRoundsPOf t) * t)
      ∧ (∀ r i r' i', i < t → i' < t → r * t + i = r' * t + i' → r = r' ∧ i = i')
      ∧ (∀ r, pushedHex (ark E t r)
          = (List.range t).map fun i => toHex256 (E.K (t - 2) (r * t + i)))
      ∧ pushedHex (rounds E t N_ROUNDS_F (nRoundsPOf t))
          = (List.range ((8 + nRoundsPOf t) * t)).map (fun k => toHex256 (E.K (t - 2) k))
      ∧ N_ROUNDS_P.length = 8
      ∧ t - 2 < N_ROUNDS_P.length
      ∧ N_ROUNDS_P[t - 2]? = some (nRoundsPOf t) := by
  refine ⟨arkIndices_flatMap t _, ?_, ?_, ?_, ?_, pushedHex_rounds E t _ _, rfl, ?_, ?_⟩
  · rw [arkIndices_flatMap]
    exact List.nodup_range _
  · intro r i hr hi
    have : (r + 1) * t ≤ (8 + nRoundsPOf t) * t := Nat.mul_le_mul_right t hr
    rw [Nat.add_mul] at this
    omega
  · intro r i r' i' hi hi' he
    exact offset_inj t r i r' i' hi hi' (by omega)
  · intro r
    rw [pushedHex_ark, arkIndices, List.map_map]
    rfl
  · have : N_ROUNDS_P.length = 8 := rfl
    omega
  · interval_cases t <;> rfl

/-- Witness of C19 at width 3, where `R * t = 65 * 3`. -/
theorem C19_witness :
    (2 ≤ 3 ∧ 3 ≤ 9)
      ∧ (List.range (8 + nRoundsPOf 3)).flatMap (arkIndices 3)
          = List.range ((8 + nRoundsPOf 3) * 3)
      ∧ (8 + nRoundsPOf 3) * 3 = 195 :=
  ⟨⟨by decide, by decide⟩,
    (C19_round_constant_indices sampleExt 3 (by decide) (by decide)).1, by decide⟩

/-- C20: `toHex256(a)` is `"0x"` followed by lowercase hexadecimal digits whose
base-16 value is `a`; for `a < 2^256` there are exactly 64 digits (a 32-byte literal), and for
`a ≥ 2^256` the digits are those of `a` itself, more than 64 of them, neither
padded nor truncated. -/
theorem C20_toHex256 (a : Nat) :
    ∃ ds, (toHex256 a).data = '0' :: 'x' :: ds
      ∧ (∀ c ∈ ds, c ∈ "0123456789abcdef".data)
      ∧ hexDigitsVal ds = a
      ∧ hexToNat (toHex256 a) = a
      ∧ (a < 2 ^ 256 → ds.length = 64)
      ∧ (a < 2 ^ 256 → (Lit.hex (toHex256 a)).bytes.length = 32)
      ∧ (2 ^ 256 ≤ a → ds = Nat.toDigits 16 a ∧ 64 < ds.length) := by
  refine ⟨_, toHex256_data a, ?_, ?_, hexToNat_toHex256 a, ?_, toHex256_bytes_length a, ?_⟩
  · intro c hc
    rcases List.mem_append.mp hc with h | h
    · rw [List.eq_of_mem_replicate h]
      decide
    · exact toDigits_hexChars a c h
  · show digitsVal 16 _ = a
    rw [digitsVal_replicate_zero, digitsVal_toDigits 16 (by omega) (by omega)]
  · intro ha
    have := toDigits_length_le a ha
    simp only [List.length_append, List.length_replicate]
    omega
  · intro ha
    have h := toDigits_length_gt a ha
    have h0 : 64 - (Nat.toDigits 16 a).length = 0 := by omega
    rw [h0]
    exact ⟨by simp, by simpa using h⟩

/-- Witness of C20 at `a = 255` and at `a = 2^256`. -/
theorem C20_witness :
    (∃ ds, (toHex256 255).data = '0' :: 'x' :: ds ∧ hexDigitsVal ds = 255
        ∧ ((255 : Nat) < 2 ^ 256 → ds.length = 64))
      ∧ toHex256 255 = "0x00000000000000000000000000000000000000000000000000000000000000ff"
      ∧ (∃ ds, (toHex256 (2 ^ 256)).data = '0' :: 'x' :: ds
        ∧ ((2 : Nat) ^ 256 ≤ 2 ^ 256 → ds = Nat.toDigits 16 (2 ^ 256) ∧ 64 < ds.length)) :=
  ⟨by
    obtain ⟨ds, h1, _, h3, _, h5, _, _⟩ := C20_toHex256 255
    exact ⟨ds, h1, h3, h5⟩, by decide, by
    obtain ⟨ds, h1, _, _, _, _, _, h6⟩ := C20_toHex256 (2 ^ 256)
    exact ⟨ds, h1, h6⟩⟩

end PoseidonExt
